import Mathlib

/-!
Verification development for the LoRA module-surgery library
(`lora_diffusion/lora.py`).

The development is a shallow embedding of the Python source:

* tensors are modelled opaquely (as identifiers) where the code only stores
  and moves them, and as entry functions into `ℚ` where the code computes
  with them (forward passes, collapse);
* Python dictionaries are association lists with insert-or-overwrite
  semantics, preserving insertion order as CPython does;
* fallible code is modelled in `Except String`, the string being the
  exception, e.g. ValueError or AttributeError, that the Python code raises;
* `json.dumps` / `json.loads` on the metadata strings and `str` / `int` on
  rank numbers are modelled by injective codecs (`MetaVal`, `pyStr`/`pyInt?`),
  and the safetensors file itself is modelled as the pair of maps
  (tensor map, metadata map) that `safe_save` writes and `safe_open` reads.
-/

/-! ## Python string and list primitives -/

/-- One decimal digit character, as Python `str` prints it. -/
def pyDigit (d : ℕ) : Char := Char.ofNat (48 + d)

/-- Fuel-driven decimal printer (the fuel makes the recursion structural, so
that terms reduce in the kernel); `pyStr` supplies enough fuel. -/
def pyStrAux : ℕ → ℕ → List Char
  | 0, _ => []
  | fuel + 1, n => if n < 10 then [pyDigit n] else pyStrAux fuel (n / 10) ++ [pyDigit (n % 10)]

/-- Python `str(n)` for a natural number. -/
def pyStr (n : ℕ) : String := ⟨pyStrAux (n + 1) n⟩

/-- Python `int(s)` for a string of decimal digits; `none` models the
ValueError raised on any other input. -/
def pyInt? (s : String) : Option ℕ :=
  if s.data ≠ [] ∧ s.data.all (fun c => decide (48 ≤ c.toNat) && decide (c.toNat ≤ 57)) then
    some (s.data.foldl (fun acc c => acc * 10 + (c.toNat - 48)) 0)
  else none

/-- Python dict assignment `d[k] = v`: overwrite in place if the key exists
(keeping its position, as CPython dicts do), else append. -/
def dinsert {α : Type} (k : String) (v : α) : List (String × α) → List (String × α)
  | [] => [(k, v)]
  | (k', v') :: rest => if k' = k then (k, v) :: rest else (k', v') :: dinsert k v rest

/-- Python dict lookup `d.get(k)`. -/
def dget {α : Type} : List (String × α) → String → Option α
  | [], _ => none
  | (k', v') :: rest, k => if k' = k then some v' else dget rest k

/-- Splitting a character list on `':'`; mirrors Python `str.split(":")`
(the result list is never empty, and empty segments are kept). -/
def splitCAux : List Char → List (List Char)
  | [] => [[]]
  | c :: cs =>
    if c = ':' then [] :: splitCAux cs
    else
      match splitCAux cs with
      | [] => [[c]]
      | g :: gs => (c :: g) :: gs

/-- Python `k.split(":")`. -/
def splitColon (k : String) : List String := (splitCAux k.data).map (fun l => ⟨l⟩)

/-- The grouping key `get_name = lambda k: k.split(":")[0]` of
`parse_safeloras`: the prefix of `k` before the first `':'`. -/
def getName (k : String) : String := ⟨k.data.takeWhile (fun c => c != ':')⟩

/-- Lexicographic comparison of character lists by code point — the order
Python uses to compare strings.  (Defined directly so that it reduces in the
kernel, which the library order on `String` does not.) -/
def charsLe : List Char → List Char → Bool
  | [], _ => true
  | _ :: _, [] => false
  | a :: as, b :: bs =>
    if a.toNat < b.toNat then true
    else if b.toNat < a.toNat then false
    else charsLe as bs

/-- The sort key of `keys.sort(key=get_name)`: compare only the component
prefix of each tensor key. -/
def keyLe (a b : String) : Prop := charsLe (getName a).data (getName b).data = true

instance : DecidableRel keyLe := fun a b =>
  inferInstanceAs (Decidable (charsLe (getName a).data (getName b).data = true))

/-- Python `keys.sort(key=get_name)`.  Python's sort is stable, and a stable
sort's output is unique, so insertion sort (Mathlib's `insertionSort` is
stable) is an exact model. -/
def sortKeys (l : List String) : List String := l.insertionSort keyLe

/-- `itertools.groupby(keys, get_name)`: split a list into maximal runs of
consecutive elements sharing a `getName`, tagging each run with that name. -/
def pyGroupBy : List String → List (String × List String)
  | [] => []
  | k :: ks =>
    match pyGroupBy ks with
    | [] => [(getName k, [k])]
    | (n, g) :: rest =>
      if getName k = n then (getName k, k :: g) :: rest
      else (getName k, [k]) :: (n, g) :: rest

/-! ## Serialization layer (`save_safeloras_with_embeds`, `parse_safeloras`,
`parse_safeloras_embeds`)

Tensor payloads are opaque to this layer: the code only stores and retrieves
them, so they are modelled as identifiers `STensor := ℕ` compared by value. -/

/-- Opaque tensor payload handled by the serialization layer. -/
abbrev STensor : Type := ℕ

/-- A value of the safetensors metadata map.  In the source each value is a
string; the three shapes of string the writer produces — `json.dumps` of a
tag list, `str` of a rank, and the sentinel `"<embed>"` — are injectively
distinguishable, which this inductive records. -/
inductive MetaVal : Type where
  | tagsJson : List String → MetaVal
  | rankStr : ℕ → MetaVal
  | embedFlag : MetaVal
deriving DecidableEq, Repr

/-- A value `json.loads` can return for a metadata entry the reader treats as
a tag list: the list itself, or a bare number when the string was `str(rank)`. -/
inductive JsonVal : Type where
  | arr : List String → JsonVal
  | num : ℕ → JsonVal
deriving DecidableEq, Repr

/-- `json.loads` on the strings `MetaVal` models.  The embed sentinel
`"<embed>"` is not valid JSON, so it fails. -/
def jsonLoadsMeta : MetaVal → Except String JsonVal
  | .tagsJson t => .ok (.arr t)
  | .rankStr n => .ok (.num n)
  | .embedFlag => .error "json.decoder.JSONDecodeError"

/-- Python `int(s)` applied to a metadata string. -/
def pyIntMeta : MetaVal → Except String ℕ
  | .rankStr n => .ok n
  | _ => .error "ValueError: invalid literal for int() with base 10"

/-- The pair of maps `safe_save` writes to disk and `safe_open` reads back:
named tensors plus string metadata. -/
structure SafeFile : Type where
  weights : List (String × STensor)
  metadata : List (String × MetaVal)
deriving DecidableEq, Repr

/-- Key of the up tensor of layer `i` of a component. -/
def upKey (name : String) (i : ℕ) : String := name ++ ":" ++ pyStr i ++ ":up"

/-- Key of the down tensor of layer `i` of a component. -/
def downKey (name : String) (i : ℕ) : String := name ++ ":" ++ pyStr i ++ ":down"

/-- Key of the rank metadata entry of layer `i` of a component. -/
def rankKey (name : String) (i : ℕ) : String := name ++ ":" ++ pyStr i ++ ":rank"

/-- One component of a bundle as the writer consumes it: the ordered layers
delivered by `extract_lora_ups_down`, each layer contributing
(rank `_down.out_features`, up weight, down weight), plus the component's
target-set tag list. -/
structure ComponentIn : Type where
  layers : List (ℕ × STensor × STensor)
  tags : List String
deriving DecidableEq, Repr

/-- The inner loop of `save_safeloras_with_embeds` over one component's
enumerated layers: for layer `i` write `name:i:rank` metadata, then the
`name:i:up` and `name:i:down` tensors. -/
def saveComponentLayers (name : String) : ℕ → List (ℕ × STensor × STensor) → SafeFile → SafeFile
  | _, [], st => st
  | i, (r, u, d) :: rest, st =>
    saveComponentLayers name (i + 1) rest
      { weights := dinsert (downKey name i) d (dinsert (upKey name i) u st.weights),
        metadata := dinsert (rankKey name i) (.rankStr r) st.metadata }

/-- `save_safeloras_with_embeds`: per component, write the tag-list metadata
under the bare component name and then the per-layer entries; afterwards each
embed token gets the sentinel metadata and its tensor under the token key. -/
def saveSafelorasWithEmbeds (modelmap : List (String × ComponentIn))
    (embeds : List (String × STensor)) : SafeFile :=
  let st := modelmap.foldl
    (fun st c =>
      saveComponentLayers c.1 0 c.2.layers
        { st with metadata := dinsert c.1 (.tagsJson c.2.tags) st.metadata })
    ⟨[], []⟩
  embeds.foldl
    (fun st te =>
      { weights := dinsert te.1 te.2 st.weights,
        metadata := dinsert te.1 .embedFlag st.metadata })
    st

/-- What `parse_safeloras` stores per component: the preallocated weight list
(slots may remain `None`), the rank list, and whatever `json.loads` returned
for the component metadata. -/
abbrev ParsedLora : Type := List (Option STensor) × List ℕ × JsonVal

/-- Python `l[i] = v` on a list: in-range assignment or IndexError.
(Negative indices cannot arise from the `str(i)` keys the writer emits and
are not modelled.) -/
def pyListSet {α : Type} (l : List α) (i : ℕ) (v : α) : Except String (List α) :=
  if i < l.length then .ok (l.set i v) else .error "IndexError: list assignment index out of range"

/-- The body of the per-key loop of `parse_safeloras`: unpack
`_, idx, direction = key.split(":")`, set `ranks[idx]` from the
`name:idx:rank` metadata, and set `weights[idx*2 + (1 if direction == "down"
else 0)]` to the tensor stored under the key. -/
def parseKeyStep (md : List (String × MetaVal)) (wts : List (String × STensor)) (name : String)
    (st : List ℕ × List (Option STensor)) (key : String) :
    Except String (List ℕ × List (Option STensor)) :=
  match splitColon key with
  | [_, idxs, dir] =>
    match pyInt? idxs with
    | none => .error "ValueError: invalid literal for int() with base 10"
    | some idx =>
      match dget md (rankKey name idx) with
      | none => .error "KeyError"
      | some mv => do
        let rv ← pyIntMeta mv
        let ranks ← pyListSet st.1 idx rv
        let slot := idx * 2 + (if dir = "down" then 1 else 0)
        match dget wts key with
        | none => .error "KeyError: get_tensor"
        | some t => do
          let ws ← pyListSet st.2 slot (some t)
          .ok (ranks, ws)
  | _ => .error "ValueError: not enough values to unpack"

/-- The per-group body of `parse_safeloras`: reject a group with no metadata,
skip embed groups, `json.loads` the target info, preallocate
`ranks = [4] * (len(keys) // 2)` and `weights = [None] * len(keys)`, and run
the key loop. -/
def parseGroup (md : List (String × MetaVal)) (wts : List (String × STensor))
    (name : String) (mkeys : List String) : Except String (Option (String × ParsedLora)) :=
  match dget md name with
  | none => .error ("Tensor " ++ name ++ " has no metadata - is this a Lora safetensor?")
  | some .embedFlag => .ok none
  | some info => do
    let target ← jsonLoadsMeta info
    let init : List ℕ × List (Option STensor) :=
      (List.replicate (mkeys.length / 2) 4, List.replicate mkeys.length none)
    let (ranks, ws) ← mkeys.foldlM (parseKeyStep md wts name) init
    .ok (some (name, (ws, ranks, target)))

/-- `parse_safeloras`: sort the tensor keys by component prefix, group
consecutive equal prefixes, and build the per-component results in a dict
(insert-or-overwrite).  Any raised exception aborts the whole parse. -/
def parseSafeloras (f : SafeFile) : Except String (List (String × ParsedLora)) :=
  (pyGroupBy (sortKeys (f.weights.map Prod.fst))).foldlM
    (fun acc g => do
      match ← parseGroup f.metadata f.weights g.1 g.2 with
      | none => pure acc
      | some e => pure (dinsert e.1 e.2 acc))
    []

/-- `parse_safeloras_embeds`: collect exactly the tensors whose own key has
the embed sentinel as metadata, in key order. -/
def parseSafelorasEmbeds (f : SafeFile) : List (String × STensor) :=
  f.weights.filterMap
    (fun kv =>
      match dget f.metadata kv.1 with
      | some .embedFlag => some kv
      | _ => none)

/-- The weight-map entries one component contributes, in writer order
(`name:i:up` then `name:i:down` per enumerated layer). -/
def wEntries (name : String) : ℕ → List (ℕ × STensor × STensor) → List (String × STensor)
  | _, [] => []
  | i, (_, u, d) :: rest => (upKey name i, u) :: (downKey name i, d) :: wEntries name (i + 1) rest

/-- The metadata entries one component's layer loop contributes. -/
def mEntries (name : String) : ℕ → List (ℕ × STensor × STensor) → List (String × MetaVal)
  | _, [] => []
  | i, (r, _, _) :: rest => (rankKey name i, .rankStr r) :: mEntries name (i + 1) rest

/-- The weight list `parse_safeloras` reconstructs for a component: slot `2i`
holds the up tensor and slot `2i+1` the down tensor of layer `i`. -/
def parsedWeights (layers : List (ℕ × STensor × STensor)) : List (Option STensor) :=
  layers.flatMap (fun t => [some t.2.1, some t.2.2])

/-- The rank list `parse_safeloras` reconstructs for a component. -/
def parsedRanks (layers : List (ℕ × STensor × STensor)) : List ℕ :=
  layers.map Prod.fst

/-- The state of the per-key loop of `parse_safeloras` after the keys of the
given layers (enumerated from `i`) have been processed. -/
def applyLayers (i : ℕ) (layers : List (ℕ × STensor × STensor))
    (st : List ℕ × List (Option STensor)) : List ℕ × List (Option STensor) :=
  match layers, st with
  | [], st => st
  | (r, u, d) :: rest, (ranks, ws) =>
    applyLayers (i + 1) rest (ranks.set i r, (ws.set (i * 2) (some u)).set (i * 2 + 1) (some d))

/-- A string without `':'`, so it cannot collide with the reader's
colon-delimited key syntax. -/
def noColon (s : String) : Prop := ':' ∉ s.data

instance (s : String) : Decidable (noColon s) := inferInstanceAs (Decidable (_ ∉ _))

/-- The weight map the writer produces, in canonical append form (valid when
all keys are fresh, which the round-trip hypotheses guarantee). -/
def wAll (mm : List (String × ComponentIn)) (em : List (String × STensor)) :
    List (String × STensor) :=
  (mm.flatMap fun c => wEntries c.1 0 c.2.layers) ++ em

/-- The metadata map the writer produces, in canonical append form. -/
def mAll (mm : List (String × ComponentIn)) (em : List (String × STensor)) :
    List (String × MetaVal) :=
  (mm.flatMap fun c => (c.1, MetaVal.tagsJson c.2.tags) :: mEntries c.1 0 c.2.layers)
    ++ em.map (fun te => (te.1, MetaVal.embedFlag))

/-! ## Numeric layer semantics

Forward passes and weight algebra are modelled over exact rationals (the
spec's float statements are all "within floating-point tolerance", i.e. the
exact identities below).  Weight tensors are entry functions; sums run over
the explicit dimension bounds the layers carry.  Dropout is carried as an
uninterpreted function so every statement covers any realization of the
random mask (and the identity function models inactive/eval dropout). -/

/-- Apply an optional bias vector. -/
def biasApp (b : Option (ℕ → ℚ)) (o : ℕ) : ℚ :=
  match b with
  | some f => f o
  | none => 0

/-- `nn.Linear` forward, one output entry: `bias + Σ_i W[o][i] * x[i]`. -/
def linearFwd (inF : ℕ) (w : ℕ → ℕ → ℚ) (b : Option (ℕ → ℚ)) (x : ℕ → ℚ) (o : ℕ) : ℚ :=
  biasApp b o + ∑ i ∈ Finset.range inF, w o i * x i

/-- State of a `LoraInjectedLinear` module: the wrapped `linear`, the
`lora_down` / `lora_up` weights, the dropout stage and the scale. -/
structure LoraLinearF : Type where
  inF : ℕ
  outF : ℕ
  r : ℕ
  linearW : ℕ → ℕ → ℚ
  linearB : Option (ℕ → ℚ)
  downW : ℕ → ℕ → ℚ
  upW : ℕ → ℕ → ℚ
  dropout : (ℕ → ℚ) → (ℕ → ℚ)
  scale : ℚ

/-- `LoraInjectedLinear.__init__`: reject `r > min(in_features, out_features)`
with ValueError; `r = 0` raises ZeroDivisionError at `std=1/r`
(`nn.init.normal_` line).  `linInit`/`biasInit`/`downInit` stand for the
randomly initialized `nn.Linear` weights; `lora_up` is zero-initialized and
`scale` starts at 1. -/
def mkLoraInjectedLinear (inF outF : ℕ) (hasBias : Bool) (r : ℕ)
    (dropoutF : (ℕ → ℚ) → (ℕ → ℚ)) (linInit downInit : ℕ → ℕ → ℚ) (biasInit : ℕ → ℚ) :
    Except String LoraLinearF :=
  if r > min inF outF then
    .error "ValueError: LoRA rank r must be less or equal than min(in_features, out_features)"
  else if r = 0 then .error "ZeroDivisionError: division by zero"
  else
    .ok
      { inF := inF, outF := outF, r := r,
        linearW := linInit, linearB := if hasBias then some biasInit else none,
        downW := downInit, upW := fun _ _ => 0,
        dropout := dropoutF, scale := 1 }

/-- `LoraInjectedLinear.forward`:
`self.linear(input) + self.lora_up(self.dropout(self.lora_down(input))) * self.scale`. -/
def LoraLinearF.forward (m : LoraLinearF) (x : ℕ → ℚ) (o : ℕ) : ℚ :=
  linearFwd m.inF m.linearW m.linearB x o
    + linearFwd m.r m.upW none (m.dropout (fun j => linearFwd m.inF m.downW none x j)) o * m.scale

/-- The per-layer body of `inject_trainable_lora`: construct a fresh
`LoraInjectedLinear` for the located layer's dimensions and then install the
original layer's `weight` and `bias` into its `linear`. -/
def injectTrainableLoraLinear (inF outF : ℕ) (w : ℕ → ℕ → ℚ) (b : Option (ℕ → ℚ)) (r : ℕ)
    (dropoutF : (ℕ → ℚ) → (ℕ → ℚ)) (linInit downInit : ℕ → ℕ → ℚ) (biasInit : ℕ → ℚ) :
    Except String LoraLinearF :=
  (mkLoraInjectedLinear inF outF b.isSome r dropoutF linInit downInit biasInit).map
    fun t =>
      { t with
        linearW := w,
        linearB := match b with | some bb => some bb | none => t.linearB }

/-- `tune_lora_scale` on one `LoraInjectedLinear`: set the scale field. -/
def tuneLoraScaleLinear (m : LoraLinearF) (alpha : ℚ) : LoraLinearF := { m with scale := alpha }

/-- One entry of the matrix product `lora_up.weight @ lora_down.weight`
(inner dimension `r`). -/
def matMulEntry (r : ℕ) (u d : ℕ → ℕ → ℚ) (o i : ℕ) : ℚ :=
  ∑ rho ∈ Finset.range r, u o rho * d rho i

/-- The `LoraInjectedLinear` branch of `collapse_lora`:
`linear.weight += alpha * (lora_up.weight @ lora_down.weight)`. -/
def collapseLoraLinear (m : LoraLinearF) (alpha : ℚ) : LoraLinearF :=
  { m with linearW := fun o i => m.linearW o i + alpha * matMulEntry m.r m.upW m.downW o i }

/-- A plain `nn.Linear` layer. -/
structure LinearF : Type where
  inF : ℕ
  outF : ℕ
  w : ℕ → ℕ → ℚ
  b : Option (ℕ → ℚ)

/-- Forward pass of a plain `nn.Linear`. -/
def LinearF.forward (m : LinearF) (x : ℕ → ℚ) (o : ℕ) : ℚ := linearFwd m.inF m.w m.b x o

/-- The `LoraInjectedLinear` branch of `monkeypatch_remove_lora`: rebuild a
plain `nn.Linear` carrying the wrapped layer's weight and bias. -/
def monkeypatchRemoveLinear (m : LoraLinearF) : LinearF :=
  { inF := m.inF, outF := m.outF, w := m.linearW, b := m.linearB }

/-- The hyperparameters of an `nn.Conv2d` (square-tuple stride, padding and
dilation are carried as single naturals, as PyTorch broadcasts ints). -/
structure Conv2dCfg : Type where
  inC : ℕ
  outC : ℕ
  kh : ℕ
  kw : ℕ
  stride : ℕ
  pad : ℕ
  dil : ℕ
  groups : ℕ
deriving DecidableEq, Repr

/-- Zero-padded read of a `channels × H × W` input at integer spatial
coordinates. -/
def convPadded (bh bw : ℕ) (x : ℕ → ℤ → ℤ → ℚ) (c : ℕ) (i j : ℤ) : ℚ :=
  if 0 ≤ i ∧ i < (bh : ℤ) ∧ 0 ≤ j ∧ j < (bw : ℤ) then x c i j else 0

/-- `nn.Conv2d` forward, one output entry at output channel `o` and output
position `(i, j)`, on an input of spatial size `bh × bw` (grouped
convolution: output channel `o` reads the input-channel block of its group). -/
def convEntry (cfg : Conv2dCfg) (w : ℕ → ℕ → ℕ → ℕ → ℚ) (b : Option (ℕ → ℚ)) (bh bw : ℕ)
    (x : ℕ → ℤ → ℤ → ℚ) (o : ℕ) (i j : ℤ) : ℚ :=
  biasApp b o +
    ∑ cc ∈ Finset.range (cfg.inC / cfg.groups), ∑ ki ∈ Finset.range cfg.kh,
      ∑ kj ∈ Finset.range cfg.kw,
        w o cc ki kj *
          convPadded bh bw x (o / (cfg.outC / cfg.groups) * (cfg.inC / cfg.groups) + cc)
            (i * (cfg.stride : ℤ) + (ki : ℤ) * (cfg.dil : ℤ) - (cfg.pad : ℤ))
            (j * (cfg.stride : ℤ) + (kj : ℤ) * (cfg.dil : ℤ) - (cfg.pad : ℤ))

/-- Output spatial extent of a convolution along one axis. -/
def convOutDim (k s p d n : ℕ) : ℕ := (n + 2 * p - d * (k - 1) - 1) / s + 1

/-- State of a `LoraInjectedConv2d` module. -/
structure LoraConv2dF : Type where
  cfg : Conv2dCfg
  r : ℕ
  convW : ℕ → ℕ → ℕ → ℕ → ℚ
  convB : Option (ℕ → ℚ)
  downW : ℕ → ℕ → ℕ → ℕ → ℚ
  upW : ℕ → ℕ → ℕ → ℕ → ℚ
  dropout : (ℕ → ℤ → ℤ → ℚ) → (ℕ → ℤ → ℤ → ℚ)
  scale : ℚ

/-- Hyperparameters of the `lora_down` conv: same kernel, stride, padding,
dilation and groups as the base conv, but `r` output channels. -/
def downCfg (m : LoraConv2dF) : Conv2dCfg := { m.cfg with outC := m.r }

/-- Hyperparameters of the `lora_up` conv: a 1×1, stride-1, unpadded,
ungrouped conv from `r` channels to the base output channels. -/
def upCfg (m : LoraConv2dF) : Conv2dCfg :=
  { inC := m.r, outC := m.cfg.outC, kh := 1, kw := 1, stride := 1, pad := 0, dil := 1, groups := 1 }

/-- `LoraInjectedConv2d.__init__`: first the rank guard (ValueError), then
`self.conv = nn.Conv2d(...)`, whose `_ConvNd` constructor raises ValueError
when `groups` is not positive or `in_channels`/`out_channels` is not
divisible by `groups`; then `self.lora_down = nn.Conv2d(..., out_channels=r,
groups=groups)`, which additionally requires `r` divisible by `groups`; and
finally the `std=1/r` initialization raises ZeroDivisionError at `r = 0`. -/
def mkLoraInjectedConv2d (cfg : Conv2dCfg) (hasBias : Bool) (r : ℕ)
    (dropoutF : (ℕ → ℤ → ℤ → ℚ) → (ℕ → ℤ → ℤ → ℚ)) (convInit downInit : ℕ → ℕ → ℕ → ℕ → ℚ)
    (biasInit : ℕ → ℚ) : Except String LoraConv2dF :=
  if r > min cfg.inC cfg.outC then
    .error "ValueError: LoRA rank r must be less or equal than min(in_channels, out_channels)"
  else if cfg.groups = 0 then .error "ValueError: groups must be a positive integer"
  else if cfg.inC % cfg.groups ≠ 0 then
    .error "ValueError: in_channels must be divisible by groups"
  else if cfg.outC % cfg.groups ≠ 0 then
    .error "ValueError: out_channels must be divisible by groups"
  else if r % cfg.groups ≠ 0 then
    .error "ValueError: out_channels must be divisible by groups"
  else if r = 0 then .error "ZeroDivisionError: division by zero"
  else
    .ok
      { cfg := cfg, r := r,
        convW := convInit, convB := if hasBias then some biasInit else none,
        downW := downInit, upW := fun _ _ _ _ => 0,
        dropout := dropoutF, scale := 1 }

/-- `LoraInjectedConv2d.forward`:
`self.conv(input) + self.lora_up(self.dropout(self.lora_down(input))) * self.scale`,
on an input of spatial size `bh × bw` (the intermediate activation has the
conv's output spatial size). -/
def LoraConv2dF.forward (m : LoraConv2dF) (bh bw : ℕ) (x : ℕ → ℤ → ℤ → ℚ) (o : ℕ) (i j : ℤ) :
    ℚ :=
  convEntry m.cfg m.convW m.convB bh bw x o i j +
    convEntry (upCfg m) m.upW none (convOutDim m.cfg.kh m.cfg.stride m.cfg.pad m.cfg.dil bh)
        (convOutDim m.cfg.kw m.cfg.stride m.cfg.pad m.cfg.dil bw)
        (m.dropout (fun c i' j' => convEntry (downCfg m) m.downW none bh bw x c i' j')) o i j *
      m.scale

/-- The per-layer body of `inject_trainable_lora_extended` for a conv slot:
construct a fresh `LoraInjectedConv2d` with the located conv's
hyperparameters and install its `weight`/`bias` into the wrapped conv. -/
def injectTrainableLoraConv (cfg : Conv2dCfg) (w : ℕ → ℕ → ℕ → ℕ → ℚ) (b : Option (ℕ → ℚ))
    (r : ℕ) (dropoutF : (ℕ → ℤ → ℤ → ℚ) → (ℕ → ℤ → ℤ → ℚ))
    (convInit downInit : ℕ → ℕ → ℕ → ℕ → ℚ) (biasInit : ℕ → ℚ) : Except String LoraConv2dF :=
  (mkLoraInjectedConv2d cfg b.isSome r dropoutF convInit downInit biasInit).map
    fun t =>
      { t with
        convW := w,
        convB := match b with | some bb => some bb | none => t.convB }

/-- `tune_lora_scale` on one `LoraInjectedConv2d`. -/
def tuneLoraScaleConv (m : LoraConv2dF) (alpha : ℚ) : LoraConv2dF := { m with scale := alpha }

/-- `lora_up.weight.data.flatten(start_dim=1)`: shape `(outC, r·1·1)`. -/
def flatUpW (m : LoraConv2dF) (o f : ℕ) : ℚ := m.upW o f 0 0

/-- `lora_down.weight.data.flatten(start_dim=1)`: shape
`(r, (inC/groups)·kh·kw)`, column `f` decoding row-major to
`(f / (kh·kw), f % (kh·kw) / kw, f % (kh·kw) % kw)`. -/
def flatDownW (m : LoraConv2dF) (rho f : ℕ) : ℚ :=
  m.downW rho (f / (m.cfg.kh * m.cfg.kw)) (f % (m.cfg.kh * m.cfg.kw) / m.cfg.kw)
    (f % (m.cfg.kh * m.cfg.kw) % m.cfg.kw)

/-- One entry of
`(lora_up.weight.flatten(1) @ lora_down.weight.flatten(1)).reshape(conv.weight.shape)`. -/
def collapsedDelta (m : LoraConv2dF) (o cc ki kj : ℕ) : ℚ :=
  ∑ rho ∈ Finset.range m.r,
    flatUpW m o rho * flatDownW m rho (cc * (m.cfg.kh * m.cfg.kw) + ki * m.cfg.kw + kj)

/-- The `LoraInjectedConv2d` branch of `collapse_lora`:
`conv.weight += alpha * (up.flatten(1) @ down.flatten(1)).reshape(conv.weight.shape)`. -/
def collapseLoraConv (m : LoraConv2dF) (alpha : ℚ) : LoraConv2dF :=
  { m with convW := fun o cc ki kj => m.convW o cc ki kj + alpha * collapsedDelta m o cc ki kj }

/-- A plain `nn.Conv2d` layer. -/
structure Conv2dF : Type where
  cfg : Conv2dCfg
  w : ℕ → ℕ → ℕ → ℕ → ℚ
  b : Option (ℕ → ℚ)

/-- Forward pass of a plain `nn.Conv2d`. -/
def Conv2dF.forward (m : Conv2dF) (bh bw : ℕ) (x : ℕ → ℤ → ℤ → ℚ) (o : ℕ) (i j : ℤ) : ℚ :=
  convEntry m.cfg m.w m.b bh bw x o i j

/-- The `LoraInjectedConv2d` branch of `monkeypatch_remove_lora`: rebuild a
plain `nn.Conv2d` with the wrapped conv's hyperparameters, weight and bias. -/
def monkeypatchRemoveConv (m : LoraConv2dF) : Conv2dF :=
  { cfg := m.cfg, w := m.convW, b := m.convB }

/-- The correction term `lora_up(dropout(lora_down(input)))` of a
`LoraInjectedLinear` forward pass (everything in `forward` except the wrapped
layer and the scale weighting). -/
def loraCorrLinear (m : LoraLinearF) (x : ℕ → ℚ) (o : ℕ) : ℚ :=
  linearFwd m.r m.upW none (m.dropout (fun j => linearFwd m.inF m.downW none x j)) o

/-- The correction term `lora_up(dropout(lora_down(input)))` of a
`LoraInjectedConv2d` forward pass. -/
def loraCorrConv (m : LoraConv2dF) (bh bw : ℕ) (x : ℕ → ℤ → ℤ → ℚ) (o : ℕ) (i j : ℤ) : ℚ :=
  convEntry (upCfg m) m.upW none (convOutDim m.cfg.kh m.cfg.stride m.cfg.pad m.cfg.dil bh)
    (convOutDim m.cfg.kw m.cfg.stride m.cfg.pad m.cfg.dil bw)
    (m.dropout (fun c i' j' => convEntry (downCfg m) m.downW none bh bw x c i' j')) o i j

/-! ## Module graph layer

The graph-surgery functions (`_find_modules_v2`, the injection loops,
`monkeypatch_or_replace_lora_extended`, `extract_lora_ups_down`,
`save_lora_weight`) treat tensors opaquely; here a tensor is an identifier
plus a shape, so that sharing of the underlying parameter object across a
module replacement is the statement `weight id unchanged`, and `.shape` is
available for the rank tests of the extended replace loop.  `Module.to(...)`
preserves parameter object identity (it at most swaps a parameter's `.data`),
so device/dtype moves are identities here. -/

/-- A tensor as the graph layer sees it: object identity plus shape. -/
structure GTensor : Type where
  id : ℕ
  shape : List ℕ
deriving DecidableEq, Repr

/-- The data of an `nn.Linear` module. -/
structure LinData : Type where
  weight : GTensor
  bias : Option GTensor
  inF : ℕ
  outF : ℕ
deriving DecidableEq, Repr

/-- The data of an `nn.Conv2d` module. -/
structure ConvData : Type where
  weight : GTensor
  bias : Option GTensor
  inC : ℕ
  outC : ℕ
  kh : ℕ
  kw : ℕ
  stride : ℕ
  pad : ℕ
  dil : ℕ
  groups : ℕ
deriving DecidableEq, Repr

mutual
/-- A module tree.  `loraLin`/`loraConv` carry their four registered
sub-modules (`linear`/`conv`, `lora_down`, `dropout`, `lora_up`, in
`__init__` registration order) plus the scale; `block` is any other module
class, identified by its class name, with its named children. -/
inductive PyMod : Type where
  | lin : LinData → PyMod
  | conv : ConvData → PyMod
  | drop : ℚ → PyMod
  | loraLin : LinData → LinData → ℚ → LinData → ℚ → PyMod
  | loraConv : ConvData → ConvData → ℚ → ConvData → ℚ → PyMod
  | block : String → PyModList → PyMod
deriving DecidableEq
/-- Named children of a module, in registration order. -/
inductive PyModList : Type where
  | nil : PyModList
  | cons : String → PyMod → PyModList → PyModList
deriving DecidableEq
end

/-- The module classes the surgery code tests with `isinstance`. -/
inductive ModKind : Type where
  | linK
  | convK
  | dropK
  | loraLinK
  | loraConvK
  | blockK
deriving DecidableEq, Repr

/-- `isinstance` class of a module. -/
def PyMod.kind : PyMod → ModKind
  | .lin _ => .linK
  | .conv _ => .convK
  | .drop _ => .dropK
  | .loraLin _ _ _ _ _ => .loraLinK
  | .loraConv _ _ _ _ _ => .loraConvK
  | .block _ _ => .blockK

/-- `module.__class__.__name__`. -/
def PyMod.clsName : PyMod → String
  | .lin _ => "Linear"
  | .conv _ => "Conv2d"
  | .drop _ => "Dropout"
  | .loraLin _ _ _ _ _ => "LoraInjectedLinear"
  | .loraConv _ _ _ _ _ => "LoraInjectedConv2d"
  | .block c _ => c

mutual
/-- `model.modules()`: depth-first preorder enumeration, self first, then
children in registration order. -/
def PyMod.modulesList : PyMod → List PyMod
  | .lin d => [.lin d]
  | .conv d => [.conv d]
  | .drop p => [.drop p]
  | .loraLin l dn p up s => [.loraLin l dn p up s, .lin l, .lin dn, .drop p, .lin up]
  | .loraConv c dn p up s => [.loraConv c dn p up s, .conv c, .conv dn, .drop p, .conv up]
  | .block c cs => .block c cs :: cs.modulesListL
/-- `modules()` of a child list, concatenated in order. -/
def PyModList.modulesListL : PyModList → List PyMod
  | .nil => []
  | .cons _ m rest => m.modulesList ++ rest.modulesListL
end

/-- A locator result: (direct parent, attribute name on the parent, module).
On a tree, walking the dotted `named_modules` path with `get_submodule` as
`_find_modules_v2` does resolves exactly to the direct parent, so the
traversal yields it directly. -/
abbrev Triple : Type := PyMod × String × PyMod

mutual
/-- All (direct parent, name, module) entries strictly below a module, in
`named_modules` preorder. -/
def PyMod.tailTrips : PyMod → List Triple
  | .lin _ => []
  | .conv _ => []
  | .drop _ => []
  | .loraLin l dn p up s =>
    [(.loraLin l dn p up s, "linear", .lin l), (.loraLin l dn p up s, "lora_down", .lin dn),
      (.loraLin l dn p up s, "dropout", .drop p), (.loraLin l dn p up s, "lora_up", .lin up)]
  | .loraConv c dn p up s =>
    [(.loraConv c dn p up s, "conv", .conv c), (.loraConv c dn p up s, "lora_down", .conv dn),
      (.loraConv c dn p up s, "dropout", .drop p), (.loraConv c dn p up s, "lora_up", .conv up)]
  | .block c cs => cs.tailTripsL (.block c cs)
/-- Triples contributed by a child list under a given parent. -/
def PyModList.tailTripsL : PyModList → PyMod → List Triple
  | .nil, _ => []
  | .cons n m rest, parent => ((parent, n, m) :: m.tailTrips) ++ rest.tailTripsL parent
end

/-- The `named_modules` sweep of one ancestor: the ancestor itself first —
its empty dotted name makes `parent = ancestor`, `name = ""` — then every
descendant with its direct parent. -/
def ancestorTrips (a : PyMod) : List Triple := (a, "", a) :: a.tailTrips

/-- The default `exclude_children_of` list:
`[LoraInjectedLinear, LoraInjectedConv2d]`. -/
def defaultExcl : List ModKind := [.loraLinK, .loraConvK]

/-- `DEFAULT_TARGET_REPLACE = UNET_DEFAULT_TARGET_REPLACE` (a Python set;
only membership is ever used, so a list models it). -/
def defaultTargetReplace : List String := ["CrossAttention", "Attention", "GEGLU"]

/-- `UNET_EXTENDED_TARGET_REPLACE`. -/
def unetExtendedTargetReplace : List String :=
  ["ResnetBlock2D", "CrossAttention", "Attention", "GEGLU"]

/-- `_find_modules_v2`: enumerate ancestors (all modules, or those whose
class name is in `ancTags`); for each, yield every module in its subtree
whose class is in `searchKinds` together with its direct parent and name,
skipping matches whose direct parent's class is in `excludeKinds`. -/
def findModulesV2 (m : PyMod) (ancTags : Option (List String))
    (searchKinds excludeKinds : List ModKind) : List Triple :=
  let ancestors :=
    match ancTags with
    | some tags => m.modulesList.filter (fun a => tags.contains (PyMod.clsName a))
    | none => m.modulesList
  ancestors.flatMap
    (fun a =>
      (ancestorTrips a).filter
        (fun t => searchKinds.contains t.2.2.kind && !(excludeKinds.contains t.1.kind)))

/-- `LoraInjectedLinear.__init__` at the graph level: the rank guard (and the
`r = 0` ZeroDivisionError of `std=1/r`), then freshly allocated parameter
tensors for `linear` (weight `s`, optional bias `s+1`), `lora_down` (`s+2`)
and `lora_up` (`s+3`); returns `(linear, lora_down, lora_up)` and the next
free identifier. -/
def mkLoraLinGraph (inF outF : ℕ) (hasBias : Bool) (r s : ℕ) :
    Except String ((LinData × LinData × LinData) × ℕ) :=
  if r > min inF outF then
    .error "ValueError: LoRA rank r must be less or equal than min(in_features, out_features)"
  else if r = 0 then .error "ZeroDivisionError: division by zero"
  else
    .ok
      ((⟨⟨s, [outF, inF]⟩, if hasBias then some ⟨s + 1, [outF]⟩ else none, inF, outF⟩,
        ⟨⟨s + 2, [r, inF]⟩, none, inF, r⟩,
        ⟨⟨s + 3, [outF, r]⟩, none, r, outF⟩), s + 4)

/-- `LoraInjectedConv2d.__init__` at the graph level, analogous to
`mkLoraLinGraph`: fresh conv weights, `lora_down` sharing kernel, stride,
padding, dilation and groups with the base, `lora_up` a 1×1 ungrouped conv.
The error sequence mirrors the constructor: the rank guard, then the
`nn.Conv2d` groups checks of the base conv (`groups > 0`, `in_channels` and
`out_channels` divisible by `groups`), then the `lora_down` conv's check that
`r` is divisible by `groups`, then `std=1/r` at `r = 0`. -/
def mkLoraConvGraph (d : ConvData) (hasBias : Bool) (r s : ℕ) :
    Except String ((ConvData × ConvData × ConvData) × ℕ) :=
  if r > min d.inC d.outC then
    .error "ValueError: LoRA rank r must be less or equal than min(in_channels, out_channels)"
  else if d.groups = 0 then .error "ValueError: groups must be a positive integer"
  else if d.inC % d.groups ≠ 0 then
    .error "ValueError: in_channels must be divisible by groups"
  else if d.outC % d.groups ≠ 0 then
    .error "ValueError: out_channels must be divisible by groups"
  else if r % d.groups ≠ 0 then
    .error "ValueError: out_channels must be divisible by groups"
  else if r = 0 then .error "ZeroDivisionError: division by zero"
  else
    .ok
      ((⟨⟨s, [d.outC, d.inC / d.groups, d.kh, d.kw]⟩,
          if hasBias then some ⟨s + 1, [d.outC]⟩ else none,
          d.inC, d.outC, d.kh, d.kw, d.stride, d.pad, d.dil, d.groups⟩,
        ⟨⟨s + 2, [r, d.inC / d.groups, d.kh, d.kw]⟩, none,
          d.inC, r, d.kh, d.kw, d.stride, d.pad, d.dil, d.groups⟩,
        ⟨⟨s + 3, [d.outC, r, 1, 1]⟩, none, r, d.outC, 1, 1, 1, 0, 1, 1⟩), s + 4)

/-- The per-layer body of `inject_trainable_lora` for a located `nn.Linear`:
construct a fresh `LoraInjectedLinear` (dims and bias flag of the original),
then assign the original `weight` (and `bias`, when present) into its
`linear` — the same parameter objects, not copies. -/
def injectLinearBody (d : LinData) (r s : ℕ) : Except String (PyMod × ℕ) :=
  (mkLoraLinGraph d.inF d.outF d.bias.isSome r s).map
    fun p =>
      let lin0 := p.1.1
      let lin1 :=
        { lin0 with
          weight := d.weight,
          bias := match d.bias with | some b => some b | none => lin0.bias }
      (.loraLin lin1 p.1.2.1 (1 / 10) p.1.2.2 1, p.2)

/-- The conv branch of the `inject_trainable_lora_extended` loop body. -/
def injectConvBody (d : ConvData) (r s : ℕ) : Except String (PyMod × ℕ) :=
  (mkLoraConvGraph d d.bias.isSome r s).map
    fun p =>
      let c0 := p.1.1
      let c1 :=
        { c0 with
          weight := d.weight,
          bias := match d.bias with | some b => some b | none => c0.bias }
      (.loraConv c1 p.1.2.1 (1 / 10) p.1.2.2 1, p.2)

mutual
/-- `inject_trainable_lora` as a structural rewrite: inside a subtree rooted
at a module whose class name is in `tags` (flag `u`), every located
`nn.Linear` child is replaced by the `injectLinearBody` result.  Children of
`LoraInjectedLinear`/`LoraInjectedConv2d` are never located (the default
`exclude_children_of`), which the rewrite realizes by not descending into
those nodes.  `s` threads the fresh-tensor supply. -/
def injectModM (u : Bool) (tags : List String) (r : ℕ) : PyMod → ℕ → Except String (PyMod × ℕ)
  | .block c cs, s =>
    (injectModsM (u || tags.contains c) tags r cs s).map fun p => (.block c p.1, p.2)
  | m, s => .ok (m, s)
/-- The child loop of `inject_trainable_lora`, in registration order. -/
def injectModsM (u : Bool) (tags : List String) (r : ℕ) :
    PyModList → ℕ → Except String (PyModList × ℕ)
  | .nil, s => .ok (.nil, s)
  | .cons n m rest, s => do
    let (m2, s2) ←
      match m with
      | .lin d => if u then injectLinearBody d r s else .ok (.lin d, s)
      | other => injectModM u tags r other s
    let (rest2, s3) ← injectModsM u tags r rest s2
    .ok (.cons n m2 rest2, s3)
end

/-- `inject_trainable_lora` entry point (no preset `loras`). -/
def injectTrainableLora (m : PyMod) (tags : List String) (r s : ℕ) :
    Except String (PyMod × ℕ) :=
  injectModM false tags r m s

/-- The `r` argument of the replace entry points: a single rank or a
per-layer rank list consumed with `r.pop(0)`. -/
inductive RankArg : Type where
  | scalar : ℕ → RankArg
  | perLayer : List ℕ → RankArg
deriving DecidableEq, Repr

/-- `r.pop(0) if isinstance(r, list) else r`. -/
def popRank : RankArg → Except String (ℕ × RankArg)
  | .scalar n => .ok (n, .scalar n)
  | .perLayer [] => .error "IndexError: pop from empty list"
  | .perLayer (n :: rest) => .ok (n, .perLayer rest)

/-- The rank guard shared by both augmented-layer constructors, as hit by the
replace loop (ValueError above the bound, ZeroDivisionError at `r = 0`). -/
def rankGuard (rv bound : ℕ) : Except String Unit :=
  if rv > bound then
    .error "ValueError: LoRA rank r must be less or equal than the feasible bound"
  else if rv = 0 then .error "ZeroDivisionError: division by zero"
  else .ok ()

/-- The error sequence of `LoraInjectedConv2d.__init__` as hit by the replace
loop for a conv slot: the rank guard, then the `nn.Conv2d` groups checks of
the base conv and of `lora_down` (whose out-channel count is the popped
rank), then the `std=1/r` division. -/
def convGuard (rv inC outC groups : ℕ) : Except String Unit :=
  if rv > min inC outC then
    .error "ValueError: LoRA rank r must be less or equal than the feasible bound"
  else if groups = 0 then .error "ValueError: groups must be a positive integer"
  else if inC % groups ≠ 0 then .error "ValueError: in_channels must be divisible by groups"
  else if outC % groups ≠ 0 then .error "ValueError: out_channels must be divisible by groups"
  else if rv % groups ≠ 0 then .error "ValueError: out_channels must be divisible by groups"
  else if rv = 0 then .error "ZeroDivisionError: division by zero"
  else .ok ()

/-- The loop body of `monkeypatch_or_replace_lora_extended` for one located
module.  Linear-kind slots first test `len(loras[0].shape) != 2` and
`continue` (slot unchanged, nothing consumed) on mismatch; conv-kind slots
test `len(loras[0].shape) != 4` likewise.  Otherwise a fresh augmented layer
is built around the source layer's weight/bias (the constructor's fresh
`lora_down`/`lora_up` tensors are immediately overwritten by the two popped
correction tensors, so no fresh identifiers surface). -/
def processSlotExt (child : PyMod) (loras : List GTensor) (r : RankArg) :
    Except String (PyMod × List GTensor × RankArg) :=
  match child.kind with
  | .linK | .loraLinK =>
    match loras with
    | [] => .error "IndexError: list index out of range"
    | t0 :: loras1 =>
      if t0.shape.length ≠ 2 then .ok (child, loras, r)
      else
        match child with
        | .lin src | .loraLin src _ _ _ _ => do
          let (rv, r2) ← popRank r
          rankGuard rv (min src.inF src.outF)
          match loras1 with
          | [] => .error "IndexError: pop from empty list"
          | t1 :: rest =>
            .ok
              (.loraLin src ⟨t1, none, src.inF, rv⟩ (1 / 10) ⟨t0, none, rv, src.outF⟩ 1,
                rest, r2)
        | _ => .ok (child, loras, r)
  | .convK | .loraConvK =>
    match loras with
    | [] => .error "IndexError: list index out of range"
    | t0 :: loras1 =>
      if t0.shape.length ≠ 4 then .ok (child, loras, r)
      else
        match child with
        | .conv src | .loraConv src _ _ _ _ => do
          let (rv, r2) ← popRank r
          convGuard rv src.inC src.outC src.groups
          match loras1 with
          | [] => .error "IndexError: pop from empty list"
          | t1 :: rest =>
            .ok
              (.loraConv src
                  { src with weight := t1, bias := none, outC := rv }
                  (1 / 10)
                  ⟨t0, none, rv, src.outC, 1, 1, 1, 0, 1, 1⟩ 1,
                rest, r2)
        | _ => .ok (child, loras, r)
  | _ => .ok (child, loras, r)

mutual
/-- `monkeypatch_or_replace_lora_extended` as a structural rewrite with the
correction-tensor list and rank argument threaded through in locator order;
under a targeted subtree every located linear/conv/augmented child passes
through `processSlotExt`. -/
def patchExtMod (u : Bool) (tags : List String) :
    PyMod → List GTensor → RankArg → Except String (PyMod × List GTensor × RankArg)
  | .block c cs, loras, r =>
    (patchExtList (u || tags.contains c) tags cs loras r).map
      fun p => (.block c p.1, p.2)
  | m, loras, r => .ok (m, loras, r)
/-- The child loop of the extended replace entry point. -/
def patchExtList (u : Bool) (tags : List String) :
    PyModList → List GTensor → RankArg → Except String (PyModList × List GTensor × RankArg)
  | .nil, loras, r => .ok (.nil, loras, r)
  | .cons n m rest, loras, r => do
    let (m2, loras2, r2) ←
      match m.kind with
      | .linK | .convK | .loraLinK | .loraConvK =>
        if u then processSlotExt m loras r else .ok (m, loras, r)
      | _ => patchExtMod u tags m loras r
    let (rest2, loras3, r3) ← patchExtList u tags rest loras2 r2
    .ok (.cons n m2 rest2, loras3, r3)
end

/-- `monkeypatch_or_replace_lora_extended` entry point. -/
def monkeypatchOrReplaceLoraExtended (m : PyMod) (loras : List GTensor) (tags : List String)
    (r : RankArg) : Except String (PyMod × List GTensor × RankArg) :=
  patchExtMod false tags m loras r

/-- `extract_lora_ups_down`: locate every augmented layer under the target
tags and collect the `(lora_up.weight, lora_down.weight)` pairs; zero
matches raise `ValueError("No lora injected.")`. -/
def extractLoraUpsDown (m : PyMod) (tags : List String) :
    Except String (List (GTensor × GTensor)) :=
  let l :=
    (findModulesV2 m (some tags) [.loraLinK, .loraConvK] defaultExcl).filterMap
      (fun t =>
        match t.2.2 with
        | .loraLin _ dn _ up _ => some (up.weight, dn.weight)
        | .loraConv _ dn _ up _ => some (up.weight, dn.weight)
        | _ => none)
  if l.isEmpty then .error "ValueError: No lora injected." else .ok l

/-- A Python value at the `save_lora_weight` / `save_safeloras` boundary: the
tensor list the former builds, or the model-map dict the latter expects. -/
inductive PyVal : Type where
  | pylist : List GTensor → PyVal
  | pydict : List (String × PyVal) → PyVal

/-- Python attribute access `modelmap.items()`: only dicts have it. -/
def pyItems : PyVal → Except String (List (String × PyVal))
  | .pydict d => .ok d
  | .pylist _ => .error "AttributeError: 'list' object has no attribute 'items'"

/-- Entry of `save_safeloras` as called by `save_lora_weight`:
`save_safeloras` forwards its `modelmap` argument to
`save_safeloras_with_embeds`, whose first use of it is `modelmap.items()`
(the iteration header of the component loop).  For the dict inputs of the
normal API that loop is `saveSafelorasWithEmbeds` above; the list
`save_lora_weight` passes dies at `.items()`, which is all this entry needs
to model. -/
def saveSafelorasEntry (modelmap : PyVal) : Except String Unit :=
  (pyItems modelmap).map fun _ => ()

/-- What `save_lora_weight` produces when it returns. -/
inductive SaveOutcome : Type where
  | ptFile : List GTensor → SaveOutcome
  | safetensorsFile : SaveOutcome
deriving DecidableEq, Repr

/-- `save_lora_weight`: extract the up/down weights in traversal order,
flatten to the alternating list, then either `torch.save` the list
(`.pt` path) or hand the list to `save_safeloras` (safetensors path). -/
def saveLoraWeight (m : PyMod) (tags : List String) (saveSafetensors : Bool) :
    Except String SaveOutcome := do
  let pairs ← extractLoraUpsDown m tags
  let weights := pairs.flatMap (fun p => [p.1, p.2])
  if saveSafetensors then do
    let _ ← saveSafelorasEntry (.pylist weights)
    .ok .safetensorsFile
  else .ok (.ptFile weights)

/-! ## Theorems -/

/-- A `lora_up` projection with all-zero weight and no bias outputs zero. -/
theorem linearFwd_zeroW (r : ℕ) (v : ℕ → ℚ) (o : ℕ) :
    linearFwd r (fun _ _ => 0) none v o = 0 := by
  simp [linearFwd, biasApp]

/-- A conv with all-zero weight and no bias outputs zero everywhere. -/
theorem convEntry_zeroW (cfg : Conv2dCfg) (bh bw : ℕ) (x : ℕ → ℤ → ℤ → ℚ) (o : ℕ) (i j : ℤ) :
    convEntry cfg (fun _ _ _ _ => 0) none bh bw x o i j = 0 := by
  simp [convEntry, biasApp]

/-- Inversion of the linear injection body: on success, the produced module
is the constructor record with the original weight and bias installed. -/
theorem injectTrainableLoraLinear_ok (inF outF : ℕ) (w : ℕ → ℕ → ℚ) (b : Option (ℕ → ℚ))
    (r : ℕ) (dF : (ℕ → ℚ) → (ℕ → ℚ)) (lI dI : ℕ → ℕ → ℚ) (bI : ℕ → ℚ) (m : LoraLinearF)
    (h : injectTrainableLoraLinear inF outF w b r dF lI dI bI = .ok m) :
    m = { inF := inF, outF := outF, r := r, linearW := w, linearB := b,
          downW := dI, upW := fun _ _ => 0, dropout := dF, scale := 1 } := by
  unfold injectTrainableLoraLinear mkLoraInjectedLinear at h
  split_ifs at h with h1 h2 h3 <;> simp only [Except.map] at h
  · exact Except.noConfusion h
  · exact Except.noConfusion h
  · cases b with
    | none => simp at h3
    | some bb => injection h with hh; exact hh.symm
  · cases b with
    | none => injection h with hh; exact hh.symm
    | some bb => simp at h3

/-- Inversion of the conv injection body. -/
theorem injectTrainableLoraConv_ok (cfg : Conv2dCfg) (w : ℕ → ℕ → ℕ → ℕ → ℚ)
    (b : Option (ℕ → ℚ)) (r : ℕ) (dF : (ℕ → ℤ → ℤ → ℚ) → (ℕ → ℤ → ℤ → ℚ))
    (cI dI : ℕ → ℕ → ℕ → ℕ → ℚ) (bI : ℕ → ℚ) (m : LoraConv2dF)
    (h : injectTrainableLoraConv cfg w b r dF cI dI bI = .ok m) :
    m = { cfg := cfg, r := r, convW := w, convB := b,
          downW := dI, upW := fun _ _ _ _ => 0, dropout := dF, scale := 1 } := by
  unfold injectTrainableLoraConv mkLoraInjectedConv2d at h
  split_ifs at h with h1 h2 h3 h4 h5 h6 h7 <;> simp only [Except.map] at h
  · exact Except.noConfusion h
  · exact Except.noConfusion h
  · exact Except.noConfusion h
  · exact Except.noConfusion h
  · exact Except.noConfusion h
  · exact Except.noConfusion h
  · cases b with
    | none => simp at h7
    | some bb => injection h with hh; exact hh.symm
  · cases b with
    | none => injection h with hh; exact hh.symm
    | some bb => simp at h7

/-- C1: a freshly injected augmented layer (no preset correction tensors)
computes exactly the original layer's forward output on every input, for both
the dense body of `inject_trainable_lora` and the conv body of
`inject_trainable_lora_extended`, because `lora_up`'s weight is
zero-initialized and so the correction term vanishes identically (whatever
the dropout stage does). -/
theorem injection_preserves_forward :
    (∀ (inF outF : ℕ) (w : ℕ → ℕ → ℚ) (b : Option (ℕ → ℚ)) (r : ℕ)
        (dF : (ℕ → ℚ) → (ℕ → ℚ)) (lI dI : ℕ → ℕ → ℚ) (bI : ℕ → ℚ) (m : LoraLinearF),
        injectTrainableLoraLinear inF outF w b r dF lI dI bI = .ok m →
          ∀ (x : ℕ → ℚ) (o : ℕ), m.forward x o = linearFwd inF w b x o) ∧
    (∀ (cfg : Conv2dCfg) (w : ℕ → ℕ → ℕ → ℕ → ℚ) (b : Option (ℕ → ℚ)) (r : ℕ)
        (dF : (ℕ → ℤ → ℤ → ℚ) → (ℕ → ℤ → ℤ → ℚ)) (cI dI : ℕ → ℕ → ℕ → ℕ → ℚ)
        (bI : ℕ → ℚ) (m : LoraConv2dF),
        injectTrainableLoraConv cfg w b r dF cI dI bI = .ok m →
          ∀ (bh bw : ℕ) (x : ℕ → ℤ → ℤ → ℚ) (o : ℕ) (i j : ℤ),
            m.forward bh bw x o i j = convEntry cfg w b bh bw x o i j) := by
  constructor
  · intro inF outF w b r dF lI dI bI m h x o
    rw [injectTrainableLoraLinear_ok inF outF w b r dF lI dI bI m h]
    simp [LoraLinearF.forward, linearFwd_zeroW]
  · intro cfg w b r dF cI dI bI m h bh bw x o i j
    rw [injectTrainableLoraConv_ok cfg w b r dF cI dI bI m h]
    simp [LoraConv2dF.forward, convEntry_zeroW]

/-- Witness for `injection_preserves_forward` at concrete layers. -/
theorem injection_preserves_forward_witness :
    (({ inF := 2, outF := 2, r := 1, linearW := fun _ _ => 1, linearB := none,
        downW := fun _ _ => 0, upW := fun _ _ => 0, dropout := fun v => v,
        scale := 1 } : LoraLinearF).forward (fun _ => 1) 0 =
      linearFwd 2 (fun _ _ => 1) none (fun _ => 1) 0) ∧
    (({ cfg := ⟨1, 1, 1, 1, 1, 0, 1, 1⟩, r := 1, convW := fun _ _ _ _ => 1, convB := none,
        downW := fun _ _ _ _ => 0, upW := fun _ _ _ _ => 0, dropout := fun v => v,
        scale := 1 } : LoraConv2dF).forward 1 1 (fun _ _ _ => 1) 0 0 0 =
      convEntry ⟨1, 1, 1, 1, 1, 0, 1, 1⟩ (fun _ _ _ _ => 1) none 1 1 (fun _ _ _ => 1) 0 0 0) :=
  ⟨injection_preserves_forward.1 2 2 (fun _ _ => 1) none 1 (fun v => v) (fun _ _ => 0)
      (fun _ _ => 0) (fun _ => 0) _ rfl (fun _ => 1) 0,
    injection_preserves_forward.2 ⟨1, 1, 1, 1, 1, 0, 1, 1⟩ (fun _ _ _ _ => 1) none 1
      (fun v => v) (fun _ _ _ _ => 0) (fun _ _ _ _ => 0) (fun _ => 0) _ rfl 1 1
      (fun _ _ _ => 1) 0 0 0⟩

/-- C4 counterexample: rank `0` does not exceed `min(in_features,
out_features)`, yet constructing `LoraInjectedLinear(4, 4, r=0)` raises
(`std=1/r` divides by zero), contradicting the claim that every rank up to
the bound constructs without error. -/
theorem rank_zero_construction_raises :
    mkLoraInjectedLinear 4 4 false 0 (fun v => v) (fun _ _ => 0) (fun _ _ => 0) (fun _ => 0) =
      .error "ZeroDivisionError: division by zero" := rfl

/-- C4 (amended): constructing with `r = min + 1` always fails with the
ValueError of the rank guard, for both variants.  For the dense layer every
rank `r` with `1 ≤ r ≤ min` constructs successfully (in particular `r = min`
succeeds whenever `min ≥ 1`).  For the conv layer the same holds only when
the `nn.Conv2d` constructors accept the configuration: `groups` positive,
`in_channels`/`out_channels` divisible by `groups`, and — because `lora_down`
is built with `out_channels = r` and the base conv's `groups` — `r` itself
divisible by `groups`; an in-bound rank not divisible by `groups` raises
`nn.Conv2d`'s ValueError instead.  `r = 0` is the remaining in-bound rank
that raises (ZeroDivisionError at `std=1/r`). -/
theorem rank_guard_amended :
    (∀ (inF outF : ℕ) (hasBias : Bool) (dF : (ℕ → ℚ) → (ℕ → ℚ)) (lI dI : ℕ → ℕ → ℚ)
        (bI : ℕ → ℚ),
        mkLoraInjectedLinear inF outF hasBias (min inF outF + 1) dF lI dI bI =
          .error
            "ValueError: LoRA rank r must be less or equal than min(in_features, out_features)") ∧
    (∀ (inF outF : ℕ) (hasBias : Bool) (r : ℕ) (dF : (ℕ → ℚ) → (ℕ → ℚ))
        (lI dI : ℕ → ℕ → ℚ) (bI : ℕ → ℚ), 1 ≤ r → r ≤ min inF outF →
        (mkLoraInjectedLinear inF outF hasBias r dF lI dI bI).isOk = true) ∧
    (∀ (cfg : Conv2dCfg) (hasBias : Bool) (dF : (ℕ → ℤ → ℤ → ℚ) → (ℕ → ℤ → ℤ → ℚ))
        (cI dI : ℕ → ℕ → ℕ → ℕ → ℚ) (bI : ℕ → ℚ),
        mkLoraInjectedConv2d cfg hasBias (min cfg.inC cfg.outC + 1) dF cI dI bI =
          .error
            "ValueError: LoRA rank r must be less or equal than min(in_channels, out_channels)") ∧
    (∀ (cfg : Conv2dCfg) (hasBias : Bool) (r : ℕ) (dF : (ℕ → ℤ → ℤ → ℚ) → (ℕ → ℤ → ℤ → ℚ))
        (cI dI : ℕ → ℕ → ℕ → ℕ → ℚ) (bI : ℕ → ℚ), 1 ≤ r → r ≤ min cfg.inC cfg.outC →
        1 ≤ cfg.groups → cfg.inC % cfg.groups = 0 → cfg.outC % cfg.groups = 0 →
        r % cfg.groups = 0 →
        (mkLoraInjectedConv2d cfg hasBias r dF cI dI bI).isOk = true) ∧
    (∀ (cfg : Conv2dCfg) (hasBias : Bool) (r : ℕ) (dF : (ℕ → ℤ → ℤ → ℚ) → (ℕ → ℤ → ℤ → ℚ))
        (cI dI : ℕ → ℕ → ℕ → ℕ → ℚ) (bI : ℕ → ℚ), r ≤ min cfg.inC cfg.outC →
        1 ≤ cfg.groups → cfg.inC % cfg.groups = 0 → cfg.outC % cfg.groups = 0 →
        r % cfg.groups ≠ 0 →
        mkLoraInjectedConv2d cfg hasBias r dF cI dI bI =
          .error "ValueError: out_channels must be divisible by groups") := by
  refine ⟨?_, ?_, ?_, ?_, ?_⟩
  · intro inF outF hasBias dF lI dI bI
    unfold mkLoraInjectedLinear
    rw [if_pos (Nat.lt_succ_self _)]
  · intro inF outF hasBias r dF lI dI bI h1 h2
    unfold mkLoraInjectedLinear
    rw [if_neg (by omega), if_neg (by omega)]
    rfl
  · intro cfg hasBias dF cI dI bI
    unfold mkLoraInjectedConv2d
    rw [if_pos (Nat.lt_succ_self _)]
  · intro cfg hasBias r dF cI dI bI h1 h2 hg hdin hdout hdr
    unfold mkLoraInjectedConv2d
    rw [if_neg (by omega), if_neg (by omega), if_neg (by simp [hdin]),
      if_neg (by simp [hdout]), if_neg (by simp [hdr]), if_neg (by omega)]
    rfl
  · intro cfg hasBias r dF cI dI bI h2 hg hdin hdout hdr
    unfold mkLoraInjectedConv2d
    rw [if_neg (by omega), if_neg (by omega), if_neg (by simp [hdin]),
      if_neg (by simp [hdout]), if_pos hdr]

/-- Witness for `rank_guard_amended` at concrete layer dimensions, including
the grouped-conv failure: `in=out=4`, `groups=2`, `r=3` passes the rank guard
but building `lora_down` raises the divisibility ValueError. -/
theorem rank_guard_amended_witness :
    (mkLoraInjectedLinear 4 4 false (min 4 4 + 1) (fun v => v) (fun _ _ => 0) (fun _ _ => 0)
        (fun _ => 0) =
      .error
        "ValueError: LoRA rank r must be less or equal than min(in_features, out_features)") ∧
    ((mkLoraInjectedLinear 4 4 false 4 (fun v => v) (fun _ _ => 0) (fun _ _ => 0)
        (fun _ => 0)).isOk = true) ∧
    ((mkLoraInjectedConv2d ⟨2, 2, 1, 1, 1, 0, 1, 1⟩ false 2
        (fun v => v) (fun _ _ _ _ => 0) (fun _ _ _ _ => 0) (fun _ => 0)).isOk = true) ∧
    (mkLoraInjectedConv2d ⟨4, 4, 1, 1, 1, 0, 1, 2⟩ false 3
        (fun v => v) (fun _ _ _ _ => 0) (fun _ _ _ _ => 0) (fun _ => 0) =
      .error "ValueError: out_channels must be divisible by groups") :=
  ⟨rank_guard_amended.1 4 4 false (fun v => v) (fun _ _ => 0) (fun _ _ => 0) (fun _ => 0),
    rank_guard_amended.2.1 4 4 false 4 (fun v => v) (fun _ _ => 0) (fun _ _ => 0) (fun _ => 0)
      (by omega) (by omega),
    rank_guard_amended.2.2.2.1 ⟨2, 2, 1, 1, 1, 0, 1, 1⟩ false 2 (fun v => v)
      (fun _ _ _ _ => 0) (fun _ _ _ _ => 0) (fun _ => 0) (by decide) (by decide) (by decide)
      (by decide) (by decide) (by decide),
    rank_guard_amended.2.2.2.2 ⟨4, 4, 1, 1, 1, 0, 1, 2⟩ false 3 (fun v => v)
      (fun _ _ _ _ => 0) (fun _ _ _ _ => 0) (fun _ => 0) (by decide) (by decide) (by decide)
      (by decide) (by decide)⟩

/-- C9: every augmented layer's forward pass is
`base(x) + scale * up(dropout(down(x)))`; the constructor sets `scale = 1`;
and resetting the scale (`tune_lora_scale`) changes only the weighting of the
correction term — the base output and correction are those of the original
module.  Stated for both the dense and conv variants. -/
theorem forward_formula_and_scale :
    (∀ (m : LoraLinearF) (x : ℕ → ℚ) (o : ℕ),
        m.forward x o =
          LinearF.forward ⟨m.inF, m.outF, m.linearW, m.linearB⟩ x o +
            m.scale * loraCorrLinear m x o) ∧
    (∀ (inF outF : ℕ) (hasBias : Bool) (r : ℕ) (dF : (ℕ → ℚ) → (ℕ → ℚ))
        (lI dI : ℕ → ℕ → ℚ) (bI : ℕ → ℚ) (m : LoraLinearF),
        mkLoraInjectedLinear inF outF hasBias r dF lI dI bI = .ok m → m.scale = 1) ∧
    (∀ (m : LoraLinearF) (a : ℚ),
        (tuneLoraScaleLinear m a).scale = a ∧
        ∀ (x : ℕ → ℚ) (o : ℕ),
          (tuneLoraScaleLinear m a).forward x o =
            LinearF.forward ⟨m.inF, m.outF, m.linearW, m.linearB⟩ x o +
              a * loraCorrLinear m x o) ∧
    (∀ (m : LoraConv2dF) (bh bw : ℕ) (x : ℕ → ℤ → ℤ → ℚ) (o : ℕ) (i j : ℤ),
        m.forward bh bw x o i j =
          Conv2dF.forward ⟨m.cfg, m.convW, m.convB⟩ bh bw x o i j +
            m.scale * loraCorrConv m bh bw x o i j) ∧
    (∀ (cfg : Conv2dCfg) (hasBias : Bool) (r : ℕ)
        (dF : (ℕ → ℤ → ℤ → ℚ) → (ℕ → ℤ → ℤ → ℚ)) (cI dI : ℕ → ℕ → ℕ → ℕ → ℚ)
        (bI : ℕ → ℚ) (m : LoraConv2dF),
        mkLoraInjectedConv2d cfg hasBias r dF cI dI bI = .ok m → m.scale = 1) ∧
    (∀ (m : LoraConv2dF) (a : ℚ),
        (tuneLoraScaleConv m a).scale = a ∧
        ∀ (bh bw : ℕ) (x : ℕ → ℤ → ℤ → ℚ) (o : ℕ) (i j : ℤ),
          (tuneLoraScaleConv m a).forward bh bw x o i j =
            Conv2dF.forward ⟨m.cfg, m.convW, m.convB⟩ bh bw x o i j +
              a * loraCorrConv m bh bw x o i j) := by
  refine ⟨?_, ?_, ?_, ?_, ?_, ?_⟩
  · intro m x o
    simp [LoraLinearF.forward, LinearF.forward, loraCorrLinear, mul_comm]
  · intro inF outF hasBias r dF lI dI bI m h
    unfold mkLoraInjectedLinear at h
    split_ifs at h <;>
      first
        | exact Except.noConfusion h
        | (injection h with hh; rw [← hh])
  · intro m a
    refine ⟨rfl, ?_⟩
    intro x o
    simp [LoraLinearF.forward, LinearF.forward, loraCorrLinear, tuneLoraScaleLinear, mul_comm]
  · intro m bh bw x o i j
    simp [LoraConv2dF.forward, Conv2dF.forward, loraCorrConv, mul_comm]
  · intro cfg hasBias r dF cI dI bI m h
    unfold mkLoraInjectedConv2d at h
    split_ifs at h <;>
      first
        | exact Except.noConfusion h
        | (injection h with hh; rw [← hh])
  · intro m a
    refine ⟨rfl, ?_⟩
    intro bh bw x o i j
    simp [LoraConv2dF.forward, Conv2dF.forward, loraCorrConv, tuneLoraScaleConv, upCfg,
      downCfg, mul_comm]

/-- Witness for `forward_formula_and_scale`: the constructor conjuncts have
hypotheses; apply them at concrete successful constructions. -/
theorem forward_formula_and_scale_witness :
    ({ inF := 2, outF := 2, r := 1, linearW := fun _ _ => 1, linearB := none,
        downW := fun _ _ => 0, upW := fun _ _ => 0, dropout := fun v => v,
        scale := 1 } : LoraLinearF).scale = 1 ∧
    ({ cfg := ⟨2, 2, 1, 1, 1, 0, 1, 1⟩, r := 1, convW := fun _ _ _ _ => 1, convB := none,
        downW := fun _ _ _ _ => 0, upW := fun _ _ _ _ => 0, dropout := fun v => v,
        scale := 1 } : LoraConv2dF).scale = 1 :=
  ⟨forward_formula_and_scale.2.1 2 2 false 1 (fun v => v) (fun _ _ => 1) (fun _ _ => 0)
      (fun _ => 0) _ rfl,
    forward_formula_and_scale.2.2.2.2.1 ⟨2, 2, 1, 1, 1, 0, 1, 1⟩ false 1 (fun v => v)
      (fun _ _ _ _ => 1) (fun _ _ _ _ => 0) (fun _ => 0) _ rfl⟩

/-- Decoding the row-major flatten index used by
`flatten(start_dim=1)` / `reshape`: within kernel bounds the index
`cc·(kh·kw) + ki·kw + kj` decodes back to `(cc, ki, kj)`. -/
theorem flat_decode (kh kw cc ki kj : ℕ) (hki : ki < kh) (hkj : kj < kw) :
    (cc * (kh * kw) + ki * kw + kj) / (kh * kw) = cc ∧
    ((cc * (kh * kw) + ki * kw + kj) % (kh * kw)) / kw = ki ∧
    ((cc * (kh * kw) + ki * kw + kj) % (kh * kw)) % kw = kj := by
  have hkw0 : 0 < kw := by omega
  have hkh0 : 0 < kh := by omega
  have hK : 0 < kh * kw := Nat.mul_pos hkh0 hkw0
  have hq : ki * kw + kj < kh * kw := by
    have h1 : ki * kw + kj < (ki + 1) * kw := by
      have := hkj
      nlinarith
    have h2 : (ki + 1) * kw ≤ kh * kw := Nat.mul_le_mul_right _ (by omega)
    omega
  have e1 : cc * (kh * kw) + ki * kw + kj = kh * kw * cc + (ki * kw + kj) := by ring
  refine ⟨?_, ?_, ?_⟩
  · rw [e1, Nat.mul_add_div hK, Nat.div_eq_of_lt hq, add_zero]
  · rw [e1, Nat.mul_add_mod, Nat.mod_eq_of_lt hq, mul_comm ki kw, Nat.mul_add_div hkw0,
      Nat.div_eq_of_lt hkj, add_zero]
  · rw [e1, Nat.mul_add_mod, Nat.mod_eq_of_lt hq, mul_comm ki kw, Nat.mul_add_mod,
      Nat.mod_eq_of_lt hkj]

/-- Within kernel bounds, the flattened down weight at the reshape index is
the original down weight entry. -/
theorem flatDownW_decode (m : LoraConv2dF) (rho cc ki kj : ℕ) (hki : ki < m.cfg.kh)
    (hkj : kj < m.cfg.kw) :
    flatDownW m rho (cc * (m.cfg.kh * m.cfg.kw) + ki * m.cfg.kw + kj) = m.downW rho cc ki kj := by
  obtain ⟨d1, d2, d3⟩ := flat_decode m.cfg.kh m.cfg.kw cc ki kj hki hkj
  unfold flatDownW
  rw [d1, d2, d3]

/-- Within kernel bounds the reshaped matrix product is the plain
rank-contraction of the up and down weights. -/
theorem collapsedDelta_eq (m : LoraConv2dF) (o cc ki kj : ℕ) (hki : ki < m.cfg.kh)
    (hkj : kj < m.cfg.kw) :
    collapsedDelta m o cc ki kj =
      ∑ rho ∈ Finset.range m.r, m.upW o rho 0 0 * m.downW rho cc ki kj := by
  unfold collapsedDelta flatUpW
  exact Finset.sum_congr rfl fun rho _ => by rw [flatDownW_decode m rho cc ki kj hki hkj]

/-- Pulling an innermost sum out of a triple sum. -/
theorem quad_swap (n1 n2 n3 nr : ℕ) (A : ℕ → ℕ → ℕ → ℕ → ℚ) :
    (∑ cc ∈ Finset.range n1, ∑ ki ∈ Finset.range n2, ∑ kj ∈ Finset.range n3,
        ∑ rho ∈ Finset.range nr, A cc ki kj rho) =
      ∑ rho ∈ Finset.range nr, ∑ cc ∈ Finset.range n1, ∑ ki ∈ Finset.range n2,
        ∑ kj ∈ Finset.range n3, A cc ki kj rho := by
  calc
    (∑ cc ∈ Finset.range n1, ∑ ki ∈ Finset.range n2, ∑ kj ∈ Finset.range n3,
        ∑ rho ∈ Finset.range nr, A cc ki kj rho) =
        ∑ cc ∈ Finset.range n1, ∑ ki ∈ Finset.range n2, ∑ rho ∈ Finset.range nr,
          ∑ kj ∈ Finset.range n3, A cc ki kj rho := by
      exact Finset.sum_congr rfl fun cc _ => Finset.sum_congr rfl fun ki _ => Finset.sum_comm
    _ = ∑ cc ∈ Finset.range n1, ∑ rho ∈ Finset.range nr, ∑ ki ∈ Finset.range n2,
          ∑ kj ∈ Finset.range n3, A cc ki kj rho := by
      exact Finset.sum_congr rfl fun cc _ => Finset.sum_comm
    _ = ∑ rho ∈ Finset.range nr, ∑ cc ∈ Finset.range n1, ∑ ki ∈ Finset.range n2,
          ∑ kj ∈ Finset.range n3, A cc ki kj rho := Finset.sum_comm

/-- Adding two weight tensors adds the conv outputs (the second without
bias). -/
theorem convEntry_add_weight (cfg : Conv2dCfg) (w1 w2 : ℕ → ℕ → ℕ → ℕ → ℚ)
    (b : Option (ℕ → ℚ)) (bh bw : ℕ) (x : ℕ → ℤ → ℤ → ℚ) (o : ℕ) (i j : ℤ) :
    convEntry cfg (fun oo cc ki kj => w1 oo cc ki kj + w2 oo cc ki kj) b bh bw x o i j =
      convEntry cfg w1 b bh bw x o i j + convEntry cfg w2 none bh bw x o i j := by
  simp only [convEntry, biasApp, add_mul, Finset.sum_add_distrib]
  ring

/-- Core of the collapse identity for an ungrouped conv: the conv with the
reshaped product weight equals the composition `lora_up ∘ lora_down` at every
in-range output entry. -/
theorem collapsed_conv_entry (m : LoraConv2dF) (hg : m.cfg.groups = 1) (bh bw : ℕ)
    (x : ℕ → ℤ → ℤ → ℚ) (o : ℕ) (i j : ℤ) (ho : o < m.cfg.outC)
    (hi0 : 0 ≤ i) (hiH : i < (convOutDim m.cfg.kh m.cfg.stride m.cfg.pad m.cfg.dil bh : ℤ))
    (hj0 : 0 ≤ j) (hjW : j < (convOutDim m.cfg.kw m.cfg.stride m.cfg.pad m.cfg.dil bw : ℤ)) :
    convEntry m.cfg (fun oo cc ki kj => collapsedDelta m oo cc ki kj) none bh bw x o i j =
      convEntry (upCfg m) m.upW none (convOutDim m.cfg.kh m.cfg.stride m.cfg.pad m.cfg.dil bh)
        (convOutDim m.cfg.kw m.cfg.stride m.cfg.pad m.cfg.dil bw)
        (fun c i' j' => convEntry (downCfg m) m.downW none bh bw x c i' j') o i j := by
  have hcond :
      0 ≤ i ∧ i < ((convOutDim m.cfg.kh m.cfg.stride m.cfg.pad m.cfg.dil bh : ℕ) : ℤ) ∧
        0 ≤ j ∧ j < ((convOutDim m.cfg.kw m.cfg.stride m.cfg.pad m.cfg.dil bw : ℕ) : ℤ) :=
    ⟨hi0, hiH, hj0, hjW⟩
  trans (∑ rho ∈ Finset.range m.r,
    m.upW o rho 0 0 *
      ∑ cc ∈ Finset.range m.cfg.inC, ∑ ki ∈ Finset.range m.cfg.kh,
        ∑ kj ∈ Finset.range m.cfg.kw,
          m.downW rho cc ki kj *
            convPadded bh bw x cc
              (i * (m.cfg.stride : ℤ) + (ki : ℤ) * (m.cfg.dil : ℤ) - (m.cfg.pad : ℤ))
              (j * (m.cfg.stride : ℤ) + (kj : ℤ) * (m.cfg.dil : ℤ) - (m.cfg.pad : ℤ)))
  · unfold convEntry
    simp only [biasApp, zero_add, hg, Nat.div_one, Nat.div_eq_of_lt ho, zero_mul]
    trans (∑ cc ∈ Finset.range m.cfg.inC, ∑ ki ∈ Finset.range m.cfg.kh,
      ∑ kj ∈ Finset.range m.cfg.kw, ∑ rho ∈ Finset.range m.r,
        m.upW o rho 0 0 *
          (m.downW rho cc ki kj *
            convPadded bh bw x cc
              (i * (m.cfg.stride : ℤ) + (ki : ℤ) * (m.cfg.dil : ℤ) - (m.cfg.pad : ℤ))
              (j * (m.cfg.stride : ℤ) + (kj : ℤ) * (m.cfg.dil : ℤ) - (m.cfg.pad : ℤ))))
    · refine Finset.sum_congr rfl fun cc _ => Finset.sum_congr rfl fun ki hki =>
        Finset.sum_congr rfl fun kj hkj => ?_
      rw [collapsedDelta_eq m o cc ki kj (Finset.mem_range.mp hki) (Finset.mem_range.mp hkj),
        Finset.sum_mul]
      exact Finset.sum_congr rfl fun rho _ => mul_assoc _ _ _
    · rw [quad_swap]
      simp only [Finset.mul_sum]
  · symm
    unfold convEntry
    simp only [upCfg, biasApp, zero_add, Nat.div_one, Finset.sum_range_one,
      Nat.div_eq_of_lt ho, zero_mul, Nat.cast_zero, Nat.cast_one, mul_one, zero_add, sub_zero,
      add_zero]
    simp only [convPadded, if_pos hcond]
    refine Finset.sum_congr rfl fun cc hcc => ?_
    congr 1
    simp only [downCfg, hg, Nat.div_one, Nat.div_eq_of_lt (Finset.mem_range.mp hcc), zero_mul,
      zero_add]

/-- Contraction identity for the dense collapse: summing the matrix-product
delta against the input equals routing the input through down then up. -/
theorem collapse_linear_sum (inF r : ℕ) (u d : ℕ → ℕ → ℚ) (x : ℕ → ℚ) (o : ℕ) :
    (∑ i ∈ Finset.range inF, matMulEntry r u d o i * x i) =
      ∑ rho ∈ Finset.range r, u o rho * ∑ i ∈ Finset.range inF, d rho i * x i := by
  simp only [matMulEntry, Finset.sum_mul]
  rw [Finset.sum_comm]
  simp only [Finset.mul_sum, mul_assoc]

/-- C6 (amended): at `scale = 1` with inactive dropout, `collapse_lora` at
mix ratio 1 followed by `monkeypatch_remove_lora` reproduces the augmented
layer's forward output exactly — for every dense augmented layer, and for
every conv augmented layer whose convolution is ungrouped (`groups = 1`), at
every in-range output entry.  Grouped convolutions are excluded: the
flatten-matmul-reshape of `collapse_lora` ignores the group routing (see the
counterexample). -/
theorem collapse_remove_equiv :
    (∀ (m : LoraLinearF), m.scale = 1 → m.dropout = id →
        ∀ (x : ℕ → ℚ) (o : ℕ),
          (monkeypatchRemoveLinear (collapseLoraLinear m 1)).forward x o = m.forward x o) ∧
    (∀ (m : LoraConv2dF), m.cfg.groups = 1 → m.scale = 1 → m.dropout = id →
        ∀ (bh bw : ℕ) (x : ℕ → ℤ → ℤ → ℚ) (o : ℕ) (i j : ℤ), o < m.cfg.outC →
          0 ≤ i → i < (convOutDim m.cfg.kh m.cfg.stride m.cfg.pad m.cfg.dil bh : ℤ) →
          0 ≤ j → j < (convOutDim m.cfg.kw m.cfg.stride m.cfg.pad m.cfg.dil bw : ℤ) →
          (monkeypatchRemoveConv (collapseLoraConv m 1)).forward bh bw x o i j =
            m.forward bh bw x o i j) := by
  constructor
  · intro m hs hd x o
    simp only [monkeypatchRemoveLinear, collapseLoraLinear, LinearF.forward,
      LoraLinearF.forward, hs, hd, id_eq, mul_one, one_mul]
    simp only [linearFwd, biasApp, add_mul, Finset.sum_add_distrib]
    rw [collapse_linear_sum]
    simp only [zero_add]
    ring
  · intro m hg hs hd bh bw x o i j ho hi0 hiH hj0 hjW
    simp only [monkeypatchRemoveConv, collapseLoraConv, Conv2dF.forward,
      LoraConv2dF.forward, hs, hd, id_eq, mul_one, one_mul]
    rw [convEntry_add_weight]
    congr 1
    exact collapsed_conv_entry m hg bh bw x o i j ho hi0 hiH hj0 hjW

/-- Witness for `collapse_remove_equiv` at concrete augmented layers. -/
theorem collapse_remove_equiv_witness :
    ((monkeypatchRemoveLinear (collapseLoraLinear
        { inF := 1, outF := 1, r := 1, linearW := fun _ _ => 2, linearB := none,
          downW := fun _ _ => 3, upW := fun _ _ => 5, dropout := id, scale := 1 } 1)).forward
        (fun _ => 7) 0 =
      ({ inF := 1, outF := 1, r := 1, linearW := fun _ _ => 2, linearB := none,
          downW := fun _ _ => 3, upW := fun _ _ => 5, dropout := id,
          scale := 1 } : LoraLinearF).forward (fun _ => 7) 0) ∧
    ((monkeypatchRemoveConv (collapseLoraConv
        { cfg := ⟨1, 1, 1, 1, 1, 0, 1, 1⟩, r := 1, convW := fun _ _ _ _ => 2, convB := none,
          downW := fun _ _ _ _ => 3, upW := fun _ _ _ _ => 5, dropout := id,
          scale := 1 } 1)).forward 1 1 (fun _ _ _ => 7) 0 0 0 =
      ({ cfg := ⟨1, 1, 1, 1, 1, 0, 1, 1⟩, r := 1, convW := fun _ _ _ _ => 2, convB := none,
          downW := fun _ _ _ _ => 3, upW := fun _ _ _ _ => 5, dropout := id,
          scale := 1 } : LoraConv2dF).forward 1 1 (fun _ _ _ => 7) 0 0 0) :=
  ⟨collapse_remove_equiv.1
      { inF := 1, outF := 1, r := 1, linearW := fun _ _ => 2, linearB := none,
        downW := fun _ _ => 3, upW := fun _ _ => 5, dropout := id, scale := 1 } rfl rfl
      (fun _ => 7) 0,
    collapse_remove_equiv.2
      { cfg := ⟨1, 1, 1, 1, 1, 0, 1, 1⟩, r := 1, convW := fun _ _ _ _ => 2, convB := none,
        downW := fun _ _ _ _ => 3, upW := fun _ _ _ _ => 5, dropout := id, scale := 1 }
      rfl rfl rfl 1 1 (fun _ _ _ => 7) 0 0 0 (by decide) (by decide) (by decide) (by decide)
      (by decide)⟩

/-- C6 counterexample: a grouped conv augmented layer (`groups = 2`) at
`scale = 1` with inactive dropout whose collapse-then-remove forward output
differs from the still-augmented forward output: `collapse_lora`'s
flatten-matmul mixes rank channels across groups that the composed
`lora_up ∘ lora_down` keeps separate. -/
theorem grouped_collapse_mismatch :
    (monkeypatchRemoveConv (collapseLoraConv
        { cfg := ⟨2, 2, 1, 1, 1, 0, 1, 2⟩, r := 2, convW := fun _ _ _ _ => 0, convB := none,
          downW := fun rho _ _ _ => if rho = 1 then 1 else 0,
          upW := fun o rho _ _ => if o = 0 ∧ rho = 1 then 1 else 0,
          dropout := id, scale := 1 } 1)).forward 1 1
        (fun c _ _ => if c = 0 then 1 else 0) 0 0 0 ≠
      ({ cfg := ⟨2, 2, 1, 1, 1, 0, 1, 2⟩, r := 2, convW := fun _ _ _ _ => 0, convB := none,
          downW := fun rho _ _ _ => if rho = 1 then 1 else 0,
          upW := fun o rho _ _ => if o = 0 ∧ rho = 1 then 1 else 0,
          dropout := id, scale := 1 } : LoraConv2dF).forward 1 1
        (fun c _ _ => if c = 0 then 1 else 0) 0 0 0 := by
  simp [monkeypatchRemoveConv, collapseLoraConv, LoraConv2dF.forward, Conv2dF.forward,
    convEntry, convPadded, biasApp, collapsedDelta, flatUpW, flatDownW, upCfg, downCfg,
    convOutDim, Finset.sum_range_succ, Finset.sum_range_one]

/-- Inversion of the `inject_trainable_lora` linear loop body. -/
theorem injectLinearBody_ok (d : LinData) (r s : ℕ) (m : PyMod) (s2 : ℕ)
    (h : injectLinearBody d r s = .ok (m, s2)) :
    m = .loraLin d ⟨⟨s + 2, [r, d.inF]⟩, none, d.inF, r⟩ (1 / 10)
          ⟨⟨s + 3, [d.outF, r]⟩, none, r, d.outF⟩ 1 ∧
      s2 = s + 4 := by
  obtain ⟨dw, db, dinF, doutF⟩ := d
  cases db with
  | none =>
    unfold injectLinearBody mkLoraLinGraph at h
    split_ifs at h with hg1 hg2 hg3 <;> simp only [Except.map] at h
    · exact Except.noConfusion h
    · exact Except.noConfusion h
    · exact absurd hg3 (by simp)
    · injection h with hh
      injection hh with h1 h2
      exact ⟨h1.symm, h2.symm⟩
  | some bb =>
    unfold injectLinearBody mkLoraLinGraph at h
    split_ifs at h with hg1 hg2 hg3 <;> simp only [Except.map] at h
    · exact Except.noConfusion h
    · exact Except.noConfusion h
    · injection h with hh
      injection hh with h1 h2
      exact ⟨h1.symm, h2.symm⟩
    · exact absurd (by simp) hg3

/-- Inversion of the `inject_trainable_lora_extended` conv loop body. -/
theorem injectConvBody_ok (d : ConvData) (r s : ℕ) (m : PyMod) (s2 : ℕ)
    (h : injectConvBody d r s = .ok (m, s2)) :
    m = .loraConv d
          ⟨⟨s + 2, [r, d.inC / d.groups, d.kh, d.kw]⟩, none,
            d.inC, r, d.kh, d.kw, d.stride, d.pad, d.dil, d.groups⟩ (1 / 10)
          ⟨⟨s + 3, [d.outC, r, 1, 1]⟩, none, r, d.outC, 1, 1, 1, 0, 1, 1⟩ 1 ∧
      s2 = s + 4 := by
  obtain ⟨dw, db, dinC, doutC, dkh, dkw, dstride, dpad, ddil, dgroups⟩ := d
  cases db with
  | none =>
    unfold injectConvBody mkLoraConvGraph at h
    split_ifs at h with hg1 hg2 hg3 hg4 hg5 hg6 hg7 <;> simp only [Except.map] at h
    · exact Except.noConfusion h
    · exact Except.noConfusion h
    · exact Except.noConfusion h
    · exact Except.noConfusion h
    · exact Except.noConfusion h
    · exact Except.noConfusion h
    · exact absurd hg7 (by simp)
    · injection h with hh
      injection hh with h1 h2
      exact ⟨h1.symm, h2.symm⟩
  | some bb =>
    unfold injectConvBody mkLoraConvGraph at h
    split_ifs at h with hg1 hg2 hg3 hg4 hg5 hg6 hg7 <;> simp only [Except.map] at h
    · exact Except.noConfusion h
    · exact Except.noConfusion h
    · exact Except.noConfusion h
    · exact Except.noConfusion h
    · exact Except.noConfusion h
    · exact Except.noConfusion h
    · injection h with hh
      injection hh with h1 h2
      exact ⟨h1.symm, h2.symm⟩
    · exact absurd (by simp) hg7

/-- C8: the injection loop bodies install the located layer's parameter
objects into the replacement by reference: on success the produced augmented
layer's wrapped base is exactly the original layer data `d` — same weight
tensor, same (optional) bias tensor, untouched identifiers — while the only
fresh tensors are the `lora_down` (`s+2`) and `lora_up` (`s+3`) allocations,
disjoint from any identifier below `s`.  Stated for the dense body of
`inject_trainable_lora` and the conv body of `inject_trainable_lora_extended`. -/
theorem injection_shares_base_params :
    (∀ (d : LinData) (r s : ℕ) (m : PyMod) (s2 : ℕ),
        injectLinearBody d r s = .ok (m, s2) →
          m = .loraLin d ⟨⟨s + 2, [r, d.inF]⟩, none, d.inF, r⟩ (1 / 10)
                ⟨⟨s + 3, [d.outF, r]⟩, none, r, d.outF⟩ 1 ∧
            s2 = s + 4) ∧
    (∀ (d : ConvData) (r s : ℕ) (m : PyMod) (s2 : ℕ),
        injectConvBody d r s = .ok (m, s2) →
          m = .loraConv d
                ⟨⟨s + 2, [r, d.inC / d.groups, d.kh, d.kw]⟩, none,
                  d.inC, r, d.kh, d.kw, d.stride, d.pad, d.dil, d.groups⟩ (1 / 10)
                ⟨⟨s + 3, [d.outC, r, 1, 1]⟩, none, r, d.outC, 1, 1, 1, 0, 1, 1⟩ 1 ∧
            s2 = s + 4) :=
  ⟨fun d r s m s2 h => injectLinearBody_ok d r s m s2 h,
    fun d r s m s2 h => injectConvBody_ok d r s m s2 h⟩

/-- Witness for `injection_shares_base_params` at concrete layers. -/
theorem injection_shares_base_params_witness :
    ((.loraLin ⟨⟨7, [3, 3]⟩, some ⟨8, [3]⟩, 3, 3⟩ ⟨⟨20 + 2, [2, 3]⟩, none, 3, 2⟩ (1 / 10)
        ⟨⟨20 + 3, [3, 2]⟩, none, 2, 3⟩ 1 : PyMod) =
      .loraLin ⟨⟨7, [3, 3]⟩, some ⟨8, [3]⟩, 3, 3⟩ ⟨⟨20 + 2, [2, 3]⟩, none, 3, 2⟩ (1 / 10)
        ⟨⟨20 + 3, [3, 2]⟩, none, 2, 3⟩ 1 ∧ 20 + 4 = 20 + 4) ∧
    ((.loraConv ⟨⟨9, [3, 3, 1, 1]⟩, none, 3, 3, 1, 1, 1, 0, 1, 1⟩
        ⟨⟨30 + 2, [2, 3 / 1, 1, 1]⟩, none, 3, 2, 1, 1, 1, 0, 1, 1⟩ (1 / 10)
        ⟨⟨30 + 3, [3, 2, 1, 1]⟩, none, 2, 3, 1, 1, 1, 0, 1, 1⟩ 1 : PyMod) =
      .loraConv ⟨⟨9, [3, 3, 1, 1]⟩, none, 3, 3, 1, 1, 1, 0, 1, 1⟩
        ⟨⟨30 + 2, [2, 3 / 1, 1, 1]⟩, none, 3, 2, 1, 1, 1, 0, 1, 1⟩ (1 / 10)
        ⟨⟨30 + 3, [3, 2, 1, 1]⟩, none, 2, 3, 1, 1, 1, 0, 1, 1⟩ 1 ∧ 30 + 4 = 30 + 4) :=
  ⟨injection_shares_base_params.1 ⟨⟨7, [3, 3]⟩, some ⟨8, [3]⟩, 3, 3⟩ 2 20 _ _ rfl,
    injection_shares_base_params.2 ⟨⟨9, [3, 3, 1, 1]⟩, none, 3, 3, 1, 1, 1, 0, 1, 1⟩ 2 30 _ _
      rfl⟩

/-- C3 counterexample: a conv slot under a targeted block offered a 2-D
correction tensor.  `monkeypatch_or_replace_lora_extended` raises nothing: it
returns with the model unchanged and the tensors unconsumed — there is no
fatal shape-class error. -/
theorem shape_mismatch_not_fatal :
    monkeypatchOrReplaceLoraExtended
        (.block "CrossAttention"
          (.cons "proj" (.conv ⟨⟨10, [4, 4, 1, 1]⟩, none, 4, 4, 1, 1, 1, 0, 1, 1⟩) .nil))
        [⟨100, [2, 2]⟩, ⟨101, [2, 2]⟩] ["CrossAttention"] (.scalar 4) =
      .ok
        (.block "CrossAttention"
          (.cons "proj" (.conv ⟨⟨10, [4, 4, 1, 1]⟩, none, 4, 4, 1, 1, 1, 0, 1, 1⟩) .nil),
          [⟨100, [2, 2]⟩, ⟨101, [2, 2]⟩], .scalar 4) := rfl

/-- C3 (amended): in the extended replace loop, a correction tensor whose
shape class does not match the matched layer's kind — a non-2-D tensor at a
dense slot, a non-4-D tensor at a conv slot — makes the loop `continue`: the
slot is left unreplaced, no tensors are consumed, no rank is popped, and no
error is raised for that slot. -/
theorem shape_mismatch_skips :
    ∀ (child : PyMod) (r : RankArg) (t : GTensor) (rest : List GTensor),
      ((child.kind = .linK ∨ child.kind = .loraLinK) → t.shape.length ≠ 2 →
        processSlotExt child (t :: rest) r = .ok (child, t :: rest, r)) ∧
      ((child.kind = .convK ∨ child.kind = .loraConvK) → t.shape.length ≠ 4 →
        processSlotExt child (t :: rest) r = .ok (child, t :: rest, r)) := by
  intro child r t rest
  constructor
  · intro hk hlen
    rcases hk with hk | hk <;> simp only [processSlotExt, hk] <;> rw [if_pos hlen]
  · intro hk hlen
    rcases hk with hk | hk <;> simp only [processSlotExt, hk] <;> rw [if_pos hlen]

/-- Witness for `shape_mismatch_skips` at a concrete conv slot and a concrete
dense slot. -/
theorem shape_mismatch_skips_witness :
    processSlotExt (.conv ⟨⟨10, [4, 4, 1, 1]⟩, none, 4, 4, 1, 1, 1, 0, 1, 1⟩)
        [⟨100, [2, 2]⟩, ⟨101, [2, 2]⟩] (.scalar 4) =
      .ok (.conv ⟨⟨10, [4, 4, 1, 1]⟩, none, 4, 4, 1, 1, 1, 0, 1, 1⟩,
        [⟨100, [2, 2]⟩, ⟨101, [2, 2]⟩], .scalar 4) ∧
    processSlotExt (.lin ⟨⟨11, [4, 4]⟩, none, 4, 4⟩)
        [⟨102, [4, 4, 1, 1]⟩, ⟨103, [4, 4, 1, 1]⟩] (.scalar 4) =
      .ok (.lin ⟨⟨11, [4, 4]⟩, none, 4, 4⟩,
        [⟨102, [4, 4, 1, 1]⟩, ⟨103, [4, 4, 1, 1]⟩], .scalar 4) :=
  ⟨(shape_mismatch_skips (.conv ⟨⟨10, [4, 4, 1, 1]⟩, none, 4, 4, 1, 1, 1, 0, 1, 1⟩)
      (.scalar 4) ⟨100, [2, 2]⟩ [⟨101, [2, 2]⟩]).2 (Or.inl rfl) (by decide),
    (shape_mismatch_skips (.lin ⟨⟨11, [4, 4]⟩, none, 4, 4⟩) (.scalar 4) ⟨102, [4, 4, 1, 1]⟩
      [⟨103, [4, 4, 1, 1]⟩]).1 (Or.inl rfl) (by decide)⟩

/-- C10: whenever `save_lora_weight` is called with `save_safetensors=True`
on a model with at least one augmented layer under the target set (so the
extraction step succeeds), the call raises: the flat tensor list is handed to
`save_safeloras`, which immediately calls `.items()` on it — an
AttributeError — so this path never writes a safetensors file. -/
theorem save_safetensors_always_raises :
    ∀ (m : PyMod) (tags : List String) (pairs : List (GTensor × GTensor)),
      extractLoraUpsDown m tags = .ok pairs →
      saveLoraWeight m tags true =
        .error "AttributeError: 'list' object has no attribute 'items'" := by
  intro m tags pairs h
  simp [saveLoraWeight, h, saveSafelorasEntry, pyItems, Except.map, bind, Except.bind]

/-- Witness for `save_safetensors_always_raises` on a one-layer augmented
model. -/
theorem save_safetensors_always_raises_witness :
    saveLoraWeight
        (.block "CrossAttention"
          (.cons "attn"
            (.loraLin ⟨⟨0, [4, 4]⟩, none, 4, 4⟩ ⟨⟨1, [2, 4]⟩, none, 4, 2⟩ (1 / 10)
              ⟨⟨2, [4, 2]⟩, none, 2, 4⟩ 1) .nil))
        ["CrossAttention"] true =
      .error "AttributeError: 'list' object has no attribute 'items'" :=
  save_safetensors_always_raises
    (.block "CrossAttention"
      (.cons "attn"
        (.loraLin ⟨⟨0, [4, 4]⟩, none, 4, 4⟩ ⟨⟨1, [2, 4]⟩, none, 4, 2⟩ (1 / 10)
          ⟨⟨2, [4, 2]⟩, none, 2, 4⟩ 1) .nil))
    ["CrossAttention"] [(⟨2, [4, 2]⟩, ⟨1, [2, 4]⟩)] rfl

/-- Every sub-layer triple of a `LoraInjectedLinear` has the augmented layer
itself as direct parent, so a located linear inside it is always excluded. -/
theorem loraLin_trips (l dn : LinData) (p : ℚ) (up : LinData) (sc : ℚ) :
    ∀ t ∈ (PyMod.loraLin l dn p up sc).tailTrips, (t.2.2).kind = .linK →
      (t.1.kind = .loraLinK ∨ t.1.kind = .loraConvK) := by
  intro t ht
  simp only [PyMod.tailTrips, List.mem_cons, List.mem_singleton, List.not_mem_nil,
    or_false] at ht
  rcases ht with rfl | rfl | rfl | rfl <;> intro _ <;> exact Or.inl rfl

/-- Conv variant of `loraLin_trips`. -/
theorem loraConv_trips (c dn : ConvData) (p : ℚ) (up : ConvData) (sc : ℚ) :
    ∀ t ∈ (PyMod.loraConv c dn p up sc).tailTrips, (t.2.2).kind = .linK →
      (t.1.kind = .loraLinK ∨ t.1.kind = .loraConvK) := by
  intro t ht
  simp only [PyMod.tailTrips, List.mem_cons, List.mem_singleton, List.not_mem_nil,
    or_false] at ht
  rcases ht with rfl | rfl | rfl | rfl <;> intro _ <;> exact Or.inr rfl

/-- Any tagged module inside a `LoraInjectedLinear` subtree (when `"Linear"`
is not a tag) is itself no linear and yields no eligible linear match. -/
theorem loraLin_mods_clean (tags : List String) (hT : "Linear" ∉ tags) (l dn : LinData)
    (p : ℚ) (up : LinData) (sc : ℚ) :
    ∀ a ∈ (PyMod.loraLin l dn p up sc).modulesList, a.clsName ∈ tags →
      a.kind ≠ .linK ∧ ∀ t ∈ a.tailTrips, (t.2.2).kind = .linK →
        (t.1.kind = .loraLinK ∨ t.1.kind = .loraConvK) := by
  intro a ha htag
  simp only [PyMod.modulesList, List.mem_cons, List.mem_singleton, List.not_mem_nil,
    or_false] at ha
  rcases ha with rfl | rfl | rfl | rfl | rfl
  · exact ⟨by simp [PyMod.kind], loraLin_trips l dn p up sc⟩
  · exact absurd (by simpa [PyMod.clsName] using htag) hT
  · exact absurd (by simpa [PyMod.clsName] using htag) hT
  · refine ⟨by simp [PyMod.kind], ?_⟩
    intro t ht
    simp [PyMod.tailTrips] at ht
  · exact absurd (by simpa [PyMod.clsName] using htag) hT

/-- Conv variant of `loraLin_mods_clean`. -/
theorem loraConv_mods_clean (tags : List String) (_hT : "Linear" ∉ tags) (c dn : ConvData)
    (p : ℚ) (up : ConvData) (sc : ℚ) :
    ∀ a ∈ (PyMod.loraConv c dn p up sc).modulesList, a.clsName ∈ tags →
      a.kind ≠ .linK ∧ ∀ t ∈ a.tailTrips, (t.2.2).kind = .linK →
        (t.1.kind = .loraLinK ∨ t.1.kind = .loraConvK) := by
  intro a ha htag
  simp only [PyMod.modulesList, List.mem_cons, List.mem_singleton, List.not_mem_nil,
    or_false] at ha
  rcases ha with rfl | rfl | rfl | rfl | rfl
  · exact ⟨by simp [PyMod.kind], loraConv_trips c dn p up sc⟩
  · refine ⟨by simp [PyMod.kind], ?_⟩
    intro t ht
    simp [PyMod.tailTrips] at ht
  · refine ⟨by simp [PyMod.kind], ?_⟩
    intro t ht
    simp [PyMod.tailTrips] at ht
  · refine ⟨by simp [PyMod.kind], ?_⟩
    intro t ht
    simp [PyMod.tailTrips] at ht
  · refine ⟨by simp [PyMod.kind], ?_⟩
    intro t ht
    simp [PyMod.tailTrips] at ht

mutual
/-- After an injection pass, the rewritten module has the same class as
before; if the subtree was under a target ancestor (`u = true`) every
remaining linear in it sits directly inside an augmented layer; and every
tagged module in the result yields no eligible linear match at all
(assuming `"Linear"` itself is not a target tag). -/
theorem inject_clean_mod : ∀ (m : PyMod) (u : Bool) (tags : List String) (r s : ℕ)
    (m' : PyMod) (s' : ℕ), "Linear" ∉ tags → injectModM u tags r m s = .ok (m', s') →
    m'.kind = m.kind ∧
    (u = true → ∀ t ∈ m'.tailTrips, (t.2.2).kind = .linK →
      (t.1.kind = .loraLinK ∨ t.1.kind = .loraConvK)) ∧
    (∀ a ∈ m'.modulesList, a.clsName ∈ tags →
      a.kind ≠ .linK ∧ ∀ t ∈ a.tailTrips, (t.2.2).kind = .linK →
        (t.1.kind = .loraLinK ∨ t.1.kind = .loraConvK))
  | .block c cs, u, tags, r, s, m', s', hT, h => by
    unfold injectModM at h
    cases hres : injectModsM (u || tags.contains c) tags r cs s with
    | error e =>
      rw [hres] at h
      simp only [Except.map] at h
      exact Except.noConfusion h
    | ok p =>
      rw [hres] at h
      simp only [Except.map] at h
      obtain ⟨cs2, s2⟩ := p
      injection h with hh
      injection hh with h1 h2
      subst h1
      obtain ⟨L1, L2⟩ :=
        inject_clean_list cs (u || tags.contains c) tags r s cs2 s2 hT hres
      refine ⟨rfl, ?_, ?_⟩
      · intro hu t ht hlin
        have hu2 : (u || tags.contains c) = true := by simp [hu]
        simp only [PyMod.tailTrips] at ht
        exact L1 hu2 (PyMod.block c cs2) t ht hlin
      · intro a ha htag
        simp only [PyMod.modulesList, List.mem_cons] at ha
        rcases ha with rfl | ha
        · have hc : tags.contains c = true := by
            simp only [PyMod.clsName] at htag
            exact List.elem_eq_true_of_mem htag
          have hu2 : (u || tags.contains c) = true := by rw [hc, Bool.or_true]
          refine ⟨by simp [PyMod.kind], ?_⟩
          intro t ht hlin
          simp only [PyMod.tailTrips] at ht
          exact L1 hu2 (PyMod.block c cs2) t ht hlin
        · exact L2 a ha htag
  | .lin d, u, tags, r, s, m', s', hT, h => by
    unfold injectModM at h
    injection h with hh
    injection hh with h1 h2
    subst h1
    refine ⟨rfl, ?_, ?_⟩
    · intro _ t ht
      simp [PyMod.tailTrips] at ht
    · intro a ha htag
      simp only [PyMod.modulesList, List.mem_singleton] at ha
      subst ha
      exact absurd (by simpa [PyMod.clsName] using htag) hT
  | .conv d, u, tags, r, s, m', s', hT, h => by
    unfold injectModM at h
    injection h with hh
    injection hh with h1 h2
    subst h1
    refine ⟨rfl, ?_, ?_⟩
    · intro _ t ht
      simp [PyMod.tailTrips] at ht
    · intro a ha htag
      simp only [PyMod.modulesList, List.mem_singleton] at ha
      subst ha
      refine ⟨by simp [PyMod.kind], ?_⟩
      intro t ht
      simp [PyMod.tailTrips] at ht
  | .drop p, u, tags, r, s, m', s', hT, h => by
    unfold injectModM at h
    injection h with hh
    injection hh with h1 h2
    subst h1
    refine ⟨rfl, ?_, ?_⟩
    · intro _ t ht
      simp [PyMod.tailTrips] at ht
    · intro a ha htag
      simp only [PyMod.modulesList, List.mem_singleton] at ha
      subst ha
      refine ⟨by simp [PyMod.kind], ?_⟩
      intro t ht
      simp [PyMod.tailTrips] at ht
  | .loraLin l dn pp up sc, u, tags, r, s, m', s', hT, h => by
    unfold injectModM at h
    injection h with hh
    injection hh with h1 h2
    subst h1
    exact ⟨rfl, fun _ => loraLin_trips l dn pp up sc, loraLin_mods_clean tags hT l dn pp up sc⟩
  | .loraConv cd dn pp up sc, u, tags, r, s, m', s', hT, h => by
    unfold injectModM at h
    injection h with hh
    injection hh with h1 h2
    subst h1
    exact ⟨rfl, fun _ => loraConv_trips cd dn pp up sc,
      loraConv_mods_clean tags hT cd dn pp up sc⟩

/-- Child-list version of `inject_clean_mod`. -/
theorem inject_clean_list : ∀ (cs : PyModList) (u : Bool) (tags : List String) (r s : ℕ)
    (cs' : PyModList) (s' : ℕ), "Linear" ∉ tags → injectModsM u tags r cs s = .ok (cs', s') →
    (u = true → ∀ (parent : PyMod), ∀ t ∈ cs'.tailTripsL parent, (t.2.2).kind = .linK →
      (t.1.kind = .loraLinK ∨ t.1.kind = .loraConvK)) ∧
    (∀ a ∈ cs'.modulesListL, a.clsName ∈ tags →
      a.kind ≠ .linK ∧ ∀ t ∈ a.tailTrips, (t.2.2).kind = .linK →
        (t.1.kind = .loraLinK ∨ t.1.kind = .loraConvK))
  | .nil, u, tags, r, s, cs', s', hT, h => by
    unfold injectModsM at h
    injection h with hh
    injection hh with h1 h2
    subst h1
    refine ⟨?_, ?_⟩
    · intro _ parent t ht
      simp [PyModList.tailTripsL] at ht
    · intro a ha
      simp [PyModList.modulesListL] at ha
  | .cons n m rest, u, tags, r, s, cs', s', hT, h => by
    unfold injectModsM at h
    cases m with
    | lin d =>
      dsimp only at h
      cases u with
      | false =>
        simp only [Bool.false_eq_true, if_false, bind, Except.bind] at h
        cases hrest : injectModsM false tags r rest s with
        | error e =>
          rw [hrest] at h
          exact Except.noConfusion h
        | ok q =>
          obtain ⟨rest2, s3⟩ := q
          rw [hrest] at h
          injection h with hh
          injection hh with h1 h2
          subst h1
          obtain ⟨R1, R2⟩ := inject_clean_list rest false tags r s rest2 s3 hT hrest
          refine ⟨?_, ?_⟩
          · intro huu
            exact absurd huu (by simp)
          · intro a ha htag
            simp only [PyModList.modulesListL, List.mem_append] at ha
            rcases ha with ha | ha
            · simp only [PyMod.modulesList, List.mem_singleton] at ha
              subst ha
              exact absurd (by simpa [PyMod.clsName] using htag) hT
            · exact R2 a ha htag
      | true =>
        simp only [eq_self_iff_true, if_true, bind, Except.bind] at h
        cases hb : injectLinearBody d r s with
        | error e =>
          rw [hb] at h
          exact Except.noConfusion h
        | ok p =>
          obtain ⟨m2, s2⟩ := p
          rw [hb] at h
          simp only [bind, Except.bind] at h
          obtain ⟨hm2, hs2⟩ := injectLinearBody_ok d r s m2 s2 hb
          subst hm2
          cases hrest : injectModsM true tags r rest s2 with
          | error e =>
            rw [hrest] at h
            exact Except.noConfusion h
          | ok q =>
            obtain ⟨rest2, s3⟩ := q
            rw [hrest] at h
            injection h with hh
            injection hh with h1 h2
            subst h1
            obtain ⟨R1, R2⟩ := inject_clean_list rest true tags r s2 rest2 s3 hT hrest
            refine ⟨?_, ?_⟩
            · intro _ parent t ht hlin
              simp only [PyModList.tailTripsL, List.mem_append, List.mem_cons] at ht
              rcases ht with (rfl | ht) | ht
              · simp [PyMod.kind] at hlin
              · exact loraLin_trips _ _ _ _ _ t ht hlin
              · exact R1 rfl parent t ht hlin
            · intro a ha htag
              simp only [PyModList.modulesListL, List.mem_append] at ha
              rcases ha with ha | ha
              · exact loraLin_mods_clean tags hT _ _ _ _ _ a ha htag
              · exact R2 a ha htag
    | block c2 cs2 =>
      dsimp only at h
      cases hstep : injectModM u tags r (.block c2 cs2) s with
      | error e =>
        rw [hstep] at h
        simp only [bind, Except.bind] at h
        exact Except.noConfusion h
      | ok p =>
        obtain ⟨m2, s2⟩ := p
        rw [hstep] at h
        simp only [bind, Except.bind] at h
        obtain ⟨hkind, hQ, htagged⟩ :=
          inject_clean_mod (.block c2 cs2) u tags r s m2 s2 hT hstep
        cases hrest : injectModsM u tags r rest s2 with
        | error e =>
          rw [hrest] at h
          exact Except.noConfusion h
        | ok q =>
          obtain ⟨rest2, s3⟩ := q
          rw [hrest] at h
          injection h with hh
          injection hh with h1 h2
          subst h1
          obtain ⟨R1, R2⟩ := inject_clean_list rest u tags r s2 rest2 s3 hT hrest
          refine ⟨?_, ?_⟩
          · intro hu parent t ht hlin
            simp only [PyModList.tailTripsL, List.mem_append, List.mem_cons] at ht
            rcases ht with (rfl | ht) | ht
            · rw [hkind] at hlin
              simp [PyMod.kind] at hlin
            · exact hQ hu t ht hlin
            · exact R1 hu parent t ht hlin
          · intro a ha htag
            simp only [PyModList.modulesListL, List.mem_append] at ha
            rcases ha with ha | ha
            · exact htagged a ha htag
            · exact R2 a ha htag
    | conv d =>
      dsimp only at h
      cases hstep : injectModM u tags r (.conv d) s with
      | error e =>
        rw [hstep] at h
        simp only [bind, Except.bind] at h
        exact Except.noConfusion h
      | ok p =>
        obtain ⟨m2, s2⟩ := p
        rw [hstep] at h
        simp only [bind, Except.bind] at h
        obtain ⟨hkind, hQ, htagged⟩ :=
          inject_clean_mod (.conv d) u tags r s m2 s2 hT hstep
        cases hrest : injectModsM u tags r rest s2 with
        | error e =>
          rw [hrest] at h
          exact Except.noConfusion h
        | ok q =>
          obtain ⟨rest2, s3⟩ := q
          rw [hrest] at h
          injection h with hh
          injection hh with h1 h2
          subst h1
          obtain ⟨R1, R2⟩ := inject_clean_list rest u tags r s2 rest2 s3 hT hrest
          refine ⟨?_, ?_⟩
          · intro hu parent t ht hlin
            simp only [PyModList.tailTripsL, List.mem_append, List.mem_cons] at ht
            rcases ht with (rfl | ht) | ht
            · rw [hkind] at hlin
              simp [PyMod.kind] at hlin
            · exact hQ hu t ht hlin
            · exact R1 hu parent t ht hlin
          · intro a ha htag
            simp only [PyModList.modulesListL, List.mem_append] at ha
            rcases ha with ha | ha
            · exact htagged a ha htag
            · exact R2 a ha htag
    | drop pp =>
      dsimp only at h
      cases hstep : injectModM u tags r (.drop pp) s with
      | error e =>
        rw [hstep] at h
        simp only [bind, Except.bind] at h
        exact Except.noConfusion h
      | ok p =>
        obtain ⟨m2, s2⟩ := p
        rw [hstep] at h
        simp only [bind, Except.bind] at h
        obtain ⟨hkind, hQ, htagged⟩ :=
          inject_clean_mod (.drop pp) u tags r s m2 s2 hT hstep
        cases hrest : injectModsM u tags r rest s2 with
        | error e =>
          rw [hrest] at h
          exact Except.noConfusion h
        | ok q =>
          obtain ⟨rest2, s3⟩ := q
          rw [hrest] at h
          injection h with hh
          injection hh with h1 h2
          subst h1
          obtain ⟨R1, R2⟩ := inject_clean_list rest u tags r s2 rest2 s3 hT hrest
          refine ⟨?_, ?_⟩
          · intro hu parent t ht hlin
            simp only [PyModList.tailTripsL, List.mem_append, List.mem_cons] at ht
            rcases ht with (rfl | ht) | ht
            · rw [hkind] at hlin
              simp [PyMod.kind] at hlin
            · exact hQ hu t ht hlin
            · exact R1 hu parent t ht hlin
          · intro a ha htag
            simp only [PyModList.modulesListL, List.mem_append] at ha
            rcases ha with ha | ha
            · exact htagged a ha htag
            · exact R2 a ha htag
    | loraLin l dn pp up sc =>
      dsimp only at h
      cases hstep : injectModM u tags r (.loraLin l dn pp up sc) s with
      | error e =>
        rw [hstep] at h
        simp only [bind, Except.bind] at h
        exact Except.noConfusion h
      | ok p =>
        obtain ⟨m2, s2⟩ := p
        rw [hstep] at h
        simp only [bind, Except.bind] at h
        obtain ⟨hkind, hQ, htagged⟩ :=
          inject_clean_mod (.loraLin l dn pp up sc) u tags r s m2 s2 hT hstep
        cases hrest : injectModsM u tags r rest s2 with
        | error e =>
          rw [hrest] at h
          exact Except.noConfusion h
        | ok q =>
          obtain ⟨rest2, s3⟩ := q
          rw [hrest] at h
          injection h with hh
          injection hh with h1 h2
          subst h1
          obtain ⟨R1, R2⟩ := inject_clean_list rest u tags r s2 rest2 s3 hT hrest
          refine ⟨?_, ?_⟩
          · intro hu parent t ht hlin
            simp only [PyModList.tailTripsL, List.mem_append, List.mem_cons] at ht
            rcases ht with (rfl | ht) | ht
            · rw [hkind] at hlin
              simp [PyMod.kind] at hlin
            · exact hQ hu t ht hlin
            · exact R1 hu parent t ht hlin
          · intro a ha htag
            simp only [PyModList.modulesListL, List.mem_append] at ha
            rcases ha with ha | ha
            · exact htagged a ha htag
            · exact R2 a ha htag
    | loraConv cd dn pp up sc =>
      dsimp only at h
      cases hstep : injectModM u tags r (.loraConv cd dn pp up sc) s with
      | error e =>
        rw [hstep] at h
        simp only [bind, Except.bind] at h
        exact Except.noConfusion h
      | ok p =>
        obtain ⟨m2, s2⟩ := p
        rw [hstep] at h
        simp only [bind, Except.bind] at h
        obtain ⟨hkind, hQ, htagged⟩ :=
          inject_clean_mod (.loraConv cd dn pp up sc) u tags r s m2 s2 hT hstep
        cases hrest : injectModsM u tags r rest s2 with
        | error e =>
          rw [hrest] at h
          exact Except.noConfusion h
        | ok q =>
          obtain ⟨rest2, s3⟩ := q
          rw [hrest] at h
          injection h with hh
          injection hh with h1 h2
          subst h1
          obtain ⟨R1, R2⟩ := inject_clean_list rest u tags r s2 rest2 s3 hT hrest
          refine ⟨?_, ?_⟩
          · intro hu parent t ht hlin
            simp only [PyModList.tailTripsL, List.mem_append, List.mem_cons] at ht
            rcases ht with (rfl | ht) | ht
            · rw [hkind] at hlin
              simp [PyMod.kind] at hlin
            · exact hQ hu t ht hlin
            · exact R1 hu parent t ht hlin
          · intro a ha htag
            simp only [PyModList.modulesListL, List.mem_append] at ha
            rcases ha with ha | ha
            · exact htagged a ha htag
            · exact R2 a ha htag
end

/-- C5: after a successful `inject_trainable_lora` pass, a second pass's
locator — `_find_modules_v2` with the same target tags, `search_class =
[nn.Linear]` and the default `exclude_children_of` — yields zero matches:
every linear previously eligible was replaced, and the linears inside the new
augmented layers have a `LoraInjectedLinear` direct parent and are skipped.
(The target tags must not contain `"Linear"` itself, which holds for every
target set the library defines.) -/
theorem exclusion_prevents_relocation :
    ∀ (tags : List String) (r : ℕ) (m : PyMod) (s : ℕ) (m' : PyMod) (s' : ℕ),
      "Linear" ∉ tags → injectTrainableLora m tags r s = .ok (m', s') →
      findModulesV2 m' (some tags) [.linK] defaultExcl = [] := by
  intro tags r m s m' s' hT h
  obtain ⟨-, -, htagged⟩ := inject_clean_mod m false tags r s m' s' hT h
  simp only [findModulesV2]
  rw [List.eq_nil_iff_forall_not_mem]
  intro t ht
  rw [List.mem_flatMap] at ht
  obtain ⟨a, haf, htf⟩ := ht
  rw [List.mem_filter] at haf
  obtain ⟨hamem, hatag⟩ := haf
  have htag2 : a.clsName ∈ tags := List.mem_of_elem_eq_true hatag
  obtain ⟨hak, hQ⟩ := htagged a hamem htag2
  rw [List.mem_filter] at htf
  obtain ⟨htmem, hP⟩ := htf
  rw [Bool.and_eq_true] at hP
  obtain ⟨hsearch, hexcl⟩ := hP
  have hlin : (t.2.2).kind = .linK := by
    have hmem := List.mem_of_elem_eq_true hsearch
    simpa using hmem
  have hnotex : defaultExcl.contains t.1.kind = false := by
    cases hx : defaultExcl.contains t.1.kind
    · rfl
    · rw [hx] at hexcl
      simp at hexcl
  simp only [ancestorTrips, List.mem_cons] at htmem
  rcases htmem with rfl | htmem
  · exact hak hlin
  · have hpar := hQ t htmem hlin
    have hcont : defaultExcl.contains t.1.kind = true := by
      rcases hpar with hp | hp
      · exact List.elem_eq_true_of_mem (by simp [defaultExcl, hp])
      · exact List.elem_eq_true_of_mem (by simp [defaultExcl, hp])
    rw [hcont] at hnotex
    exact Bool.noConfusion hnotex

/-- Witness for `exclusion_prevents_relocation` on a concrete one-attention
model. -/
theorem exclusion_prevents_relocation_witness :
    findModulesV2
        (.block "CrossAttention"
          (.cons "q"
            (.loraLin ⟨⟨0, [4, 4]⟩, none, 4, 4⟩ ⟨⟨0 + 2, [2, 4]⟩, none, 4, 2⟩ (1 / 10)
              ⟨⟨0 + 3, [4, 2]⟩, none, 2, 4⟩ 1) .nil))
        (some defaultTargetReplace) [.linK] defaultExcl = [] :=
  exclusion_prevents_relocation defaultTargetReplace 2
    (.block "CrossAttention" (.cons "q" (.lin ⟨⟨0, [4, 4]⟩, none, 4, 4⟩) .nil)) 0
    (.block "CrossAttention"
      (.cons "q"
        (.loraLin ⟨⟨0, [4, 4]⟩, none, 4, 4⟩ ⟨⟨0 + 2, [2, 4]⟩, none, 4, 2⟩ (1 / 10)
          ⟨⟨0 + 3, [4, 2]⟩, none, 2, 4⟩ 1) .nil))
    (0 + 4) (by decide) rfl

/-- `groupby` of a nonempty key list is nonempty. -/
theorem pyGroupBy_ne_nil (k : String) (l : List String) : pyGroupBy (k :: l) ≠ [] := by
  cases hpg : pyGroupBy l with
  | nil => simp [pyGroupBy, hpg]
  | cons hd tl =>
    obtain ⟨n0, g0⟩ := hd
    simp only [pyGroupBy, hpg]
    split_ifs <;> simp

/-- Every key lands in a group carrying that key's component name. -/
theorem pyGroupBy_mem_name : ∀ (l : List String) (k : String), k ∈ l →
    ∃ g, (getName k, g) ∈ pyGroupBy l ∧ k ∈ g := by
  intro l
  induction l with
  | nil =>
    intro k hk
    simp at hk
  | cons q ks ih =>
    intro k hk
    rcases List.mem_cons.mp hk with rfl | hk2
    · cases hpg : pyGroupBy ks with
      | nil =>
        refine ⟨[k], ?_, by simp⟩
        simp [pyGroupBy, hpg]
      | cons hd tl =>
        obtain ⟨n0, g0⟩ := hd
        by_cases he : getName k = n0
        · refine ⟨k :: g0, ?_, by simp⟩
          simp [pyGroupBy, hpg, he]
        · refine ⟨[k], ?_, by simp⟩
          simp [pyGroupBy, hpg, he]
    · obtain ⟨g, hg, hkg⟩ := ih k hk2
      cases hpg : pyGroupBy ks with
      | nil =>
        rw [hpg] at hg
        simp at hg
      | cons hd tl =>
        obtain ⟨n0, g0⟩ := hd
        rw [hpg] at hg
        by_cases he : getName q = n0
        · rcases List.mem_cons.mp hg with heq | hgtl
          · rw [Prod.mk.injEq] at heq
            obtain ⟨e1, e2⟩ := heq
            refine ⟨q :: g0, ?_, List.mem_cons_of_mem q (e2 ▸ hkg)⟩
            simp only [pyGroupBy, hpg, he, if_true]
            have hnm : getName k = getName q := e1.trans he.symm
            rw [hnm, he]
            exact List.mem_cons_self _ _
          · refine ⟨g, ?_, hkg⟩
            simp only [pyGroupBy, hpg, he, if_true]
            exact List.mem_cons_of_mem _ hgtl
        · refine ⟨g, ?_, hkg⟩
          simp only [pyGroupBy, hpg, he, if_false]
          exact List.mem_cons_of_mem _ hg

/-- If one list element makes the step fail no matter the accumulator, the
whole monadic fold fails. -/
theorem foldlM_error_of_mem {α β : Type} (step : β → α → Except String β) :
    ∀ (l : List α) (x : α), x ∈ l → (∀ acc, ∃ e0, step acc x = .error e0) →
    ∀ acc, ∃ e, l.foldlM step acc = .error e := by
  intro l
  induction l with
  | nil =>
    intro x hx
    simp at hx
  | cons y ys ih =>
    intro x hx hstep acc
    rw [List.foldlM_cons]
    cases hy : step acc y with
    | error e => exact ⟨e, by simp [hy, bind, Except.bind]⟩
    | ok b =>
      rcases List.mem_cons.mp hx with rfl | hx2
      · obtain ⟨e0, he0⟩ := hstep acc
        rw [hy] at he0
        exact Except.noConfusion he0
      · obtain ⟨e, he⟩ := ih x hx2 hstep b
        exact ⟨e, by simp [hy, bind, Except.bind, he]⟩

/-- C7: a tensor key whose component name has no metadata entry makes
`parse_safeloras` raise — the whole load aborts and no partial result is
returned, whatever else the file contains. -/
theorem missing_metadata_aborts_load :
    ∀ (f : SafeFile) (k : String), k ∈ f.weights.map Prod.fst →
      dget f.metadata (getName k) = none →
      ∃ e, parseSafeloras f = .error e := by
  intro f k hk hmd
  have hk2 : k ∈ sortKeys (f.weights.map Prod.fst) := by
    rw [sortKeys]
    exact ((List.perm_insertionSort keyLe _).mem_iff).mpr hk
  obtain ⟨g, hg, hkg⟩ := pyGroupBy_mem_name _ k hk2
  simp only [parseSafeloras]
  exact
    foldlM_error_of_mem _ _ (getName k, g) hg
      (fun acc =>
        ⟨"Tensor " ++ getName k ++ " has no metadata - is this a Lora safetensor?",
          by simp [parseGroup, hmd, bind, Except.bind]⟩)
      []

/-- Witness for `missing_metadata_aborts_load`: a file holding one tensor
key and no metadata at all. -/
theorem missing_metadata_aborts_load_witness :
    ∃ e, parseSafeloras ⟨[("a:0:up", 5)], []⟩ = .error e :=
  missing_metadata_aborts_load ⟨[("a:0:up", 5)], []⟩ "a:0:up" (by simp) rfl

/-- Characters with equal code points are equal. -/
theorem char_toNat_inj (x y : Char) (h : x.toNat = y.toNat) : x = y := by
  have h3 : x.val = y.val := by
    unfold Char.toNat at h
    exact UInt32.toNat.inj h
  exact Char.ext h3

/-- `charsLe` is reflexive. -/
theorem charsLe_refl : ∀ l : List Char, charsLe l l = true := by
  intro l
  induction l with
  | nil => rfl
  | cons c cs ih => simp [charsLe, Nat.lt_irrefl, ih]

/-- `charsLe` is total. -/
theorem charsLe_total : ∀ a b : List Char, charsLe a b = true ∨ charsLe b a = true := by
  intro a
  induction a with
  | nil =>
    intro b
    left
    rfl
  | cons x xs ih =>
    intro b
    cases b with
    | nil =>
      right
      rfl
    | cons y ys =>
      by_cases h1 : x.toNat < y.toNat
      · left
        simp [charsLe, h1]
      · by_cases h2 : y.toNat < x.toNat
        · right
          simp [charsLe, h2]
        · rcases ih ys with h | h
          · left
            simp [charsLe, h1, h2, h]
          · right
            simp [charsLe, h1, h2, h]

/-- `charsLe` is antisymmetric. -/
theorem charsLe_antisymm : ∀ a b : List Char, charsLe a b = true → charsLe b a = true →
    a = b := by
  intro a
  induction a with
  | nil =>
    intro b h1 h2
    cases b with
    | nil => rfl
    | cons y ys => simp [charsLe] at h2
  | cons x xs ih =>
    intro b h1 h2
    cases b with
    | nil => simp [charsLe] at h1
    | cons y ys =>
      by_cases hxy : x.toNat < y.toNat
      · simp [charsLe, hxy, Nat.lt_asymm hxy] at h2
      · by_cases hyx : y.toNat < x.toNat
        · simp [charsLe, hyx, hxy] at h1
        · have hx : x = y := char_toNat_inj x y (by omega)
          subst hx
          simp only [charsLe, Nat.lt_irrefl, if_false] at h1 h2
          rw [ih ys h1 h2]

/-- `charsLe` is transitive. -/
theorem charsLe_trans : ∀ a b c : List Char, charsLe a b = true → charsLe b c = true →
    charsLe a c = true := by
  intro a
  induction a with
  | nil =>
    intro b c h1 h2
    rfl
  | cons x xs ih =>
    intro b c h1 h2
    cases b with
    | nil => simp [charsLe] at h1
    | cons y ys =>
      cases c with
      | nil => simp [charsLe] at h2
      | cons z zs =>
        have hxy : x.toNat ≤ y.toNat := by
          by_contra hc
          push_neg at hc
          simp [charsLe, hc, Nat.lt_asymm hc] at h1
        have hyz : y.toNat ≤ z.toNat := by
          by_contra hc
          push_neg at hc
          simp [charsLe, hc, Nat.lt_asymm hc] at h2
        by_cases hxz : x.toNat < z.toNat
        · simp [charsLe, hxz]
        · have e1 : x.toNat = y.toNat := by omega
          have e2 : y.toNat = z.toNat := by omega
          have hxs : charsLe xs ys = true := by
            simpa [charsLe, e1, Nat.lt_irrefl] using h1
          have hys : charsLe ys zs = true := by
            simpa [charsLe, e2, Nat.lt_irrefl] using h2
          simp [charsLe, e1, e2, Nat.lt_irrefl, ih ys zs hxs hys]

instance : IsTotal String keyLe :=
  ⟨fun a b => charsLe_total (getName a).data (getName b).data⟩

instance : IsTrans String keyLe :=
  ⟨fun a b c => charsLe_trans (getName a).data (getName b).data (getName c).data⟩

/-- Equal grouping keys (as compared by the sort) mean equal `getName`. -/
theorem keyLe_antisymm_names (a b : String) (h1 : keyLe a b) (h2 : keyLe b a) :
    getName a = getName b := by
  have h := charsLe_antisymm (getName a).data (getName b).data h1 h2
  cases hga : getName a with
  | mk da =>
    cases hgb : getName b with
    | mk db =>
      rw [hga, hgb] at h
      simp only at h
      rw [h]
/-! ### Key syntax: `getName` and `splitColon` on the writer's keys -/

/-- `takeWhile` stops exactly at the first `':'`. -/
theorem takeWhile_append_colon : ∀ l1 l2 : List Char, (∀ c ∈ l1, c ≠ ':') →
    (l1 ++ ':' :: l2).takeWhile (fun c => c != ':') = l1 := by
  intro l1 l2
  induction l1 with
  | nil => intro h; simp [List.takeWhile_cons]
  | cons c cs ih =>
    intro h
    have hc : (c != ':') = true := by
      simpa using h c (List.mem_cons_self c cs)
    simp [List.takeWhile_cons, hc, ih (fun x hx => h x (List.mem_cons_of_mem c hx))]

/-- `takeWhile` keeps a colon-free list whole. -/
theorem takeWhile_all_ne_colon : ∀ l : List Char, (∀ c ∈ l, c ≠ ':') →
    l.takeWhile (fun c => c != ':') = l := by
  intro l
  induction l with
  | nil => intro h; rfl
  | cons c cs ih =>
    intro h
    have hc : (c != ':') = true := by
      simpa using h c (List.mem_cons_self c cs)
    simp [List.takeWhile_cons, hc, ih (fun x hx => h x (List.mem_cons_of_mem c hx))]

theorem mk_data (s : String) : String.mk s.data = s := rfl

theorem upKey_data (n : String) (i : ℕ) :
    (upKey n i).data = n.data ++ ':' :: ((pyStr i).data ++ ':' :: ['u', 'p']) := by
  have h1 : (":" : String).data = [':'] := rfl
  have h2 : (":up" : String).data = [':', 'u', 'p'] := rfl
  simp [upKey, String.data_append, h1, h2]

theorem downKey_data (n : String) (i : ℕ) :
    (downKey n i).data = n.data ++ ':' :: ((pyStr i).data ++ ':' :: ['d', 'o', 'w', 'n']) := by
  have h1 : (":" : String).data = [':'] := rfl
  have h2 : (":down" : String).data = [':', 'd', 'o', 'w', 'n'] := rfl
  simp [downKey, String.data_append, h1, h2]

theorem rankKey_data (n : String) (i : ℕ) :
    (rankKey n i).data = n.data ++ ':' :: ((pyStr i).data ++ ':' :: ['r', 'a', 'n', 'k']) := by
  have h1 : (":" : String).data = [':'] := rfl
  have h2 : (":rank" : String).data = [':', 'r', 'a', 'n', 'k'] := rfl
  simp [rankKey, String.data_append, h1, h2]

theorem pyDigit_toNat (d : ℕ) (h : d < 10) : (pyDigit d).toNat = 48 + d := by
  interval_cases d <;> decide

/-- Every character the decimal printer emits is a decimal digit. -/
theorem pyStrAux_digits : ∀ fuel n : ℕ, ∀ c ∈ pyStrAux fuel n,
    48 ≤ c.toNat ∧ c.toNat ≤ 57 := by
  intro fuel
  induction fuel with
  | zero => intro n c hc; simp [pyStrAux] at hc
  | succ f ih =>
    intro n c hc
    by_cases h10 : n < 10
    · simp only [pyStrAux, if_pos h10, List.mem_singleton] at hc
      subst hc
      rw [pyDigit_toNat n h10]
      omega
    · simp only [pyStrAux, if_neg h10, List.mem_append, List.mem_singleton] at hc
      rcases hc with h1 | h2
      · exact ih (n / 10) c h1
      · subst h2
        rw [pyDigit_toNat (n % 10) (Nat.mod_lt n (by omega))]
        omega

theorem pyStrAux_ne_nil (fuel n : ℕ) (h : n < fuel) : pyStrAux fuel n ≠ [] := by
  cases fuel with
  | zero => omega
  | succ f =>
    by_cases h10 : n < 10
    · simp [pyStrAux, h10]
    · simp [pyStrAux, h10]

/-- Value of the digit fold over the printer's output. -/
theorem pyStrAux_foldl : ∀ fuel n : ℕ, n < fuel → ∀ acc : ℕ,
    (pyStrAux fuel n).foldl (fun a c => a * 10 + (c.toNat - 48)) acc
      = acc * 10 ^ (pyStrAux fuel n).length + n := by
  intro fuel
  induction fuel with
  | zero => intro n h; omega
  | succ f ih =>
    intro n h acc
    by_cases h10 : n < 10
    · simp only [pyStrAux, if_pos h10, List.foldl_cons, List.foldl_nil, List.length_cons,
        List.length_nil, pyDigit_toNat n h10, pow_succ, pow_zero]
      omega
    · have hlt : n / 10 < f := by
        have h1 : n / 10 < n := Nat.div_lt_self (by omega) (by omega)
        omega
      simp only [pyStrAux, if_neg h10]
      rw [List.foldl_append, ih (n / 10) hlt acc]
      simp only [List.foldl_cons, List.foldl_nil, List.length_append, List.length_cons,
        List.length_nil, pyDigit_toNat (n % 10) (Nat.mod_lt n (by omega)), pow_succ, pow_zero]
      have hdm := Nat.div_add_mod n 10
      generalize (10 : ℕ) ^ (pyStrAux f (n / 10)).length = A
      have hmul : acc * (A * 10) = acc * A * 10 := by ring
      omega

/-- `int(str(n)) = n`: the reader's index parse inverts the writer's printer. -/
theorem pyInt_pyStr (n : ℕ) : pyInt? (pyStr n) = some n := by
  have hne : (pyStr n).data ≠ [] := pyStrAux_ne_nil (n + 1) n (by omega)
  have hall : (pyStr n).data.all
      (fun c => decide (48 ≤ c.toNat) && decide (c.toNat ≤ 57)) = true := by
    rw [List.all_eq_true]
    intro c hc
    obtain ⟨h1, h2⟩ := pyStrAux_digits (n + 1) n c hc
    simp [h1, h2]
  unfold pyInt?
  rw [if_pos ⟨hne, hall⟩]
  have hv := pyStrAux_foldl (n + 1) n (by omega) 0
  simp only [Nat.zero_mul, Nat.zero_add] at hv
  exact congrArg some hv

theorem pyStr_inj (i j : ℕ) (h : pyStr i = pyStr j) : i = j := by
  have h2 : pyInt? (pyStr i) = pyInt? (pyStr j) := congrArg _ h
  rw [pyInt_pyStr, pyInt_pyStr] at h2
  exact Option.some.inj h2

theorem pyStr_no_colon (i : ℕ) : ∀ c ∈ (pyStr i).data, c ≠ ':' := by
  intro c hc he
  obtain ⟨h1, h2⟩ := pyStrAux_digits (i + 1) i c hc
  rw [he] at h2
  exact absurd h2 (by decide)

theorem getName_noColon (t : String) (h : noColon t) : getName t = t := by
  unfold getName
  rw [takeWhile_all_ne_colon t.data (fun c hc he => h (he ▸ hc))]

theorem getName_upKey (n : String) (i : ℕ) (h : noColon n) : getName (upKey n i) = n := by
  unfold getName
  rw [upKey_data, takeWhile_append_colon n.data _ (fun c hc he => h (he ▸ hc))]

theorem getName_downKey (n : String) (i : ℕ) (h : noColon n) : getName (downKey n i) = n := by
  unfold getName
  rw [downKey_data, takeWhile_append_colon n.data _ (fun c hc he => h (he ▸ hc))]

/-- `splitCAux` of a colon-free list is that single segment. -/
theorem splitCAux_no_colon : ∀ l : List Char, (∀ c ∈ l, c ≠ ':') → splitCAux l = [l] := by
  intro l
  induction l with
  | nil => intro h; rfl
  | cons c cs ih =>
    intro h
    have hc : c ≠ ':' := h c (List.mem_cons_self c cs)
    have ih2 := ih (fun x hx => h x (List.mem_cons_of_mem c hx))
    simp [splitCAux, hc, ih2]

/-- `splitCAux` peels a colon-free prefix off at the first `':'`. -/
theorem splitCAux_append : ∀ l1 l2 : List Char, (∀ c ∈ l1, c ≠ ':') →
    splitCAux (l1 ++ ':' :: l2) = l1 :: splitCAux l2 := by
  intro l1
  induction l1 with
  | nil =>
    intro l2 h
    simp [splitCAux]
  | cons c cs ih =>
    intro l2 h
    have hc : c ≠ ':' := h c (List.mem_cons_self c cs)
    have ih2 := ih l2 (fun x hx => h x (List.mem_cons_of_mem c hx))
    simp [splitCAux, hc, ih2]

theorem splitColon_upKey (n : String) (i : ℕ) (h : noColon n) :
    splitColon (upKey n i) = [n, pyStr i, "up"] := by
  unfold splitColon
  rw [upKey_data, splitCAux_append _ _ (fun c hc he => h (he ▸ hc)),
    splitCAux_append _ _ (pyStr_no_colon i), splitCAux_no_colon ['u', 'p'] (by decide)]
  rfl

theorem splitColon_downKey (n : String) (i : ℕ) (h : noColon n) :
    splitColon (downKey n i) = [n, pyStr i, "down"] := by
  unfold splitColon
  rw [downKey_data, splitCAux_append _ _ (fun c hc he => h (he ▸ hc)),
    splitCAux_append _ _ (pyStr_no_colon i), splitCAux_no_colon ['d', 'o', 'w', 'n'] (by decide)]
  rfl

theorem splitColon_rankKey (n : String) (i : ℕ) (h : noColon n) :
    splitColon (rankKey n i) = [n, pyStr i, "rank"] := by
  unfold splitColon
  rw [rankKey_data, splitCAux_append _ _ (fun c hc he => h (he ▸ hc)),
    splitCAux_append _ _ (pyStr_no_colon i), splitCAux_no_colon ['r', 'a', 'n', 'k'] (by decide)]
  rfl

theorem splitColon_noColon (t : String) (h : noColon t) : splitColon t = [t] := by
  unfold splitColon
  rw [splitCAux_no_colon t.data (fun c hc he => h (he ▸ hc))]
  rfl

/-- The writer's keys contain a `':'`, so no colon-free name or token equals one. -/
theorem ne_of_colon_mem {t k : String} (ht : noColon t) (hk : ':' ∈ k.data) : t ≠ k :=
  fun he => ht (he ▸ hk)

theorem colon_mem_upKey (n : String) (i : ℕ) : ':' ∈ (upKey n i).data := by
  rw [upKey_data]
  exact List.mem_append_right _ (List.mem_cons_self _ _)

theorem colon_mem_downKey (n : String) (i : ℕ) : ':' ∈ (downKey n i).data := by
  rw [downKey_data]
  exact List.mem_append_right _ (List.mem_cons_self _ _)

theorem colon_mem_rankKey (n : String) (i : ℕ) : ':' ∈ (rankKey n i).data := by
  rw [rankKey_data]
  exact List.mem_append_right _ (List.mem_cons_self _ _)

theorem upKey_inj {n m : String} {i j : ℕ} (hn : noColon n) (hm : noColon m)
    (h : upKey n i = upKey m j) : n = m ∧ i = j := by
  have h2 := congrArg splitColon h
  rw [splitColon_upKey n i hn, splitColon_upKey m j hm] at h2
  injection h2 with e1 h2
  injection h2 with e2 _
  exact ⟨e1, pyStr_inj i j e2⟩

theorem downKey_inj {n m : String} {i j : ℕ} (hn : noColon n) (hm : noColon m)
    (h : downKey n i = downKey m j) : n = m ∧ i = j := by
  have h2 := congrArg splitColon h
  rw [splitColon_downKey n i hn, splitColon_downKey m j hm] at h2
  injection h2 with e1 h2
  injection h2 with e2 _
  exact ⟨e1, pyStr_inj i j e2⟩

theorem rankKey_inj {n m : String} {i j : ℕ} (hn : noColon n) (hm : noColon m)
    (h : rankKey n i = rankKey m j) : n = m ∧ i = j := by
  have h2 := congrArg splitColon h
  rw [splitColon_rankKey n i hn, splitColon_rankKey m j hm] at h2
  injection h2 with e1 h2
  injection h2 with e2 _
  exact ⟨e1, pyStr_inj i j e2⟩

theorem upKey_ne_downKey {n m : String} {i j : ℕ} (hn : noColon n) (hm : noColon m) :
    upKey n i ≠ downKey m j := by
  intro h
  have h2 := congrArg splitColon h
  rw [splitColon_upKey n i hn, splitColon_downKey m j hm] at h2
  injection h2 with e1 h2
  injection h2 with e2 h2
  injection h2 with e3 _
  exact absurd e3 (by decide)

theorem rankKey_ne_upKey {n m : String} {i j : ℕ} (hn : noColon n) (hm : noColon m) :
    rankKey n i ≠ upKey m j := by
  intro h
  have h2 := congrArg splitColon h
  rw [splitColon_rankKey n i hn, splitColon_upKey m j hm] at h2
  injection h2 with e1 h2
  injection h2 with e2 h2
  injection h2 with e3 _
  exact absurd e3 (by decide)

theorem rankKey_ne_downKey {n m : String} {i j : ℕ} (hn : noColon n) (hm : noColon m) :
    rankKey n i ≠ downKey m j := by
  intro h
  have h2 := congrArg splitColon h
  rw [splitColon_rankKey n i hn, splitColon_downKey m j hm] at h2
  injection h2 with e1 h2
  injection h2 with e2 h2
  injection h2 with e3 _
  exact absurd e3 (by decide)
/-! ### Dictionary lemmas: `dget` over `dinsert` and append -/

theorem dget_dinsert_same {α : Type} (k : String) (v : α) :
    ∀ l, dget (dinsert k v l) k = some v := by
  intro l
  induction l with
  | nil => simp [dinsert, dget]
  | cons p rest ih =>
    obtain ⟨k0, v0⟩ := p
    by_cases h : k0 = k
    · subst h
      simp [dinsert, dget]
    · simp [dinsert, dget, h, ih]

theorem dget_dinsert_ne {α : Type} (k q : String) (v : α) (hne : k ≠ q) :
    ∀ l, dget (dinsert k v l) q = dget l q := by
  intro l
  induction l with
  | nil => simp [dinsert, dget, hne]
  | cons p rest ih =>
    obtain ⟨k0, v0⟩ := p
    by_cases h : k0 = k
    · subst h
      simp [dinsert, dget, hne]
    · by_cases hq : k0 = q
      · subst hq
        simp [dinsert, dget, h]
      · simp [dinsert, dget, h, hq, ih]

/-- Inserting a fresh key appends it. -/
theorem dinsert_append {α : Type} (k : String) (v : α) :
    ∀ l : List (String × α), (∀ p ∈ l, p.1 ≠ k) → dinsert k v l = l ++ [(k, v)] := by
  intro l
  induction l with
  | nil => intro h; rfl
  | cons p rest ih =>
    intro h
    obtain ⟨k0, v0⟩ := p
    have h0 : k0 ≠ k := h (k0, v0) (List.mem_cons_self _ _)
    simp [dinsert, h0, ih (fun q hq => h q (List.mem_cons_of_mem _ hq))]

theorem dget_append_left {α : Type} (k : String) (v : α) :
    ∀ l1 l2 : List (String × α), dget l1 k = some v → dget (l1 ++ l2) k = some v := by
  intro l1
  induction l1 with
  | nil => intro l2 h; simp [dget] at h
  | cons p rest ih =>
    intro l2 h
    obtain ⟨k0, v0⟩ := p
    by_cases h0 : k0 = k
    · subst h0
      simp [dget] at h ⊢
      exact h
    · simp only [dget, if_neg h0, List.cons_append] at h ⊢
      exact ih l2 h

theorem dget_append_right {α : Type} (k : String) :
    ∀ l1 l2 : List (String × α), dget l1 k = none → dget (l1 ++ l2) k = dget l2 k := by
  intro l1
  induction l1 with
  | nil => intro l2 h; rfl
  | cons p rest ih =>
    intro l2 h
    obtain ⟨k0, v0⟩ := p
    by_cases h0 : k0 = k
    · subst h0
      simp [dget] at h
    · simp only [dget, if_neg h0, List.cons_append] at h ⊢
      exact ih l2 h

theorem dget_eq_none {α : Type} (k : String) :
    ∀ l : List (String × α), (∀ p ∈ l, p.1 ≠ k) → dget l k = none := by
  intro l
  induction l with
  | nil => intro h; rfl
  | cons p rest ih =>
    intro h
    obtain ⟨k0, v0⟩ := p
    have h0 : k0 ≠ k := h (k0, v0) (List.mem_cons_self _ _)
    simp only [dget, if_neg h0]
    exact ih (fun q hq => h q (List.mem_cons_of_mem _ hq))

/-- On a list with pairwise-distinct keys, `dget` returns any member's value. -/
theorem dget_of_mem_nodup {α : Type} :
    ∀ l : List (String × α), (l.map Prod.fst).Nodup → ∀ kv ∈ l, dget l kv.1 = some kv.2 := by
  intro l
  induction l with
  | nil => intro _ kv hkv; simp at hkv
  | cons p rest ih =>
    intro hnd kv hkv
    obtain ⟨k0, v0⟩ := p
    rw [List.map_cons, List.nodup_cons] at hnd
    rcases List.mem_cons.mp hkv with he | hm
    · subst he
      simp [dget]
    · have h0 : k0 ≠ kv.1 := by
        intro hcontra
        apply hnd.1
        rw [hcontra]
        exact List.mem_map.mpr ⟨kv, hm, rfl⟩
      simp only [dget, if_neg h0]
      exact ih hnd.2 kv hm
/-! ### The writer in canonical append form -/

theorem wEntries_length (n : String) : ∀ (layers : List (ℕ × STensor × STensor)) (i : ℕ),
    (wEntries n i layers).length = 2 * layers.length := by
  intro layers
  induction layers with
  | nil => intro i; rfl
  | cons t rest ih =>
    intro i
    obtain ⟨r, u, d⟩ := t
    simp only [wEntries, List.length_cons, ih (i + 1), List.length_cons]
    omega

theorem wEntries_key_mem (n : String) : ∀ (layers : List (ℕ × STensor × STensor)) (i : ℕ),
    ∀ q ∈ wEntries n i layers, ∃ j, j < layers.length ∧
      (q.1 = upKey n (i + j) ∨ q.1 = downKey n (i + j)) := by
  intro layers
  induction layers with
  | nil => intro i q hq; simp [wEntries] at hq
  | cons t rest ih =>
    intro i q hq
    obtain ⟨r, u, d⟩ := t
    simp only [wEntries] at hq
    rcases List.mem_cons.mp hq with he | hq2
    · exact ⟨0, by simp, Or.inl (by simp [he])⟩
    rcases List.mem_cons.mp hq2 with he | hq3
    · exact ⟨0, by simp, Or.inr (by simp [he])⟩
    · obtain ⟨j, hj, hc⟩ := ih (i + 1) q hq3
      refine ⟨j + 1, by simpa using Nat.succ_lt_succ hj, ?_⟩
      rcases hc with h | h
      · exact Or.inl (by rw [h]; congr 1; omega)
      · exact Or.inr (by rw [h]; congr 1; omega)

theorem mEntries_key_mem (n : String) : ∀ (layers : List (ℕ × STensor × STensor)) (i : ℕ),
    ∀ q ∈ mEntries n i layers, ∃ j, j < layers.length ∧ q.1 = rankKey n (i + j) := by
  intro layers
  induction layers with
  | nil => intro i q hq; simp [mEntries] at hq
  | cons t rest ih =>
    intro i q hq
    obtain ⟨r, u, d⟩ := t
    simp only [mEntries] at hq
    rcases List.mem_cons.mp hq with he | hq2
    · exact ⟨0, by simp, by simp [he]⟩
    · obtain ⟨j, hj, hc⟩ := ih (i + 1) q hq2
      exact ⟨j + 1, by simpa using Nat.succ_lt_succ hj, by rw [hc]; congr 1; omega⟩

theorem wEntries_keys_nodup (n : String) (hn : noColon n) :
    ∀ (layers : List (ℕ × STensor × STensor)) (i : ℕ),
    ((wEntries n i layers).map Prod.fst).Nodup := by
  intro layers
  induction layers with
  | nil => intro i; simp [wEntries]
  | cons t rest ih =>
    intro i
    obtain ⟨r, u, d⟩ := t
    simp only [wEntries, List.map_cons]
    refine List.nodup_cons.mpr ⟨?_, List.nodup_cons.mpr ⟨?_, ih (i + 1)⟩⟩
    · intro hmem
      rcases List.mem_cons.mp hmem with he | hm
      · exact upKey_ne_downKey hn hn he
      · rw [List.mem_map] at hm
        obtain ⟨q, hq, hq1⟩ := hm
        obtain ⟨j, hj, hc⟩ := wEntries_key_mem n rest (i + 1) q hq
        rcases hc with h | h
        · obtain ⟨_, hij⟩ := upKey_inj hn hn ((hq1.symm.trans h).symm)
          omega
        · exact upKey_ne_downKey hn hn (hq1.symm.trans h)
    · intro hmem
      rw [List.mem_map] at hmem
      obtain ⟨q, hq, hq1⟩ := hmem
      obtain ⟨j, hj, hc⟩ := wEntries_key_mem n rest (i + 1) q hq
      rcases hc with h | h
      · exact upKey_ne_downKey hn hn (hq1.symm.trans h).symm
      · obtain ⟨_, hij⟩ := downKey_inj hn hn ((hq1.symm.trans h).symm)
        omega

theorem mEntries_keys_nodup (n : String) (hn : noColon n) :
    ∀ (layers : List (ℕ × STensor × STensor)) (i : ℕ),
    ((mEntries n i layers).map Prod.fst).Nodup := by
  intro layers
  induction layers with
  | nil => intro i; simp [mEntries]
  | cons t rest ih =>
    intro i
    obtain ⟨r, u, d⟩ := t
    simp only [mEntries, List.map_cons]
    refine List.nodup_cons.mpr ⟨?_, ih (i + 1)⟩
    intro hmem
    rw [List.mem_map] at hmem
    obtain ⟨q, hq, hq1⟩ := hmem
    obtain ⟨j, hj, hc⟩ := mEntries_key_mem n rest (i + 1) q hq
    obtain ⟨_, hij⟩ := rankKey_inj hn hn ((hq1.symm.trans hc).symm)
    omega

theorem saveComponentLayers_canon (n : String) (hn : noColon n) :
    ∀ (layers : List (ℕ × STensor × STensor)) (i : ℕ) (st : SafeFile),
    (∀ p ∈ st.weights, ∀ q ∈ wEntries n i layers, p.1 ≠ q.1) →
    (∀ p ∈ st.metadata, ∀ q ∈ mEntries n i layers, p.1 ≠ q.1) →
    saveComponentLayers n i layers st =
      ⟨st.weights ++ wEntries n i layers, st.metadata ++ mEntries n i layers⟩ := by
  intro layers
  induction layers with
  | nil =>
    intro i st _ _
    simp [saveComponentLayers, wEntries, mEntries]
  | cons t rest ih =>
    intro i st hW hM
    obtain ⟨r, u, d⟩ := t
    rw [saveComponentLayers]
    have e1 : dinsert (upKey n i) u st.weights = st.weights ++ [(upKey n i, u)] := by
      apply dinsert_append
      intro p hp
      exact hW p hp (upKey n i, u) (by simp [wEntries])
    have e2 : dinsert (downKey n i) d (st.weights ++ [(upKey n i, u)]) =
        (st.weights ++ [(upKey n i, u)]) ++ [(downKey n i, d)] := by
      apply dinsert_append
      intro p hp
      rcases List.mem_append.mp hp with h1 | h2
      · exact hW p h1 (downKey n i, d) (by simp [wEntries])
      · simp only [List.mem_singleton] at h2
        rw [h2]
        exact upKey_ne_downKey hn hn
    have e3 : dinsert (rankKey n i) (MetaVal.rankStr r) st.metadata =
        st.metadata ++ [(rankKey n i, MetaVal.rankStr r)] := by
      apply dinsert_append
      intro p hp
      exact hM p hp (rankKey n i, .rankStr r) (by simp [mEntries])
    rw [e1, e2, e3]
    have hW2 : ∀ p ∈ (st.weights ++ [(upKey n i, u)]) ++ [(downKey n i, d)],
        ∀ q ∈ wEntries n (i + 1) rest, p.1 ≠ q.1 := by
      intro p hp q hq
      obtain ⟨j, hj, hc⟩ := wEntries_key_mem n rest (i + 1) q hq
      rcases List.mem_append.mp hp with hp1 | hp2
      · rcases List.mem_append.mp hp1 with hp3 | hp4
        · refine hW p hp3 q ?_
          simp only [wEntries]
          exact List.mem_cons_of_mem _ (List.mem_cons_of_mem _ hq)
        · simp only [List.mem_singleton] at hp4
          rw [hp4]
          show upKey n i ≠ q.1
          rcases hc with h | h
          · rw [h]
            intro he
            obtain ⟨_, hij⟩ := upKey_inj hn hn he
            omega
          · rw [h]
            exact upKey_ne_downKey hn hn
      · simp only [List.mem_singleton] at hp2
        rw [hp2]
        show downKey n i ≠ q.1
        rcases hc with h | h
        · rw [h]
          intro he
          exact upKey_ne_downKey hn hn he.symm
        · rw [h]
          intro he
          obtain ⟨_, hij⟩ := downKey_inj hn hn he
          omega
    have hM2 : ∀ p ∈ st.metadata ++ [(rankKey n i, MetaVal.rankStr r)],
        ∀ q ∈ mEntries n (i + 1) rest, p.1 ≠ q.1 := by
      intro p hp q hq
      obtain ⟨j, hj, hc⟩ := mEntries_key_mem n rest (i + 1) q hq
      rcases List.mem_append.mp hp with hp1 | hp2
      · refine hM p hp1 q ?_
        simp only [mEntries]
        exact List.mem_cons_of_mem _ hq
      · simp only [List.mem_singleton] at hp2
        rw [hp2]
        show rankKey n i ≠ q.1
        rw [hc]
        intro he
        obtain ⟨_, hij⟩ := rankKey_inj hn hn he
        omega
    rw [ih (i + 1) ⟨(st.weights ++ [(upKey n i, u)]) ++ [(downKey n i, d)],
      st.metadata ++ [(rankKey n i, MetaVal.rankStr r)]⟩ hW2 hM2]
    simp [wEntries, mEntries, List.append_assoc]

theorem modelmap_fold_canon :
    ∀ (mm : List (String × ComponentIn)) (st : SafeFile),
    (∀ c ∈ mm, noColon c.1) →
    ((mm.map Prod.fst).Nodup) →
    (∀ p ∈ st.weights, ∀ c ∈ mm, ∀ j, p.1 ≠ upKey c.1 j ∧ p.1 ≠ downKey c.1 j) →
    (∀ p ∈ st.metadata, ∀ c ∈ mm, p.1 ≠ c.1 ∧ ∀ j, p.1 ≠ rankKey c.1 j) →
    mm.foldl (fun st c => saveComponentLayers c.1 0 c.2.layers
        { st with metadata := dinsert c.1 (.tagsJson c.2.tags) st.metadata }) st =
      ⟨st.weights ++ mm.flatMap (fun c => wEntries c.1 0 c.2.layers),
       st.metadata ++ mm.flatMap
         (fun c => (c.1, MetaVal.tagsJson c.2.tags) :: mEntries c.1 0 c.2.layers)⟩ := by
  intro mm
  induction mm with
  | nil =>
    intro st _ _ _ _
    simp
  | cons c mm2 ih =>
    intro st hcol hnod hWf hMf
    have hname : noColon c.1 := hcol c (List.mem_cons_self _ _)
    rw [List.foldl_cons]
    have e0 : dinsert c.1 (MetaVal.tagsJson c.2.tags) st.metadata =
        st.metadata ++ [(c.1, MetaVal.tagsJson c.2.tags)] :=
      dinsert_append _ _ _ (fun p hp => (hMf p hp c (List.mem_cons_self _ _)).1)
    rw [e0]
    rw [saveComponentLayers_canon c.1 hname c.2.layers 0
      ⟨st.weights, st.metadata ++ [(c.1, MetaVal.tagsJson c.2.tags)]⟩
      (by
        intro p hp q hq
        obtain ⟨j, hj, hc⟩ := wEntries_key_mem c.1 c.2.layers 0 q hq
        have := hWf p hp c (List.mem_cons_self _ _) (0 + j)
        rcases hc with h | h
        · rw [h]; exact this.1
        · rw [h]; exact this.2)
      (by
        intro p hp q hq
        obtain ⟨j, hj, hc⟩ := mEntries_key_mem c.1 c.2.layers 0 q hq
        rcases List.mem_append.mp hp with hp1 | hp2
        · rw [hc]
          exact (hMf p hp1 c (List.mem_cons_self _ _)).2 (0 + j)
        · simp only [List.mem_singleton] at hp2
          rw [hp2, hc]
          show c.1 ≠ rankKey c.1 (0 + j)
          exact ne_of_colon_mem hname (colon_mem_rankKey _ _))]
    dsimp only
    simp only [List.map_cons, List.nodup_cons] at hnod
    obtain ⟨hhead, htail⟩ := hnod
    have hne12 : ∀ c2 ∈ mm2, c.1 ≠ c2.1 := by
      intro c2 h2 he
      exact hhead (he ▸ List.mem_map.mpr ⟨c2, h2, rfl⟩)
    have hcol2 : ∀ c2 ∈ mm2, noColon c2.1 := fun c2 h2 => hcol c2 (List.mem_cons_of_mem _ h2)
    have hWf2 : ∀ p ∈ st.weights ++ wEntries c.1 0 c.2.layers, ∀ c2 ∈ mm2, ∀ j,
        p.1 ≠ upKey c2.1 j ∧ p.1 ≠ downKey c2.1 j := by
      intro p hp c2 h2 j
      rcases List.mem_append.mp hp with hp1 | hp2
      · exact hWf p hp1 c2 (List.mem_cons_of_mem _ h2) j
      · obtain ⟨j0, hj0, hc0⟩ := wEntries_key_mem c.1 c.2.layers 0 p hp2
        have hnc2 := hcol2 c2 h2
        rcases hc0 with h | h
        · rw [h]
          constructor
          · intro he
            exact hne12 c2 h2 (upKey_inj hname hnc2 he).1
          · exact upKey_ne_downKey hname hnc2
        · rw [h]
          constructor
          · intro he
            exact upKey_ne_downKey hnc2 hname he.symm
          · intro he
            exact hne12 c2 h2 (downKey_inj hname hnc2 he).1
    have hMf2 : ∀ p ∈ (st.metadata ++ [(c.1, MetaVal.tagsJson c.2.tags)])
        ++ mEntries c.1 0 c.2.layers, ∀ c2 ∈ mm2,
        p.1 ≠ c2.1 ∧ ∀ j, p.1 ≠ rankKey c2.1 j := by
      intro p hp c2 h2
      have hnc2 := hcol2 c2 h2
      rcases List.mem_append.mp hp with hp1 | hp2
      · rcases List.mem_append.mp hp1 with hp3 | hp4
        · exact hMf p hp3 c2 (List.mem_cons_of_mem _ h2)
        · simp only [List.mem_singleton] at hp4
          rw [hp4]
          exact ⟨hne12 c2 h2, fun j => ne_of_colon_mem hname (colon_mem_rankKey _ _)⟩
      · obtain ⟨j0, hj0, hc0⟩ := mEntries_key_mem c.1 c.2.layers 0 p hp2
        rw [hc0]
        constructor
        · exact (ne_of_colon_mem hnc2 (colon_mem_rankKey _ _)).symm
        · intro j he
          exact hne12 c2 h2 (rankKey_inj hname hnc2 he).1
    rw [ih ⟨st.weights ++ wEntries c.1 0 c.2.layers,
      (st.metadata ++ [(c.1, MetaVal.tagsJson c.2.tags)]) ++ mEntries c.1 0 c.2.layers⟩
      hcol2 htail hWf2 hMf2]
    simp [List.append_assoc]

theorem embeds_fold_canon :
    ∀ (em : List (String × STensor)) (st : SafeFile),
    ((em.map Prod.fst).Nodup) →
    (∀ te ∈ em, (∀ p ∈ st.weights, p.1 ≠ te.1) ∧ (∀ p ∈ st.metadata, p.1 ≠ te.1)) →
    em.foldl (fun st te =>
      { weights := dinsert te.1 te.2 st.weights,
        metadata := dinsert te.1 .embedFlag st.metadata }) st =
      ⟨st.weights ++ em, st.metadata ++ em.map (fun te => (te.1, MetaVal.embedFlag))⟩ := by
  intro em
  induction em with
  | nil =>
    intro st _ _
    simp
  | cons te em2 ih =>
    intro st hnod hfr
    have hte := hfr te (List.mem_cons_self _ _)
    rw [List.foldl_cons]
    have e1 : dinsert te.1 te.2 st.weights = st.weights ++ [(te.1, te.2)] :=
      dinsert_append _ _ _ hte.1
    have e2 : dinsert te.1 MetaVal.embedFlag st.metadata =
        st.metadata ++ [(te.1, MetaVal.embedFlag)] :=
      dinsert_append _ _ _ hte.2
    rw [e1, e2]
    simp only [List.map_cons, List.nodup_cons] at hnod
    obtain ⟨hhead, htail⟩ := hnod
    have hne : ∀ t2 ∈ em2, te.1 ≠ t2.1 := by
      intro t2 h2 he
      exact hhead (he ▸ List.mem_map.mpr ⟨t2, h2, rfl⟩)
    have hfr2 : ∀ t2 ∈ em2, (∀ p ∈ st.weights ++ [(te.1, te.2)], p.1 ≠ t2.1) ∧
        (∀ p ∈ st.metadata ++ [(te.1, MetaVal.embedFlag)], p.1 ≠ t2.1) := by
      intro t2 h2
      constructor
      · intro p hp
        rcases List.mem_append.mp hp with h3 | h4
        · exact (hfr t2 (List.mem_cons_of_mem _ h2)).1 p h3
        · simp only [List.mem_singleton] at h4
          rw [h4]
          exact hne t2 h2
      · intro p hp
        rcases List.mem_append.mp hp with h3 | h4
        · exact (hfr t2 (List.mem_cons_of_mem _ h2)).2 p h3
        · simp only [List.mem_singleton] at h4
          rw [h4]
          exact hne t2 h2
    rw [ih ⟨st.weights ++ [(te.1, te.2)], st.metadata ++ [(te.1, MetaVal.embedFlag)]⟩
      htail hfr2]
    simp [List.append_assoc]

/-- Under the round-trip freshness hypotheses the writer's dict inserts never
overwrite, so the saved file is the canonical append of all entries. -/
theorem writer_canon (mm : List (String × ComponentIn)) (em : List (String × STensor))
    (hN : ∀ c ∈ mm, noColon c.1) (hT : ∀ te ∈ em, noColon te.1)
    (hUniq : (mm.map Prod.fst).Nodup)
    (hTok : (em.map Prod.fst).Nodup)
    (hNT : ∀ c ∈ mm, ∀ te ∈ em, c.1 ≠ te.1) :
    saveSafelorasWithEmbeds mm em = ⟨wAll mm em, mAll mm em⟩ := by
  unfold saveSafelorasWithEmbeds
  rw [modelmap_fold_canon mm ⟨[], []⟩ hN hUniq (by intro p hp; simp at hp)
    (by intro p hp; simp at hp)]
  dsimp only
  have hfr : ∀ te ∈ em,
      (∀ p ∈ ([] : List (String × STensor)) ++ mm.flatMap (fun c => wEntries c.1 0 c.2.layers),
        p.1 ≠ te.1) ∧
      (∀ p ∈ ([] : List (String × MetaVal)) ++ mm.flatMap
          (fun c => (c.1, MetaVal.tagsJson c.2.tags) :: mEntries c.1 0 c.2.layers),
        p.1 ≠ te.1) := by
    intro te hte
    have hnt := hT te hte
    constructor
    · intro p hp
      simp only [List.nil_append, List.mem_flatMap] at hp
      obtain ⟨c, hc, hpc⟩ := hp
      obtain ⟨j, hj, hco⟩ := wEntries_key_mem c.1 c.2.layers 0 p hpc
      rcases hco with h | h
      · rw [h]
        exact (ne_of_colon_mem hnt (colon_mem_upKey _ _)).symm
      · rw [h]
        exact (ne_of_colon_mem hnt (colon_mem_downKey _ _)).symm
    · intro p hp
      simp only [List.nil_append, List.mem_flatMap] at hp
      obtain ⟨c, hc, hpc⟩ := hp
      rcases List.mem_cons.mp hpc with he | hm
      · rw [he]
        exact hNT c hc te hte
      · obtain ⟨j, hj, hco⟩ := mEntries_key_mem c.1 c.2.layers 0 p hm
        rw [hco]
        exact (ne_of_colon_mem hnt (colon_mem_rankKey _ _)).symm
  rw [embeds_fold_canon em ⟨[] ++ mm.flatMap (fun c => wEntries c.1 0 c.2.layers),
    [] ++ mm.flatMap (fun c => (c.1, MetaVal.tagsJson c.2.tags) :: mEntries c.1 0 c.2.layers)⟩
    hTok hfr]
  simp [wAll, mAll]
/-! ### Sorting and grouping: `keys.sort(key=get_name)` and `itertools.groupby` -/

theorem orderedInsert_front (a : String) :
    ∀ l : List String, (∀ c ∈ l, keyLe a c) → List.orderedInsert keyLe a l = a :: l := by
  intro l h
  cases l with
  | nil => rfl
  | cons c cs => rw [List.orderedInsert, if_pos (h c (List.mem_cons_self c cs))]

/-- Filtering commutes with an ordered insert into a sorted list. -/
theorem filter_orderedInsert (p : String → Bool) :
    ∀ s : List String, s.Pairwise keyLe → ∀ a,
    (List.orderedInsert keyLe a s).filter p =
      if p a then List.orderedInsert keyLe a (s.filter p) else s.filter p := by
  intro s
  induction s with
  | nil =>
    intro _ a
    by_cases hp : p a = true <;> simp [List.orderedInsert, List.filter, hp]
  | cons b t ih =>
    intro hs a
    rw [List.pairwise_cons] at hs
    obtain ⟨hb, ht⟩ := hs
    by_cases hab : keyLe a b
    · rw [List.orderedInsert, if_pos hab]
      by_cases hp : p a = true
      · have hfront : ∀ c ∈ (b :: t).filter p, keyLe a c := by
          intro c hc
          rcases List.mem_cons.mp (List.mem_of_mem_filter hc) with he | hm
          · rw [he]; exact hab
          · exact charsLe_trans _ _ _ hab (hb c hm)
        rw [List.filter_cons, if_pos hp, if_pos hp, orderedInsert_front a _ hfront]
      · rw [List.filter_cons, if_neg hp, if_neg hp]
    · rw [List.orderedInsert, if_neg hab]
      simp only [List.filter_cons, ih ht a]
      by_cases hp : p a = true <;> by_cases hpb : p b = true <;>
        simp [hp, hpb, List.orderedInsert, hab]

/-- A stable sort commutes with filtering. -/
theorem filter_insertionSort (p : String → Bool) :
    ∀ l : List String,
    (List.insertionSort keyLe l).filter p = List.insertionSort keyLe (l.filter p) := by
  intro l
  induction l with
  | nil => rfl
  | cons a l ih =>
    rw [List.insertionSort,
      filter_orderedInsert p _ (List.sorted_insertionSort keyLe l) a, ih, List.filter_cons]
    by_cases hp : p a = true
    · rw [if_pos hp, if_pos hp, List.insertionSort]
    · rw [if_neg hp, if_neg hp]

/-- Sorting a list whose elements compare equal pairwise is the identity. -/
theorem insertionSort_tied : ∀ l : List String,
    (∀ a ∈ l, ∀ b ∈ l, keyLe a b) → List.insertionSort keyLe l = l := by
  intro l
  induction l with
  | nil => intro _; rfl
  | cons a t ih =>
    intro h
    rw [List.insertionSort, ih (fun x hx y hy =>
      h x (List.mem_cons_of_mem _ hx) y (List.mem_cons_of_mem _ hy))]
    exact orderedInsert_front a t
      (fun c hc => h a (List.mem_cons_self _ _) c (List.mem_cons_of_mem _ hc))

/-- All keys of one component compare equal, so the stable sort keeps a
component's keys in their original relative order. -/
theorem sortKeys_filter_name (n : String) (l : List String) :
    (sortKeys l).filter (fun k => decide (getName k = n)) =
      l.filter (fun k => decide (getName k = n)) := by
  unfold sortKeys
  rw [filter_insertionSort]
  apply insertionSort_tied
  intro a ha b hb
  have ha2 : getName a = n := by simpa using List.of_mem_filter ha
  have hb2 : getName b = n := by simpa using List.of_mem_filter hb
  show charsLe (getName a).data (getName b).data = true
  rw [ha2, hb2]
  exact charsLe_refl n.data

theorem pyGroupBy_head_name (k : String) (ks : List String) (n0 : String) (g0 : List String)
    (rest : List (String × List String)) (h : pyGroupBy (k :: ks) = (n0, g0) :: rest) :
    n0 = getName k := by
  cases hgb : pyGroupBy ks with
  | nil =>
    rw [pyGroupBy, hgb] at h
    injection h with h1 _
    injection h1 with h2 _
    exact h2.symm
  | cons q qs =>
    obtain ⟨nq, gq⟩ := q
    rw [pyGroupBy, hgb] at h
    dsimp only at h
    by_cases hk : getName k = nq
    · rw [if_pos hk] at h
      injection h with h1 _
      injection h1 with h2 _
      exact h2.symm
    · rw [if_neg hk] at h
      injection h with h1 _
      injection h1 with h2 _
      exact h2.symm

/-- Every group of `groupby` is named by one of its members, drawn from the list. -/
theorem pyGroupBy_group_member : ∀ (l : List String) (p : String × List String),
    p ∈ pyGroupBy l → ∃ k ∈ l, getName k = p.1 ∧ k ∈ p.2 := by
  intro l
  induction l with
  | nil => intro p hp; simp [pyGroupBy] at hp
  | cons k ks ih =>
    intro p hp
    cases hgb : pyGroupBy ks with
    | nil =>
      rw [pyGroupBy, hgb] at hp
      simp only [List.mem_singleton] at hp
      subst hp
      exact ⟨k, List.mem_cons_self _ _, rfl, List.mem_cons_self _ _⟩
    | cons q qs =>
      obtain ⟨nq, gq⟩ := q
      rw [pyGroupBy, hgb] at hp
      dsimp only at hp
      by_cases hk : getName k = nq
      · rw [if_pos hk] at hp
        rcases List.mem_cons.mp hp with he | hm
        · subst he
          exact ⟨k, List.mem_cons_self _ _, rfl, List.mem_cons_self _ _⟩
        · obtain ⟨x, hx, hxn, hxg⟩ := ih p (by rw [hgb]; exact List.mem_cons_of_mem _ hm)
          exact ⟨x, List.mem_cons_of_mem _ hx, hxn, hxg⟩
      · rw [if_neg hk] at hp
        rcases List.mem_cons.mp hp with he | hm
        · subst he
          exact ⟨k, List.mem_cons_self _ _, rfl, List.mem_cons_self _ _⟩
        · obtain ⟨x, hx, hxn, hxg⟩ := ih p (by rw [hgb]; exact hm)
          exact ⟨x, List.mem_cons_of_mem _ hx, hxn, hxg⟩

/-- Two sort keys sandwiching a third are all equal. -/
theorem sandwich_name (k k0 kp : String) (h1 : keyLe k k0) (h2 : keyLe k0 kp)
    (h3 : getName kp = getName k) : getName k = getName k0 := by
  have h2b : charsLe (getName k0).data (getName k).data = true := by
    have := h2
    unfold keyLe at this
    rw [h3] at this
    exact this
  have h := charsLe_antisymm (getName k).data (getName k0).data h1 h2b
  cases hga : getName k with
  | mk da =>
    cases hgb : getName k0 with
    | mk db =>
      rw [hga, hgb] at h
      simp only at h
      rw [h]

/-- In a sorted list headed by `k`, a head name different from the next
element's name never recurs. -/
theorem name_once (k k0 : String) (ks2 : List String) (hk : ∀ x ∈ k0 :: ks2, keyLe k x)
    (hks : (k0 :: ks2).Pairwise keyLe) (hne : getName k ≠ getName k0) :
    ∀ x ∈ k0 :: ks2, getName x ≠ getName k := by
  intro x hx he
  rcases List.mem_cons.mp hx with he0 | hm
  · subst he0
    exact hne he.symm
  · have h2 : keyLe k0 x := (List.pairwise_cons.mp hks).1 x hm
    have h1 : keyLe k k0 := hk k0 (List.mem_cons_self _ _)
    exact hne (sandwich_name k k0 x h1 h2 he)

/-- On a sorted key list, every `groupby` group is exactly the filter fiber of
its name, and group names are pairwise distinct. -/
theorem pyGroupBy_sorted_spec : ∀ s : List String, s.Pairwise keyLe →
    (∀ p ∈ pyGroupBy s, p.2 = s.filter (fun x => decide (getName x = p.1))) ∧
    ((pyGroupBy s).map Prod.fst).Nodup := by
  intro s
  induction s with
  | nil => exact fun _ => ⟨by simp [pyGroupBy], by simp [pyGroupBy]⟩
  | cons k ks ih =>
    intro hs
    rw [List.pairwise_cons] at hs
    obtain ⟨hk, hks⟩ := hs
    obtain ⟨ihF, ihN⟩ := ih hks
    cases hgb : pyGroupBy ks with
    | nil =>
      have hksnil : ks = [] := by
        cases ks with
        | nil => rfl
        | cons a b => exact absurd hgb (pyGroupBy_ne_nil a b)
      subst hksnil
      constructor
      · intro p hp
        rw [pyGroupBy, pyGroupBy] at hp
        simp only [List.mem_singleton] at hp
        subst hp
        simp [List.filter]
      · rw [pyGroupBy, pyGroupBy]
        simp
    | cons q qs =>
      obtain ⟨nq, gq⟩ := q
      cases ks with
      | nil => rw [pyGroupBy] at hgb; exact absurd hgb (by simp)
      | cons k0 ks2 =>
        have hnq : nq = getName k0 := pyGroupBy_head_name k0 ks2 nq gq qs hgb
        by_cases hkk : getName k = nq
        · have hpg : pyGroupBy (k :: k0 :: ks2) = (getName k, k :: gq) :: qs := by
            rw [pyGroupBy, hgb]
            dsimp only
            rw [if_pos hkk]
          rw [hpg]
          have hnodup : nq ∉ qs.map Prod.fst := by
            rw [hgb] at ihN
            simp only [List.map_cons, List.nodup_cons] at ihN
            exact ihN.1
          constructor
          · intro p hp
            rcases List.mem_cons.mp hp with he | hm
            · subst he
              have hfib := ihF (nq, gq) (by rw [hgb]; exact List.mem_cons_self _ _)
              simp only at hfib
              show k :: gq = List.filter (fun x => decide (getName x = getName k)) (k :: k0 :: ks2)
              rw [List.filter_cons, if_pos (by simp)]
              rw [← hkk] at hfib
              rw [hfib]
            · have hfib := ihF p (by rw [hgb]; exact List.mem_cons_of_mem _ hm)
              have hp1 : p.1 ∈ qs.map Prod.fst := List.mem_map.mpr ⟨p, hm, rfl⟩
              have hne : ¬ (getName k = p.1) := by
                intro he2
                rw [hkk] at he2
                exact hnodup (he2 ▸ hp1)
              rw [List.filter_cons, if_neg (by simpa using hne)]
              exact hfib
          · rw [hgb] at ihN
            simp only [List.map_cons] at ihN ⊢
            rw [← hkk] at ihN
            exact ihN
        · have hpg : pyGroupBy (k :: k0 :: ks2) = (getName k, [k]) :: (nq, gq) :: qs := by
            rw [pyGroupBy, hgb]
            dsimp only
            rw [if_neg hkk]
          rw [hpg]
          have hne0 : getName k ≠ getName k0 := by
            rw [← hnq]
            exact hkk
          have hnone : ∀ x ∈ k0 :: ks2, getName x ≠ getName k :=
            name_once k k0 ks2 hk hks hne0
          constructor
          · intro p hp
            rcases List.mem_cons.mp hp with he | hm
            · subst he
              show [k] = List.filter (fun x => decide (getName x = getName k)) (k :: k0 :: ks2)
              rw [List.filter_cons, if_pos (by simp)]
              have hrest : (k0 :: ks2).filter (fun x => decide (getName x = getName k)) = [] := by
                rw [List.filter_eq_nil_iff]
                intro x hx
                simpa using hnone x hx
              rw [hrest]
            · have hfib := ihF p (by rw [hgb]; exact hm)
              obtain ⟨x, hx, hxn, _⟩ := pyGroupBy_group_member (k0 :: ks2) p
                (by rw [hgb]; exact hm)
              have hne : ¬ (getName k = p.1) := by
                intro he2
                exact hnone x hx (by rw [hxn, ← he2])
              rw [List.filter_cons, if_neg (by simpa using hne)]
              exact hfib
          · rw [hgb] at ihN
            simp only [List.map_cons, List.nodup_cons] at ihN ⊢
            refine ⟨?_, ihN⟩
            intro hmem
            rcases List.mem_cons.mp hmem with he | hmem2
            · rw [hnq] at he
              exact hne0 he
            · rw [List.mem_map] at hmem2
              obtain ⟨p, hm, hp1⟩ := hmem2
              obtain ⟨x, hx, hxn, _⟩ := pyGroupBy_group_member (k0 :: ks2) p
                (by rw [hgb]; exact List.mem_cons_of_mem _ hm)
              exact hnone x hx (by rw [hxn, hp1])
/-! ### Lookups in the canonical saved file -/

theorem wAll_cons (c0 : String × ComponentIn) (mm2 : List (String × ComponentIn))
    (em : List (String × STensor)) :
    wAll (c0 :: mm2) em = wEntries c0.1 0 c0.2.layers ++ wAll mm2 em := by
  simp [wAll, List.flatMap_cons, List.append_assoc]

theorem mAll_cons (c0 : String × ComponentIn) (mm2 : List (String × ComponentIn))
    (em : List (String × STensor)) :
    mAll (c0 :: mm2) em =
      ((c0.1, MetaVal.tagsJson c0.2.tags) :: mEntries c0.1 0 c0.2.layers) ++ mAll mm2 em := by
  simp [mAll, List.flatMap_cons, List.append_assoc]

/-- The component's tag metadata is found under its bare name. -/
theorem dget_mAll_name (em : List (String × STensor)) :
    ∀ (mm : List (String × ComponentIn)), (∀ c ∈ mm, noColon c.1) →
    ((mm.map Prod.fst).Nodup) → ∀ c ∈ mm,
    dget (mAll mm em) c.1 = some (MetaVal.tagsJson c.2.tags) := by
  intro mm
  induction mm with
  | nil => intro _ _ c hc; simp at hc
  | cons c0 mm2 ih =>
    intro hN hUniq c hc
    rw [mAll_cons]
    simp only [List.map_cons, List.nodup_cons] at hUniq
    rcases List.mem_cons.mp hc with he | hm
    · subst he
      simp [dget]
    · have hne : c0.1 ≠ c.1 := by
        intro he2
        exact hUniq.1 (he2 ▸ List.mem_map.mpr ⟨c, hm, rfl⟩)
      rw [dget_append_right]
      · exact ih (fun x hx => hN x (List.mem_cons_of_mem _ hx)) hUniq.2 c hm
      · apply dget_eq_none
        intro p hp
        rcases List.mem_cons.mp hp with he2 | hm2
        · rw [he2]; exact hne
        · obtain ⟨j, _, hj⟩ := mEntries_key_mem c0.1 c0.2.layers 0 p hm2
          rw [hj]
          exact (ne_of_colon_mem (hN c (List.mem_cons_of_mem _ hm)) (colon_mem_rankKey _ _)).symm

/-- Each per-layer rank entry is found under its rank key. -/
theorem dget_mAll_rank (em : List (String × STensor)) :
    ∀ (mm : List (String × ComponentIn)), (∀ c ∈ mm, noColon c.1) →
    ((mm.map Prod.fst).Nodup) → ∀ c ∈ mm, ∀ kv ∈ mEntries c.1 0 c.2.layers,
    dget (mAll mm em) kv.1 = some kv.2 := by
  intro mm
  induction mm with
  | nil => intro _ _ c hc; simp at hc
  | cons c0 mm2 ih =>
    intro hN hUniq c hc kv hkv
    have hnc : noColon c.1 := hN c hc
    obtain ⟨j, _, hj⟩ := mEntries_key_mem c.1 c.2.layers 0 kv hkv
    rw [mAll_cons]
    simp only [List.map_cons, List.nodup_cons] at hUniq
    rcases List.mem_cons.mp hc with he | hm
    · subst he
      have hhd : c.1 ≠ kv.1 := by
        rw [hj]
        exact ne_of_colon_mem hnc (colon_mem_rankKey _ _)
      have hin : dget ((c.1, MetaVal.tagsJson c.2.tags) :: mEntries c.1 0 c.2.layers) kv.1
          = some kv.2 := by
        simp only [dget, if_neg hhd]
        exact dget_of_mem_nodup _ (mEntries_keys_nodup c.1 hnc c.2.layers 0) kv hkv
      exact dget_append_left _ _ _ _ hin
    · have hnc0 : noColon c0.1 := hN c0 (List.mem_cons_self _ _)
      have hne : c0.1 ≠ c.1 := by
        intro he2
        exact hUniq.1 (he2 ▸ List.mem_map.mpr ⟨c, hm, rfl⟩)
      rw [dget_append_right]
      · exact ih (fun x hx => hN x (List.mem_cons_of_mem _ hx)) hUniq.2 c hm kv hkv
      · apply dget_eq_none
        intro p hp
        rcases List.mem_cons.mp hp with he2 | hm2
        · rw [he2, hj]
          exact (ne_of_colon_mem hnc0 (colon_mem_rankKey _ _))
        · obtain ⟨j2, _, hj2⟩ := mEntries_key_mem c0.1 c0.2.layers 0 p hm2
          rw [hj2, hj]
          intro he3
          exact hne (rankKey_inj hnc0 hnc he3).1

/-- A token's metadata entry is the embed sentinel. -/
theorem dget_mAll_token (mm : List (String × ComponentIn)) :
    ∀ (em : List (String × STensor)), (∀ c ∈ mm, noColon c.1) →
    (∀ c ∈ mm, ∀ te ∈ em, c.1 ≠ te.1) → (∀ te ∈ em, noColon te.1) → ∀ te ∈ em,
    dget (mAll mm em) te.1 = some MetaVal.embedFlag := by
  intro em hN hNT hT te hte
  unfold mAll
  rw [dget_append_right]
  · have hmem : te.1 ∈ em.map Prod.fst := List.mem_map.mpr ⟨te, hte, rfl⟩
    clear hNT hT hte
    induction em with
    | nil => simp at hmem
    | cons t0 em2 ih =>
      by_cases h0 : t0.1 = te.1
      · simp [dget, h0]
      · simp only [List.map_cons, List.mem_cons] at hmem
        rcases hmem with he | hm
        · exact absurd he.symm h0
        · simp only [List.map_cons, dget, if_neg h0]
          exact ih hm
  · apply dget_eq_none
    intro p hp
    rw [List.mem_flatMap] at hp
    obtain ⟨c, hc, hpc⟩ := hp
    rcases List.mem_cons.mp hpc with he | hm
    · rw [he]
      exact hNT c hc te hte
    · obtain ⟨j, _, hj⟩ := mEntries_key_mem c.1 c.2.layers 0 p hm
      rw [hj]
      exact (ne_of_colon_mem (hT te hte) (colon_mem_rankKey _ _)).symm

/-- Weight keys have no metadata entry of their own. -/
theorem dget_mAll_wkey_none (mm : List (String × ComponentIn)) (em : List (String × STensor))
    (hN : ∀ c ∈ mm, noColon c.1) (hT : ∀ te ∈ em, noColon te.1) :
    ∀ c ∈ mm, ∀ kv ∈ wEntries c.1 0 c.2.layers, dget (mAll mm em) kv.1 = none := by
  intro c hc kv hkv
  have hnc : noColon c.1 := hN c hc
  obtain ⟨j, _, hj⟩ := wEntries_key_mem c.1 c.2.layers 0 kv hkv
  apply dget_eq_none
  intro p hp
  unfold mAll at hp
  rcases List.mem_append.mp hp with h1 | h2
  · rw [List.mem_flatMap] at h1
    obtain ⟨c2, hc2, hpc⟩ := h1
    have hnc2 : noColon c2.1 := hN c2 hc2
    rcases List.mem_cons.mp hpc with he | hm
    · rw [he]
      rcases hj with h | h
      · rw [h]; exact ne_of_colon_mem hnc2 (colon_mem_upKey _ _)
      · rw [h]; exact ne_of_colon_mem hnc2 (colon_mem_downKey _ _)
    · obtain ⟨j2, _, hj2⟩ := mEntries_key_mem c2.1 c2.2.layers 0 p hm
      rw [hj2]
      rcases hj with h | h
      · rw [h]; exact rankKey_ne_upKey hnc2 hnc
      · rw [h]; exact rankKey_ne_downKey hnc2 hnc
  · rw [List.mem_map] at h2
    obtain ⟨te, hte, he⟩ := h2
    rw [← he]
    rcases hj with h | h
    · rw [h]; exact ne_of_colon_mem (hT te hte) (colon_mem_upKey _ _)
    · rw [h]; exact ne_of_colon_mem (hT te hte) (colon_mem_downKey _ _)

/-- Each up/down tensor is found in the weight map under its key. -/
theorem dget_wAll (em : List (String × STensor)) :
    ∀ (mm : List (String × ComponentIn)), (∀ c ∈ mm, noColon c.1) →
    ((mm.map Prod.fst).Nodup) → (∀ c ∈ mm, ∀ te ∈ em, c.1 ≠ te.1) →
    (∀ te ∈ em, noColon te.1) →
    ∀ c ∈ mm, ∀ kv ∈ wEntries c.1 0 c.2.layers,
    dget (wAll mm em) kv.1 = some kv.2 := by
  intro mm
  induction mm with
  | nil => intro _ _ _ _ c hc; simp at hc
  | cons c0 mm2 ih =>
    intro hN hUniq hNT hT c hc kv hkv
    have hnc : noColon c.1 := hN c hc
    obtain ⟨j, _, hj⟩ := wEntries_key_mem c.1 c.2.layers 0 kv hkv
    rw [wAll_cons]
    simp only [List.map_cons, List.nodup_cons] at hUniq
    rcases List.mem_cons.mp hc with he | hm
    · subst he
      exact dget_append_left _ _ _ _
        (dget_of_mem_nodup _ (wEntries_keys_nodup c.1 hnc c.2.layers 0) kv hkv)
    · have hnc0 : noColon c0.1 := hN c0 (List.mem_cons_self _ _)
      have hne : c0.1 ≠ c.1 := by
        intro he2
        exact hUniq.1 (he2 ▸ List.mem_map.mpr ⟨c, hm, rfl⟩)
      rw [dget_append_right]
      · exact ih (fun x hx => hN x (List.mem_cons_of_mem _ hx)) hUniq.2
          (fun x hx => hNT x (List.mem_cons_of_mem _ hx)) hT c hm kv hkv
      · apply dget_eq_none
        intro p hp
        obtain ⟨j2, _, hj2⟩ := wEntries_key_mem c0.1 c0.2.layers 0 p hp
        rcases hj2 with h2 | h2 <;> rcases hj with h | h <;> rw [h2, h]
        · intro he3
          exact hne (upKey_inj hnc0 hnc he3).1
        · exact upKey_ne_downKey hnc0 hnc
        · intro he3
          exact upKey_ne_downKey hnc hnc0 he3.symm
        · intro he3
          exact hne (downKey_inj hnc0 hnc he3).1
/-! ### The groupby fibers of the saved weight keys -/

theorem wEntries_getName (n : String) (hn : noColon n)
    (layers : List (ℕ × STensor × STensor)) (i : ℕ) :
    ∀ x ∈ (wEntries n i layers).map Prod.fst, getName x = n := by
  intro x hx
  rw [List.mem_map] at hx
  obtain ⟨q, hq, he⟩ := hx
  obtain ⟨j, _, hj⟩ := wEntries_key_mem n layers i q hq
  rcases hj with h | h
  · rw [← he, h]; exact getName_upKey n _ hn
  · rw [← he, h]; exact getName_downKey n _ hn

theorem flatMap_keys_getName_ne (n : String) :
    ∀ mm : List (String × ComponentIn), (∀ c ∈ mm, noColon c.1) →
    (∀ c ∈ mm, c.1 ≠ n) →
    ∀ x ∈ ((mm.flatMap fun c2 => wEntries c2.1 0 c2.2.layers).map Prod.fst),
      ¬ (getName x = n) := by
  intro mm hN hname x hx
  rw [List.mem_map] at hx
  obtain ⟨q, hq, he⟩ := hx
  rw [List.mem_flatMap] at hq
  obtain ⟨c2, hc2, hqc⟩ := hq
  have := wEntries_getName c2.1 (hN c2 hc2) c2.2.layers 0 q.1
    (List.mem_map.mpr ⟨q, hqc, rfl⟩)
  rw [← he, this]
  exact hname c2 hc2

theorem em_keys_getName_ne (n : String) :
    ∀ em : List (String × STensor), (∀ te ∈ em, noColon te.1) →
    (∀ te ∈ em, te.1 ≠ n) →
    ∀ x ∈ em.map Prod.fst, ¬ (getName x = n) := by
  intro em hT htok x hx
  rw [List.mem_map] at hx
  obtain ⟨te, hte, he⟩ := hx
  rw [← he, getName_noColon te.1 (hT te hte)]
  exact htok te hte

theorem flatMap_keys_filter_comp :
    ∀ mm : List (String × ComponentIn), (∀ c ∈ mm, noColon c.1) →
    ((mm.map Prod.fst).Nodup) → ∀ c ∈ mm,
    ((mm.flatMap fun c2 => wEntries c2.1 0 c2.2.layers).map Prod.fst).filter
        (fun k => decide (getName k = c.1)) = (wEntries c.1 0 c.2.layers).map Prod.fst := by
  intro mm
  induction mm with
  | nil => intro _ _ c hc; simp at hc
  | cons c0 mm2 ih =>
    intro hN hUniq c hc
    simp only [List.map_cons, List.nodup_cons] at hUniq
    rw [List.flatMap_cons, List.map_append, List.filter_append]
    rcases List.mem_cons.mp hc with he | hm
    · subst he
      have h1 : ((wEntries c.1 0 c.2.layers).map Prod.fst).filter
          (fun k => decide (getName k = c.1)) = (wEntries c.1 0 c.2.layers).map Prod.fst := by
        rw [List.filter_eq_self]
        intro x hx
        simpa using wEntries_getName c.1 (hN c (List.mem_cons_self _ _)) c.2.layers 0 x hx
      have h2 : ((mm2.flatMap fun c2 => wEntries c2.1 0 c2.2.layers).map Prod.fst).filter
          (fun k => decide (getName k = c.1)) = [] := by
        rw [List.filter_eq_nil_iff]
        intro x hx
        simp only [decide_eq_true_eq]
        refine flatMap_keys_getName_ne c.1 mm2
          (fun x2 hx2 => hN x2 (List.mem_cons_of_mem _ hx2)) ?_ x hx
        intro c2 hc2 he2
        exact hUniq.1 (he2 ▸ List.mem_map.mpr ⟨c2, hc2, rfl⟩)
      rw [h1, h2, List.append_nil]
    · have hne : c0.1 ≠ c.1 := by
        intro he2
        exact hUniq.1 (he2 ▸ List.mem_map.mpr ⟨c, hm, rfl⟩)
      have h1 : ((wEntries c0.1 0 c0.2.layers).map Prod.fst).filter
          (fun k => decide (getName k = c.1)) = [] := by
        rw [List.filter_eq_nil_iff]
        intro x hx
        simp only [decide_eq_true_eq]
        rw [wEntries_getName c0.1 (hN c0 (List.mem_cons_self _ _)) c0.2.layers 0 x hx]
        exact hne
      rw [h1, List.nil_append]
      exact ih (fun x hx => hN x (List.mem_cons_of_mem _ hx)) hUniq.2 c hm

/-- The key fiber of a component name consists of exactly that component's
up/down keys, in writer order. -/
theorem wAll_keys_filter_comp (mm : List (String × ComponentIn)) (em : List (String × STensor))
    (hN : ∀ c ∈ mm, noColon c.1) (hUniq : (mm.map Prod.fst).Nodup)
    (hNT : ∀ c ∈ mm, ∀ te ∈ em, c.1 ≠ te.1) (hT : ∀ te ∈ em, noColon te.1) :
    ∀ c ∈ mm, ((wAll mm em).map Prod.fst).filter (fun k => decide (getName k = c.1)) =
      (wEntries c.1 0 c.2.layers).map Prod.fst := by
  intro c hc
  unfold wAll
  rw [List.map_append, List.filter_append, flatMap_keys_filter_comp mm hN hUniq c hc]
  have h2 : (em.map Prod.fst).filter (fun k => decide (getName k = c.1)) = [] := by
    rw [List.filter_eq_nil_iff]
    intro x hx
    simp only [decide_eq_true_eq]
    exact em_keys_getName_ne c.1 em hT (fun te hte => (hNT c hc te hte).symm) x hx
  rw [h2, List.append_nil]

theorem em_keys_filter_token :
    ∀ em : List (String × STensor), (∀ te ∈ em, noColon te.1) →
    ((em.map Prod.fst).Nodup) → ∀ te ∈ em,
    (em.map Prod.fst).filter (fun k => decide (getName k = te.1)) = [te.1] := by
  intro em
  induction em with
  | nil => intro _ _ te hte; simp at hte
  | cons t0 em2 ih =>
    intro hT hnod te hte
    simp only [List.map_cons, List.nodup_cons] at hnod
    rcases List.mem_cons.mp hte with he | hm
    · subst he
      rw [List.map_cons, List.filter_cons,
        if_pos (by simp [getName_noColon te.1 (hT te (List.mem_cons_self _ _))])]
      have h2 : (em2.map Prod.fst).filter (fun k => decide (getName k = te.1)) = [] := by
        rw [List.filter_eq_nil_iff]
        intro x hx
        simp only [decide_eq_true_eq]
        refine em_keys_getName_ne te.1 em2 (fun x2 hx2 => hT x2 (List.mem_cons_of_mem _ hx2))
          ?_ x hx
        intro t2 ht2 he2
        exact hnod.1 (he2 ▸ List.mem_map.mpr ⟨t2, ht2, rfl⟩)
      rw [h2]
    · have hne : t0.1 ≠ te.1 := by
        intro he2
        exact hnod.1 (he2 ▸ List.mem_map.mpr ⟨te, hm, rfl⟩)
      rw [List.map_cons, List.filter_cons,
        if_neg (by simp [getName_noColon t0.1 (hT t0 (List.mem_cons_self _ _))]; exact hne)]
      exact ih (fun x hx => hT x (List.mem_cons_of_mem _ hx)) hnod.2 te hm

/-- The key fiber of an embed token is the token key alone. -/
theorem wAll_keys_filter_token (mm : List (String × ComponentIn)) (em : List (String × STensor))
    (hN : ∀ c ∈ mm, noColon c.1) (hTok : (em.map Prod.fst).Nodup)
    (hNT : ∀ c ∈ mm, ∀ te ∈ em, c.1 ≠ te.1) (hT : ∀ te ∈ em, noColon te.1) :
    ∀ te ∈ em, ((wAll mm em).map Prod.fst).filter (fun k => decide (getName k = te.1)) =
      [te.1] := by
  intro te hte
  unfold wAll
  rw [List.map_append, List.filter_append]
  have h1 : ((mm.flatMap fun c2 => wEntries c2.1 0 c2.2.layers).map Prod.fst).filter
      (fun k => decide (getName k = te.1)) = [] := by
    rw [List.filter_eq_nil_iff]
    intro x hx
    simp only [decide_eq_true_eq]
    exact flatMap_keys_getName_ne te.1 mm hN (fun c hc => hNT c hc te hte) x hx
  rw [h1, List.nil_append]
  exact em_keys_filter_token em hT hTok te hte
/-! ### Evaluating the per-key loop of `parse_safeloras` on a component fiber -/

theorem set_take {α : Type} : ∀ (l : List α) (i : ℕ) (a : α), i < l.length →
    (l.set i a).take (i + 1) = l.take i ++ [a] := by
  intro l
  induction l with
  | nil => intro i a h; simp at h
  | cons x xs ih =>
    intro i a h
    cases i with
    | zero => simp
    | succ i2 =>
      have h2 : i2 < xs.length := by simpa using Nat.lt_of_succ_lt_succ h
      show x :: ((xs.set i2 a).take (i2 + 1)) = x :: (xs.take i2 ++ [a])
      rw [ih i2 a h2]

theorem applyLayers_spec : ∀ (layers : List (ℕ × STensor × STensor)) (i : ℕ)
    (ranks : List ℕ) (ws : List (Option STensor)),
    ranks.length = i + layers.length → ws.length = i * 2 + 2 * layers.length →
    applyLayers i layers (ranks, ws) =
      (ranks.take i ++ parsedRanks layers, ws.take (i * 2) ++ parsedWeights layers) := by
  intro layers
  induction layers with
  | nil =>
    intro i ranks ws h1 h2
    simp only [List.length_nil] at h1 h2
    rw [applyLayers]
    simp only [parsedRanks, parsedWeights, List.map_nil, List.flatMap_nil, List.append_nil]
    rw [List.take_of_length_le (le_of_eq (by omega)),
      List.take_of_length_le (le_of_eq (by omega))]
  | cons t rest ih =>
    intro i ranks ws h1 h2
    obtain ⟨r, u, d⟩ := t
    rw [applyLayers]
    rw [ih (i + 1) (ranks.set i r) ((ws.set (i * 2) (some u)).set (i * 2 + 1) (some d))
      (by simp only [List.length_set]; simp only [List.length_cons] at h1; omega)
      (by simp only [List.length_set]; simp only [List.length_cons] at h2; omega)]
    have e1 : (ranks.set i r).take (i + 1) = ranks.take i ++ [r] := by
      apply set_take
      simp only [List.length_cons] at h1
      omega
    have e2a : ((ws.set (i * 2) (some u)).set (i * 2 + 1) (some d)).take (i * 2 + 1 + 1)
        = (ws.set (i * 2) (some u)).take (i * 2 + 1) ++ [some d] := by
      apply set_take
      simp only [List.length_set, List.length_cons] at *
      omega
    have e2b : (ws.set (i * 2) (some u)).take (i * 2 + 1) = ws.take (i * 2) ++ [some u] := by
      apply set_take
      simp only [List.length_cons] at h2
      omega
    have hidx : (i + 1) * 2 = i * 2 + 1 + 1 := by ring
    rw [hidx, e1, e2a, e2b]
    simp [parsedRanks, parsedWeights, List.append_assoc]

theorem parseKeyStep_up (md : List (String × MetaVal)) (wts : List (String × STensor))
    (n : String) (hn : noColon n) (i r : ℕ) (u : STensor)
    (ranks : List ℕ) (ws : List (Option STensor))
    (hmd : dget md (rankKey n i) = some (MetaVal.rankStr r))
    (hwt : dget wts (upKey n i) = some u)
    (hlr : i < ranks.length) (hlw : i * 2 < ws.length) :
    parseKeyStep md wts n (ranks, ws) (upKey n i) =
      .ok (ranks.set i r, ws.set (i * 2) (some u)) := by
  unfold parseKeyStep
  rw [splitColon_upKey n i hn]
  dsimp only
  rw [pyInt_pyStr]
  dsimp only
  rw [hmd]
  dsimp only
  simp only [pyIntMeta, bind, Except.bind]
  unfold pyListSet
  rw [if_pos hlr]
  dsimp only
  rw [hwt]
  dsimp only
  rw [if_neg (show ¬ (("up" : String) = "down") by decide)]
  rw [if_pos (show i * 2 + 0 < ws.length by omega)]
  dsimp only
  rw [Nat.add_zero]

theorem parseKeyStep_down (md : List (String × MetaVal)) (wts : List (String × STensor))
    (n : String) (hn : noColon n) (i r : ℕ) (d : STensor)
    (ranks : List ℕ) (ws : List (Option STensor))
    (hmd : dget md (rankKey n i) = some (MetaVal.rankStr r))
    (hwt : dget wts (downKey n i) = some d)
    (hlr : i < ranks.length) (hlw : i * 2 + 1 < ws.length) :
    parseKeyStep md wts n (ranks, ws) (downKey n i) =
      .ok (ranks.set i r, ws.set (i * 2 + 1) (some d)) := by
  unfold parseKeyStep
  rw [splitColon_downKey n i hn]
  dsimp only
  rw [pyInt_pyStr]
  dsimp only
  rw [hmd]
  dsimp only
  simp only [pyIntMeta, bind, Except.bind]
  unfold pyListSet
  rw [if_pos hlr]
  dsimp only
  rw [hwt]
  dsimp only
  simp only [if_true]
  rw [if_pos (show i * 2 + 1 < ws.length from hlw)]
theorem fiber_foldlM (md : List (String × MetaVal)) (wts : List (String × STensor))
    (n : String) (hn : noColon n) :
    ∀ (layers : List (ℕ × STensor × STensor)) (i : ℕ)
      (ranks : List ℕ) (ws : List (Option STensor)),
    (∀ kv ∈ mEntries n i layers, dget md kv.1 = some kv.2) →
    (∀ kv ∈ wEntries n i layers, dget wts kv.1 = some kv.2) →
    i + layers.length ≤ ranks.length → i * 2 + 2 * layers.length ≤ ws.length →
    ((wEntries n i layers).map Prod.fst).foldlM (parseKeyStep md wts n) (ranks, ws) =
      .ok (applyLayers i layers (ranks, ws)) := by
  intro layers
  induction layers with
  | nil => intro i ranks ws _ _ _ _; rfl
  | cons t rest ih =>
    intro i ranks ws hmd hwt hlr hlw
    obtain ⟨r, u, d⟩ := t
    simp only [List.length_cons] at hlr hlw
    have hmd0 : dget md (rankKey n i) = some (MetaVal.rankStr r) :=
      hmd (rankKey n i, MetaVal.rankStr r) (List.mem_cons_self _ _)
    have hwtu : dget wts (upKey n i) = some u :=
      hwt (upKey n i, u) (List.mem_cons_self _ _)
    have hwtd : dget wts (downKey n i) = some d :=
      hwt (downKey n i, d) (List.mem_cons_of_mem _ (List.mem_cons_self _ _))
    show (upKey n i :: downKey n i :: (wEntries n (i + 1) rest).map Prod.fst).foldlM
      (parseKeyStep md wts n) (ranks, ws) = _
    rw [List.foldlM_cons]
    rw [parseKeyStep_up md wts n hn i r u ranks ws hmd0 hwtu (by omega) (by omega)]
    simp only [bind, Except.bind]
    rw [List.foldlM_cons]
    rw [parseKeyStep_down md wts n hn i r d (ranks.set i r) (ws.set (i * 2) (some u)) hmd0 hwtd
      (by simp only [List.length_set]; omega) (by simp only [List.length_set]; omega)]
    simp only [bind, Except.bind]
    rw [List.set_set]
    rw [ih (i + 1) (ranks.set i r) ((ws.set (i * 2) (some u)).set (i * 2 + 1) (some d))
      (fun kv hkv => hmd kv (List.mem_cons_of_mem _ hkv))
      (fun kv hkv => hwt kv (List.mem_cons_of_mem _ (List.mem_cons_of_mem _ hkv)))
      (by simp only [List.length_set]; omega)
      (by simp only [List.length_set]; omega)]
    rfl

/-- The reader reconstructs a component exactly from its fiber of keys. -/
theorem parseGroup_comp (md : List (String × MetaVal)) (wts : List (String × STensor))
    (n : String) (hn : noColon n) (tags : List String)
    (layers : List (ℕ × STensor × STensor))
    (hmdn : dget md n = some (MetaVal.tagsJson tags))
    (hmd : ∀ kv ∈ mEntries n 0 layers, dget md kv.1 = some kv.2)
    (hwt : ∀ kv ∈ wEntries n 0 layers, dget wts kv.1 = some kv.2) :
    parseGroup md wts n ((wEntries n 0 layers).map Prod.fst) =
      .ok (some (n, (parsedWeights layers, parsedRanks layers, JsonVal.arr tags))) := by
  unfold parseGroup
  rw [hmdn]
  dsimp only
  simp only [jsonLoadsMeta, bind, Except.bind]
  have hlen : ((wEntries n 0 layers).map Prod.fst).length = 2 * layers.length := by
    rw [List.length_map, wEntries_length]
  rw [hlen, Nat.mul_div_cancel_left layers.length (by omega)]
  rw [fiber_foldlM md wts n hn layers 0 (List.replicate layers.length 4)
    (List.replicate (2 * layers.length) none) hmd hwt
    (by simp) (by simp)]
  simp only [bind, Except.bind]
  rw [applyLayers_spec layers 0 (List.replicate layers.length 4)
    (List.replicate (2 * layers.length) none) (by simp) (by simp)]
  simp

/-- An embed token's group is skipped without touching the dict. -/
theorem parseGroup_token (md : List (String × MetaVal)) (wts : List (String × STensor))
    (t : String) (hmd : dget md t = some MetaVal.embedFlag) (ks : List String) :
    parseGroup md wts t ks = .ok none := by
  unfold parseGroup
  rw [hmd]
theorem filterMap_id_of {α : Type} (f : α → Option α) :
    ∀ l : List α, (∀ a ∈ l, f a = some a) → l.filterMap f = l := by
  intro l
  induction l with
  | nil => intro _; rfl
  | cons a t ih =>
    intro h
    rw [List.filterMap_cons, h a (List.mem_cons_self _ _),
      ih (fun x hx => h x (List.mem_cons_of_mem _ hx))]

/-- Folding the per-group loop over groups that each either skip or insert
their own name produces a dict with exactly the inserted values. -/
theorem foldlM_groups_spec (md : List (String × MetaVal)) (wts : List (String × STensor)) :
    ∀ (gl : List (String × List String)) (acc : List (String × ParsedLora)),
    ((gl.map Prod.fst).Nodup) →
    (∀ p ∈ gl, parseGroup md wts p.1 p.2 = .ok none ∨
      ∃ v, parseGroup md wts p.1 p.2 = .ok (some (p.1, v))) →
    ∃ accF, gl.foldlM (fun acc g => do
        match ← parseGroup md wts g.1 g.2 with
        | none => pure acc
        | some e => pure (dinsert e.1 e.2 acc)) acc = .ok accF ∧
      (∀ p ∈ gl, ∀ v, parseGroup md wts p.1 p.2 = .ok (some (p.1, v)) →
        dget accF p.1 = some v) ∧
      (∀ m, (∀ p ∈ gl, p.1 ≠ m) → dget accF m = dget acc m) ∧
      (∀ m v, dget accF m = some v →
        (∃ p ∈ gl, p.1 = m ∧ ∃ v2, parseGroup md wts p.1 p.2 = .ok (some (p.1, v2))) ∨
        dget acc m = some v) := by
  intro gl
  induction gl with
  | nil =>
    intro acc _ _
    exact ⟨acc, rfl, by simp, fun m _ => rfl, fun m v h => Or.inr h⟩
  | cons g gl2 ih =>
    intro acc hnod H
    simp only [List.map_cons, List.nodup_cons] at hnod
    obtain ⟨hg1, hg2⟩ := hnod
    rcases H g (List.mem_cons_self _ _) with hnone | ⟨v0, hsome⟩
    · obtain ⟨accF, heq, C1, C2, C3⟩ := ih acc hg2 (fun p hp => H p (List.mem_cons_of_mem _ hp))
      refine ⟨accF, ?_, ?_, ?_, ?_⟩
      · rw [List.foldlM_cons, hnone]
        simp only [bind, Except.bind]
        simp only [pure, Except.pure]
        exact heq
      · intro p hp v hpv
        rcases List.mem_cons.mp hp with he | hm
        · subst he
          have h2 := hnone.symm.trans hpv
          injection h2 with h3
          exact Option.noConfusion h3
        · exact C1 p hm v hpv
      · intro m hmne
        exact C2 m (fun p hp => hmne p (List.mem_cons_of_mem _ hp))
      · intro m v hv
        rcases C3 m v hv with ⟨p, hp, he, hex⟩ | hacc
        · exact Or.inl ⟨p, List.mem_cons_of_mem _ hp, he, hex⟩
        · exact Or.inr hacc
    · obtain ⟨accF, heq, C1, C2, C3⟩ := ih (dinsert g.1 v0 acc) hg2
        (fun p hp => H p (List.mem_cons_of_mem _ hp))
      have hgne : ∀ p ∈ gl2, p.1 ≠ g.1 := by
        intro p hp he
        exact hg1 (he ▸ List.mem_map.mpr ⟨p, hp, rfl⟩)
      refine ⟨accF, ?_, ?_, ?_, ?_⟩
      · rw [List.foldlM_cons, hsome]
        simp only [bind, Except.bind]
        simp only [pure, Except.pure]
        exact heq
      · intro p hp v hpv
        rcases List.mem_cons.mp hp with he | hm
        · subst he
          have h2 := hsome.symm.trans hpv
          injection h2 with h3
          injection h3 with h4
          injection h4 with h5 h6
          rw [C2 p.1 hgne, dget_dinsert_same, h6]
        · exact C1 p hm v hpv
      · intro m hmne
        have hgm : g.1 ≠ m := hmne g (List.mem_cons_self _ _)
        rw [C2 m (fun p hp => hmne p (List.mem_cons_of_mem _ hp))]
        exact dget_dinsert_ne g.1 m v0 hgm acc
      · intro m v hv
        rcases C3 m v hv with ⟨p, hp, he, hex⟩ | hacc
        · exact Or.inl ⟨p, List.mem_cons_of_mem _ hp, he, hex⟩
        · by_cases hgm : g.1 = m
          · exact Or.inl ⟨g, List.mem_cons_self _ _, hgm, v0, hsome⟩
          · rw [dget_dinsert_ne g.1 m v0 hgm acc] at hacc
            exact Or.inr hacc
/-- C2 (amended): for every bundle whose component names and embed tokens are
colon-free and pairwise distinct, with no embed token equal to a component
name and every component owning at least one layer, reading the written file
back recovers the bundle exactly: `parse_safeloras` succeeds, maps each
component name to precisely its up/down tensors (slots `2i`/`2i+1`), its rank
list and its decoded tag list, contains nothing else, and
`parse_safeloras_embeds` returns exactly the embeds map. -/
theorem lora_round_trip (mm : List (String × ComponentIn)) (em : List (String × STensor))
    (hN : ∀ c ∈ mm, noColon c.1) (hT : ∀ te ∈ em, noColon te.1)
    (hUniq : (mm.map Prod.fst).Nodup) (hTok : (em.map Prod.fst).Nodup)
    (hNT : ∀ c ∈ mm, ∀ te ∈ em, c.1 ≠ te.1)
    (hLay : ∀ c ∈ mm, c.2.layers ≠ []) :
    ∃ L, parseSafeloras (saveSafelorasWithEmbeds mm em) = .ok L ∧
      (∀ c ∈ mm, dget L c.1 =
        some (parsedWeights c.2.layers, parsedRanks c.2.layers, JsonVal.arr c.2.tags)) ∧
      (∀ m v, dget L m = some v → ∃ c ∈ mm, c.1 = m) ∧
      parseSafelorasEmbeds (saveSafelorasWithEmbeds mm em) = em := by
  rw [writer_canon mm em hN hT hUniq hTok hNT]
  have hembeds : parseSafelorasEmbeds ⟨wAll mm em, mAll mm em⟩ = em := by
    unfold parseSafelorasEmbeds
    dsimp only
    rw [show wAll mm em = (mm.flatMap fun c => wEntries c.1 0 c.2.layers) ++ em from rfl]
    rw [List.filterMap_append]
    have h1 : List.filterMap (fun kv => match dget (mAll mm em) kv.1 with
        | some MetaVal.embedFlag => some kv
        | _ => none) (mm.flatMap fun c => wEntries c.1 0 c.2.layers) = [] := by
      rw [List.filterMap_eq_nil_iff]
      intro kv hkv
      rw [List.mem_flatMap] at hkv
      obtain ⟨c, hc, hkvc⟩ := hkv
      show (match dget (mAll mm em) kv.1 with
        | some MetaVal.embedFlag => some kv
        | _ => none) = none
      rw [dget_mAll_wkey_none mm em hN hT c hc kv hkvc]
    have h2 : List.filterMap (fun kv => match dget (mAll mm em) kv.1 with
        | some MetaVal.embedFlag => some kv
        | _ => none) em = em := by
      apply filterMap_id_of
      intro te hte
      show (match dget (mAll mm em) te.1 with
        | some MetaVal.embedFlag => some te
        | _ => none) = some te
      rw [dget_mAll_token mm em hN hNT hT te hte]
    rw [h1, h2, List.nil_append]
  unfold parseSafeloras
  dsimp only
  have hsorted : List.Pairwise keyLe (sortKeys ((wAll mm em).map Prod.fst)) := by
    have hs := List.sorted_insertionSort keyLe ((wAll mm em).map Prod.fst)
    unfold sortKeys
    exact hs
  obtain ⟨hfib, hnodG⟩ := pyGroupBy_sorted_spec (sortKeys ((wAll mm em).map Prod.fst)) hsorted
  have hgroups : ∀ p ∈ pyGroupBy (sortKeys ((wAll mm em).map Prod.fst)),
      (∃ c ∈ mm, p.1 = c.1) ∨ (∃ te ∈ em, p.1 = te.1) := by
    intro p hp
    obtain ⟨k, hk, hkn, _⟩ := pyGroupBy_group_member _ p hp
    have hk2 : k ∈ (wAll mm em).map Prod.fst := by
      unfold sortKeys at hk
      exact (List.perm_insertionSort keyLe _).mem_iff.mp hk
    rw [List.mem_map] at hk2
    obtain ⟨q, hq, he⟩ := hk2
    unfold wAll at hq
    rcases List.mem_append.mp hq with h1 | h2
    · rw [List.mem_flatMap] at h1
      obtain ⟨c, hc, hqc⟩ := h1
      left
      refine ⟨c, hc, ?_⟩
      rw [← hkn, ← he]
      exact wEntries_getName c.1 (hN c hc) c.2.layers 0 q.1 (List.mem_map.mpr ⟨q, hqc, rfl⟩)
    · right
      refine ⟨q, h2, ?_⟩
      rw [← hkn, ← he]
      exact getName_noColon q.1 (hT q h2)
  have H : ∀ p ∈ pyGroupBy (sortKeys ((wAll mm em).map Prod.fst)),
      parseGroup (mAll mm em) (wAll mm em) p.1 p.2 = .ok none ∨
      ∃ v, parseGroup (mAll mm em) (wAll mm em) p.1 p.2 = .ok (some (p.1, v)) := by
    intro p hp
    have hfibp := hfib p hp
    rcases hgroups p hp with ⟨c, hc, he⟩ | ⟨te, hte, he⟩
    · right
      have hfib2 : p.2 = (wEntries c.1 0 c.2.layers).map Prod.fst := by
        rw [hfibp, he, sortKeys_filter_name c.1 ((wAll mm em).map Prod.fst),
          wAll_keys_filter_comp mm em hN hUniq hNT hT c hc]
      rw [hfib2, he]
      exact ⟨_, parseGroup_comp (mAll mm em) (wAll mm em) c.1 (hN c hc) c.2.tags c.2.layers
        (dget_mAll_name em mm hN hUniq c hc)
        (dget_mAll_rank em mm hN hUniq c hc)
        (dget_wAll em mm hN hUniq hNT hT c hc)⟩
    · left
      rw [he]
      exact parseGroup_token (mAll mm em) (wAll mm em) te.1
        (dget_mAll_token mm em hN hNT hT te hte) p.2
  obtain ⟨accF, heq, C1, C2, C3⟩ := foldlM_groups_spec (mAll mm em) (wAll mm em)
    (pyGroupBy (sortKeys ((wAll mm em).map Prod.fst))) [] hnodG H
  refine ⟨accF, heq, ?_, ?_, hembeds⟩
  · intro c hc
    cases hl : c.2.layers with
    | nil => exact absurd hl (hLay c hc)
    | cons l0 rest =>
      obtain ⟨r0, u0, d0⟩ := l0
      have hkey : upKey c.1 0 ∈ (wAll mm em).map Prod.fst := by
        apply List.mem_map.mpr
        refine ⟨(upKey c.1 0, u0), ?_, rfl⟩
        unfold wAll
        apply List.mem_append_left
        rw [List.mem_flatMap]
        refine ⟨c, hc, ?_⟩
        rw [hl]
        exact List.mem_cons_self _ _
      have hsmem : upKey c.1 0 ∈ sortKeys ((wAll mm em).map Prod.fst) := by
        unfold sortKeys
        exact (List.perm_insertionSort keyLe _).mem_iff.mpr hkey
      obtain ⟨g, hgmem, _⟩ := pyGroupBy_mem_name _ _ hsmem
      have hgname : getName (upKey c.1 0) = c.1 := getName_upKey c.1 0 (hN c hc)
      rw [hgname] at hgmem
      have hfibg := hfib (c.1, g) hgmem
      dsimp only at hfibg
      rw [sortKeys_filter_name c.1 ((wAll mm em).map Prod.fst),
        wAll_keys_filter_comp mm em hN hUniq hNT hT c hc] at hfibg
      have hpg : parseGroup (mAll mm em) (wAll mm em) c.1 g =
          .ok (some (c.1, (parsedWeights c.2.layers, parsedRanks c.2.layers,
            JsonVal.arr c.2.tags))) := by
        rw [hfibg]
        exact parseGroup_comp (mAll mm em) (wAll mm em) c.1 (hN c hc) c.2.tags c.2.layers
          (dget_mAll_name em mm hN hUniq c hc)
          (dget_mAll_rank em mm hN hUniq c hc)
          (dget_wAll em mm hN hUniq hNT hT c hc)
      have hres := C1 (c.1, g) hgmem _ hpg
      rw [hl] at hres
      exact hres
  · intro m v hv
    rcases C3 m v hv with ⟨p, hp, he, v2, hex⟩ | hacc
    · rcases hgroups p hp with ⟨c, hc, he2⟩ | ⟨te, hte, he2⟩
      · exact ⟨c, hc, he2.symm.trans he⟩
      · have htokres := parseGroup_token (mAll mm em) (wAll mm em) te.1
          (dget_mAll_token mm em hN hNT hT te hte) p.2
        rw [he2] at hex
        rw [htokres] at hex
        injection hex with h2
        exact Option.noConfusion h2
    · simp [dget] at hacc
theorem lora_round_trip_witness :
    ∃ L, parseSafeloras (saveSafelorasWithEmbeds
        [("a", ⟨[(4, 10, 11)], ["CrossAttention"]⟩)] [("t", 7)]) = .ok L ∧
      (∀ c ∈ [("a", (⟨[(4, 10, 11)], ["CrossAttention"]⟩ : ComponentIn))], dget L c.1 =
        some (parsedWeights c.2.layers, parsedRanks c.2.layers, JsonVal.arr c.2.tags)) ∧
      (∀ m v, dget L m = some v →
        ∃ c ∈ [("a", (⟨[(4, 10, 11)], ["CrossAttention"]⟩ : ComponentIn))], c.1 = m) ∧
      parseSafelorasEmbeds (saveSafelorasWithEmbeds
        [("a", ⟨[(4, 10, 11)], ["CrossAttention"]⟩)] [("t", 7)]) = [("t", 7)] :=
  lora_round_trip [("a", ⟨[(4, 10, 11)], ["CrossAttention"]⟩)] [("t", 7)]
    (by decide) (by decide) (by decide) (by decide) (by decide) (by decide)

/-- C2 counterexample: the round-trip identity fails as stated when an embed
token coincides with a component name.  The writer stores the component's
tensors, then overwrites the component's tag metadata with the `<embed>`
sentinel under the shared name; the reader then treats the whole group as an
embed group and skips it, so the parsed dict comes back empty and the
component's tensors and ranks are lost. -/
theorem round_trip_token_collision :
    parseSafeloras (saveSafelorasWithEmbeds [("a", ⟨[(4, 1, 2)], ["T"]⟩)] [("a", 3)])
        = .ok [] ∧
      dget (saveSafelorasWithEmbeds [("a", ⟨[(4, 1, 2)], ["T"]⟩)] [("a", 3)]).weights
        (upKey "a" 0) = some 1 := by
  constructor
  · rfl
  · rfl
